import Mathlib

/-!
Verification development for the `smooth_hashtable` repository.

The repository has three layers:
* `tree_list_base<T, compare>` (include/smooth/tree_list.h) — an adaptive
  bucket that is either a singly linked list or a red-black tree; the two
  representations share one `union { list_node_type* head_; rb_node_type* root_; }`.
* `fixed_hashmap<K, V, Hash>` (include/smooth/fixed_hashmap.h) — a flat array
  of such buckets with a count, a hasher and a migration cursor `stolen_bucket_`.
* `hashmap<K, V, Hash>` (include/smooth/hashmap.h) — two `fixed_hashmap`s
  (`current_`, `old_`) with a `rehashing_` flag and incremental migration.

Everything below is a shallow embedding of that C++ code over `Nat` keys,
values and tree elements (the unit tests instantiate with `int` keys, so
`compare` is `<` and key equality is `=`).  Machine pointers become list /
tree values; operations that in C++ run into undefined behaviour (indexing
`table_[i]` out of bounds, `hash % 0`, reading the wrong member of the
list/tree union, a failed `assert`) return `none`.
-/

/-! ## Model of `tree_list_base` (src tree_list.h) -/

/-- Node colors, as in `enum node_color { k_red = 1, k_black }`. -/
inductive node_color
  | k_red
  | k_black
deriving DecidableEq, Repr

/-- An `rb_node_type` subtree: color, left child, payload, right child.
The `parent_` back-pointer of the source is implicit in the tree shape
(every traversal in the source that uses `parent_` is expressed
structurally here). -/
inductive RBT
  | leaf
  | node (c : node_color) (l : RBT) (d : Nat) (r : RBT)
deriving DecidableEq, Repr

/-- `enum data_struct_type { k_linked_list, k_red_black_tree }`. -/
inductive data_struct_type
  | k_linked_list
  | k_red_black_tree
deriving DecidableEq, Repr

/-- The anonymous `union { list_node_type *head_; rb_node_type *root_; }`
at the bottom of `tree_list_base`.  The source reads this union through
whichever member matches `ds_type_`; a read through the wrong member is
type punning and is modelled as a fault (`none`) at the use sites. -/
inductive tl_union
  | head (l : List Nat)
  | root (t : RBT)
deriving DecidableEq, Repr

/-- The state of a `tree_list_base<int>`: the union, `size_` and `ds_type_`. -/
structure TreeList where
  u : tl_union
  size_ : Nat
  ds_type_ : data_struct_type
deriving DecidableEq, Repr

/-- A freshly constructed `tree_list`: `size_ = 0`, list regime, null head. -/
def tl_empty : TreeList := ⟨.head [], 0, .k_linked_list⟩

/-- `tree_list_base::tree_insert_node(z)`: the plain binary-search-tree
descent (`compare(z->data, x->data)` goes left, otherwise right) that links
the new node where the walk ends.  Despite the source comment "Fix the
tree after an insertion to maintain red-black properties", no rotation or
recoloring is performed, and the node `z` keeps the `k_red` color the
`rb_node_type` constructor gave it. -/
def tree_insert_node (t : RBT) (d : Nat) : RBT :=
  match t with
  | .leaf => .node .k_red .leaf d .leaf
  | .node c l x r =>
      if d < x then .node c (tree_insert_node l d) x r
      else .node c l x (tree_insert_node r d)

/-- The list walk inside `tree_list_base::treefy`: each list node's datum is
wrapped in a fresh red `rb_node_type` and passed to `tree_insert_node`. -/
def treefy_fold : List Nat → RBT → RBT
  | [], t => t
  | d :: rest, t => treefy_fold rest (tree_insert_node t d)

/-- `tree_list_base::treefy`: walk the list from `head_`, tree-insert every
element, then set `ds_type_ = k_red_black_tree`.  `size_` is untouched
(`tree_insert_node` does not increment it).  Reading `head_` while the
union holds a tree root would be punning, hence `none` in that case. -/
def treefy (tl : TreeList) : Option TreeList :=
  match tl.u with
  | .head l => some ⟨.root (treefy_fold l .leaf), tl.size_, .k_red_black_tree⟩
  | .root _ => none

/-- Post-order traversal (left, right, node), the order in which
`traversal_un_treefy` visits tree nodes. -/
def postorder : RBT → List Nat
  | .leaf => []
  | .node _ l d r => postorder l ++ postorder r ++ [d]

/-- `tree_list_base::un_treefy`: `traversal_un_treefy(root_)` visits the
tree post-order and calls `list_insert(std::move(node->data()))` on each
element; every `list_insert` prepends and does `++size_`, and the deleted
tree nodes never decrement `size_`, so `size_` ends at twice the node
count.  `ds_type_` is NOT switched back to `k_linked_list` (the source
forgets to).  In the source the first prepended list node's `next` also
aliases the stale `root_` pointer (the union), leaving a dangling tail;
the element content modelled here is what precedes that dangling tail. -/
def un_treefy (tl : TreeList) : Option TreeList :=
  match tl.u with
  | .root t =>
      some ⟨.head (postorder t).reverse, tl.size_ + (postorder t).length, tl.ds_type_⟩
  | .head _ => none

/-- `tree_list_base::treefy_or_un_treefy`: promote when the list regime
already holds `size_ >= 10` elements, attempt demotion when the tree
regime holds `size_ <= 3`.  It runs at the START of `insert`/`emplace`
(before the new element is added) and is not called by any `erase`. -/
def treefy_or_un_treefy (tl : TreeList) : Option TreeList :=
  match tl.ds_type_ with
  | .k_linked_list => if 10 ≤ tl.size_ then treefy tl else some tl
  | .k_red_black_tree => if tl.size_ ≤ 3 then un_treefy tl else some tl

/-- `tree_list_base::insert(P&&)`: first `treefy_or_un_treefy()`, then
`list_insert` (prepend at `head_`, `++size_`) in the list regime or
`tree_insert` (`size_++` and `tree_insert_node` of a fresh red node) in
the tree regime.  A regime/union mismatch (possible because `un_treefy`
leaves `ds_type_` as tree while the union now holds list nodes) is the
type-punning fault, modelled as `none`. -/
def tl_insert (tl : TreeList) (d : Nat) : Option TreeList := do
  let tl ← treefy_or_un_treefy tl
  match tl.ds_type_ with
  | .k_linked_list =>
      match tl.u with
      | .head l => some ⟨.head (d :: l), tl.size_ + 1, .k_linked_list⟩
      | .root _ => none
  | .k_red_black_tree =>
      match tl.u with
      | .root t => some ⟨.root (tree_insert_node t d), tl.size_ + 1, .k_red_black_tree⟩
      | .head _ => none

/-- Run a sequence of `tree_list_base::insert` calls. -/
def tl_insert_seq (tl : TreeList) : List Nat → Option TreeList
  | [] => some tl
  | d :: rest => (tl_insert tl d).bind (fun tl' => tl_insert_seq tl' rest)

/-- Color of a tree's root; `nullptr` children count as black. -/
def colorOf : RBT → node_color
  | .leaf => .k_black
  | .node c _ _ _ => c

/-- No red node has a red child. -/
def noRedRed : RBT → Bool
  | .leaf => true
  | .node c l _ r =>
      (c != .k_red || (colorOf l != .k_red && colorOf r != .k_red))
        && noRedRed l && noRedRed r

/-- Black height if every root-to-leaf path has the same number of black
nodes, `none` otherwise. -/
def blackHeight : RBT → Option Nat
  | .leaf => some 1
  | .node c l _ r => do
      let hl ← blackHeight l
      let hr ← blackHeight r
      if hl = hr then some (hl + (if c = .k_black then 1 else 0)) else none

/-- In-order traversal of the tree. -/
def inorder : RBT → List Nat
  | .leaf => []
  | .node _ l d r => inorder l ++ [d] ++ inorder r

/-- Number of nodes of the tree. -/
def nodeCount : RBT → Nat
  | .leaf => 0
  | .node _ l _ r => nodeCount l + nodeCount r + 1

/-- Strict sortedness of a list (the `Cmp` of the buckets is `<` on keys
and all stored keys are distinct). -/
def isSortedLt : List Nat → Bool
  | [] => true
  | [_] => true
  | x :: y :: rest => x < y && isSortedLt (y :: rest)

/-- The red-black validity predicate of the specification (§3 Data model):
root is black; red nodes have black children; every root-to-leaf path has
equal black height; in-order traversal is `Cmp`-sorted; node count equals
`size`. -/
def isValidRB (t : RBT) (sz : Nat) : Bool :=
  colorOf t = .k_black && noRedRed t && (blackHeight t).isSome
    && isSortedLt (inorder t) && nodeCount t = sz

/-- Project the tree out of a `TreeList` state in tree regime. -/
def tl_root (tl : TreeList) : Option RBT :=
  match tl.u with
  | .root t => some t
  | .head _ => none

/-! ## Model of `fixed_hashmap` (src fixed_hashmap.h)

Keys and mapped values are `Nat` (the tests use `int` keys; mapped values
are modelled by `Nat` with `Mapped() = 0`).  `bucket_type` is
`tree_list_trivial<std::pair<Key, Mapped>>`, an adaptive list/red-black
tree (see the `TreeList` model above for the structure itself); every
`fixed_hashmap` member touches its buckets only through the bucket's
iterator interface (`begin`/`end` scans, `insert`, `emplace`,
`erase(it)`, `empty`, `clear`).  A bucket is modelled by its element
sequence in iteration order together with its `ds_type_` flag (`tree_`
below): in the list regime iteration order is insertion order (prepend
at `head_`), in the tree regime it is the in-order sequence, which for
the fixup-free BST insertion of this code is the sequence sorted by the
pair order (by key, since keys within a bucket are distinct).  The
regime transitions of `tree_list_base::treefy_or_un_treefy`, which
`insert`/`emplace` run before inserting, are modelled exactly: a
list-regime bucket of size `>= 10` is promoted (`treefy`, which works:
the bucket becomes its key-sorted sequence and the flag flips), and on a
tree-regime bucket of size `<= 3` `un_treefy` is run, whose
`traversal_un_treefy` writes `head_` through the `head_`/`root_` union
while still walking `root_` — undefined behaviour, a fault.  `begin()`
on a tree-regime bucket runs `root_->left()` without a null check, so
every bucket scan (insert, emplace/at, erase, find, contains) on an
EMPTY tree-regime bucket — reachable, e.g. a fully drained tree bucket
of `old_`, since nothing ever demotes — is a null dereference, a fault.
`steal_elements` guards its scans with `!bucket.empty()` and never
transitions a regime.  C++ faults (the above, indexing `table_[i]` out
of range, `hash % 0` when the bucket array has been freed, a failing
`assert`) are `none`. -/

/-- A key-value pair `std::pair<Key, Mapped>`. -/
abbrev KV := Nat × Nat

/-- State of a `fixed_hashmap<Key, Mapped, Hash>`: the bucket array
`table_` (an `mmap_array<bucket_type>`), the element count `size_`, the
hasher `hash_function_`, and the migration cursor `stolen_bucket_`
(an `int64_t`, hence `Int`: it is initialized to `initial_size - 1`,
which is `-1` for a zero-capacity table). -/
structure FixedHM where
  table_ : List (List KV)
  size_ : Nat
  hash_function_ : Nat → Nat
  stolen_bucket_ : Int
  tree_ : Nat → Bool

/-- A default-constructed `Hash()` as used when a constructor argument is
omitted; for `std::hash<int>` this is the identity on the key. -/
def defaultHashFn : Nat → Nat := fun k => k

/-- `fixed_hashmap(initial_size, hash)`: `initial_size` empty buckets,
`size_ = 0`, `stolen_bucket_ = initial_size - 1`, every bucket in the
list regime (`tree_list` default-constructs with `k_linked_list`). -/
def fhNew (initial_size : Nat) (hash : Nat → Nat) : FixedHM :=
  ⟨List.replicate initial_size [], 0, hash, (initial_size : Int) - 1,
   fun _ => false⟩

/-- `fixed_hashmap::hash(key) = hash_function_(key) % table_.size()`.
When the bucket array is empty (length 0, e.g. after `clear()`), the
modulo is a division by zero: a fault. -/
def FixedHM.hash (t : FixedHM) (k : Nat) : Option Nat :=
  if t.table_.length = 0 then none
  else some (t.hash_function_ k % t.table_.length)

/-- The `for (auto it = bucket.begin(); it != bucket.end(); ++it)
if (it->first == key)` scan every `fixed_hashmap` operation performs. -/
def bucketScan (bucket : List KV) (k : Nat) : Option KV :=
  bucket.find? (fun p => p.1 == k)

/-- The in-order position at which `tree_insert_node` places a new pair:
the BST is ordered by `std::less<std::pair<Key, Mapped>>` and bucket keys
are distinct, so the in-order sequence stays sorted by key and the new
pair lands at its key-sorted position. -/
def insertSortedByKey (kv : KV) : List KV → List KV
  | [] => [kv]
  | p :: rest =>
      if kv.1 < p.1 then kv :: p :: rest else p :: insertSortedByKey kv rest

/-- `tree_list_base::treefy()`: the list is rebuilt as a BST via
`tree_insert_node`, so the bucket's iteration order becomes the in-order
(key-sorted) sequence of its elements. -/
def sortByKey : List KV → List KV
  | [] => []
  | p :: rest => insertSortedByKey p (sortByKey rest)

/-- `tree_list_base::insert` as called on a scan miss: first
`treefy_or_un_treefy()` — promote a list-regime bucket of size `>= 10`,
FAULT (`un_treefy` union corruption) on a tree-regime bucket of size
`<= 3` — then `list_insert` (prepend) or `tree_insert` (key-sorted
position).  Returns the updated bucket and its new regime flag. -/
def bucketInsert (tr : Bool) (bucket : List KV) (kv : KV) :
    Option (List KV × Bool) :=
  if tr then
    if bucket.length ≤ 3 then none
    else some (insertSortedByKey kv bucket, true)
  else if 10 ≤ bucket.length then
    some (insertSortedByKey kv (sortByKey bucket), true)
  else some (kv :: bucket, false)

/-- `fixed_hashmap::insert(kv)`: hash, scan the bucket
(`bucket.begin()`, a FAULT on an empty tree-regime bucket) for the key,
return `false` without touching anything if found, otherwise
`bucket.insert` (`treefy_or_un_treefy`, then prepend or tree insert) and
`size_++`.  `fixed_hashmap::emplace` has the same observable behaviour
(it builds the pair first, dedups on its key in `emplace_with_key`, then
inserts via `bucket.emplace`). -/
def fhInsert (t : FixedHM) (kv : KV) : Option (FixedHM × Bool) := do
  let idx ← t.hash kv.1
  let bucket ← t.table_.get? idx
  if t.tree_ idx ∧ bucket.isEmpty then none
  else
    match bucketScan bucket kv.1 with
    | some _ => some (t, false)
    | none => do
        let (bucket2, tr2) ← bucketInsert (t.tree_ idx) bucket kv
        some ({ t with table_ := t.table_.set idx bucket2,
                       size_ := t.size_ + 1,
                       tree_ := if t.tree_ idx = tr2 then t.tree_
                                else fun j => if j = idx then tr2 else t.tree_ j },
              true)

/-- Remove the first pair with the given key from a bucket (the source
scans with an iterator and calls `bucket.erase(it)` on the first hit). -/
def eraseFirst (bucket : List KV) (k : Nat) : List KV :=
  match bucket with
  | [] => []
  | p :: rest => if p.1 == k then rest else p :: eraseFirst rest k

/-- `fixed_hashmap::erase(key)`: hash, scan (`bucket.begin()`, a FAULT
on an empty tree-regime bucket), unlink the hit via `bucket.erase(it)`
(list unlink or `delete_node`, which removes exactly that pair from the
in-order sequence; no regime transition) and `size_--` returning 1, or
return 0.  (`size_` is a `size_t`; under the invariants proved below it
is positive whenever a hit exists, so `Nat` subtraction is exact.) -/
def fhErase (t : FixedHM) (k : Nat) : Option (FixedHM × Nat) := do
  let idx ← t.hash k
  let bucket ← t.table_.get? idx
  if t.tree_ idx ∧ bucket.isEmpty then none
  else
    match bucketScan bucket k with
    | some _ =>
        some ({ t with table_ := t.table_.set idx (eraseFirst bucket k),
                       size_ := t.size_ - 1 }, 1)
    | none => some (t, 0)

/-- `fixed_hashmap::contains(key)`: a `cbegin()` scan — a FAULT on an
empty tree-regime bucket. -/
def fhContains (t : FixedHM) (k : Nat) : Option Bool := do
  let idx ← t.hash k
  let bucket ← t.table_.get? idx
  if t.tree_ idx ∧ bucket.isEmpty then none
  else some (bucketScan bucket k).isSome

/-- `fixed_hashmap::find(key)`: a `begin()` scan — a FAULT on an empty
tree-regime bucket; the inner `Option` is the referenced pair (`none`
models the end iterator). -/
def fhFind (t : FixedHM) (k : Nat) : Option (Option KV) := do
  let idx ← t.hash k
  let bucket ← t.table_.get? idx
  if t.tree_ idx ∧ bucket.isEmpty then none
  else some (bucketScan bucket k)

/-- Mutable `fixed_hashmap::at(key)`: scan (`bucket.begin()`, a FAULT on
an empty tree-regime bucket); return the mapped value on a hit without
touching the bucket, otherwise `bucket.emplace(key, Mapped())` — the
same `treefy_or_un_treefy`-then-insert as `bucket.insert` — and
`size_++`, returning the default. -/
def fhAt (t : FixedHM) (k : Nat) : Option (FixedHM × Nat) := do
  let idx ← t.hash k
  let bucket ← t.table_.get? idx
  if t.tree_ idx ∧ bucket.isEmpty then none
  else
    match bucketScan bucket k with
    | some p => some (t, p.2)
    | none => do
        let (bucket2, tr2) ← bucketInsert (t.tree_ idx) bucket (k, 0)
        some ({ t with table_ := t.table_.set idx bucket2,
                       size_ := t.size_ + 1,
                       tree_ := if t.tree_ idx = tr2 then t.tree_
                                else fun j => if j = idx then tr2 else t.tree_ j },
              0)

/-- `fixed_hashmap::clear()`: clears each bucket, then `table_.clear()` —
`mmap_array::clear` FREES the array and sets its length to 0 — and
`size_ = 0`.  `stolen_bucket_` is left as it was. -/
def fhClear (t : FixedHM) : FixedHM :=
  { t with table_ := [], size_ := 0 }

/-- `k_max_steal_iterations = 300`, the per-call scan fuse in
`steal_elements`. -/
def k_max_steal_iterations : Nat := 300

/-- The outer `while` loop of `fixed_hashmap::steal_elements`, recursing
on the cursor (a non-negative `int64_t` inside the loop).  Arguments
mirror the mutated locals: bucket array, `size_`, the saved
`start_bucket`, remaining `num_to_steal`, accumulated `stolen_elements`,
and `stolen_bucket_`.  Each iteration drains the cursor's bucket from the
front (`bucket.begin()` + `bucket.erase(it)`), then either breaks at
cursor 0 (where `assert(size_ == 0)` must hold if the bucket emptied — a
failing assert is a fault), decrements the cursor if the bucket emptied,
or stops because `num_to_steal` ran out. -/
def stealOuter (tbl : List (List KV)) (sz : Nat) (start : Nat) (n : Nat)
    (acc : List KV) : Nat → Option (List KV × List (List KV) × Nat × Int)
  | 0 =>
      if n = 0 then some (acc, tbl, sz, 0)
      else if k_max_steal_iterations < start - 0 then some (acc, tbl, sz, 0)
      else
        match tbl.get? 0 with
        | none => none
        | some bucket =>
            let taken := bucket.take n
            let bucket' := bucket.drop n
            let tbl' := tbl.set 0 bucket'
            let sz' := sz - taken.length
            let acc' := acc ++ taken
            if bucket'.isEmpty then
              (if sz' = 0 then some (acc', tbl', sz', 0) else none)
            else some (acc', tbl', sz', 0)
  | c + 1 =>
      if n = 0 then some (acc, tbl, sz, ((c + 1 : Nat) : Int))
      else if k_max_steal_iterations < start - (c + 1) then
        some (acc, tbl, sz, ((c + 1 : Nat) : Int))
      else
        match tbl.get? (c + 1) with
        | none => none
        | some bucket =>
            let taken := bucket.take n
            let bucket' := bucket.drop n
            let tbl' := tbl.set (c + 1) bucket'
            let sz' := sz - taken.length
            let n' := n - taken.length
            let acc' := acc ++ taken
            if bucket'.isEmpty then stealOuter tbl' sz' start n' acc' c
            else some (acc', tbl', sz', ((c + 1 : Nat) : Int))

/-- `fixed_hashmap::steal_elements(num_to_steal)`: no-op when the loop
guard `num_to_steal > 0 && stolen_bucket_ >= 0` fails, otherwise the
outer loop starting at `start_bucket = stolen_bucket_`. -/
def fhSteal (t : FixedHM) (num_to_steal : Nat) : Option (List KV × FixedHM) :=
  if t.stolen_bucket_ < 0 ∨ num_to_steal = 0 then some ([], t)
  else
    match stealOuter t.table_ t.size_ t.stolen_bucket_.toNat num_to_steal []
        t.stolen_bucket_.toNat with
    | none => none
    | some (stolen, tbl', sz', cur') =>
        some (stolen, { t with table_ := tbl', size_ := sz', stolen_bucket_ := cur' })

/-! ## Model of `hashmap` (src hashmap.h) -/

/-- State of a `hashmap<Key, Mapped, Hash>`: the two tables and the
`rehashing_` flag. -/
structure HM where
  current_ : FixedHM
  old_ : FixedHM
  rehashing_ : Bool

/-- `hashmap(initial_size, hash)`: both tables are built with
`initial_size` buckets and the supplied hasher; `rehashing_ = false`. -/
def hmNew (initial_size : Nat) (hash : Nat → Nat) : HM :=
  ⟨fhNew initial_size hash, fhNew initial_size hash, false⟩

/-- `k_num_items_to_steal = 1` (`STEAL_BATCH`). -/
def k_num_items_to_steal : Nat := 1

/-- The `for (auto& element : elements) current_.insert(std::move(element))`
loop of `move_progressively`. -/
def insertAll (t : FixedHM) : List KV → Option FixedHM
  | [] => some t
  | kv :: rest => do
      let (t', _) ← fhInsert t kv
      insertAll t' rest

/-- `hashmap::move_progressively()`: nothing when not rehashing; otherwise
steal up to `k_num_items_to_steal` elements from `old_`.  If the steal
came back empty and `old_` is now empty, rehashing is finished:
`rehashing_ = false` and `on_rehashing_finished()` replaces `old_` by a
fresh capacity-1 table (built with a default `Hash()`).  Otherwise the
stolen elements are inserted into `current_`. -/
def move_progressively (m : HM) : Option HM :=
  if ¬m.rehashing_ then some m
  else do
    let (elements, old') ← fhSteal m.old_ k_num_items_to_steal
    if elements.isEmpty ∧ old'.size_ = 0 then
      some { m with rehashing_ := false, old_ := fhNew 1 defaultHashFn }
    else do
      let cur' ← insertAll m.current_ elements
      some { m with current_ := cur', old_ := old' }

/-- `hashmap::rehash(new_size)`: `assert(old_.empty())` (a failing assert
is a fault), then `old_ = fixed_hashmap(new_size)` — note: built with a
default-constructed `Hash()`, not the map's hasher — and
`old_.swap(current_)`, which exchanges `table_`, `size_`,
`stolen_bucket_` AND `hash_function_`; finally `rehashing_ = true`.  Net:
`current_` is the fresh table (with the default hasher) and `old_` is the
former `current_` (keeping its hasher). -/
def hmRehash (m : HM) (new_size : Nat) : Option HM :=
  if m.old_.size_ ≠ 0 then none
  else some ⟨fhNew new_size defaultHashFn, m.current_, true⟩

/-- `hashmap::maybe_rehash()`: nothing while rehashing; otherwise begin a
grow to `2 * bucket_count` when `size * 4 >= bucket_count * 3`, else a
shrink to `3 * size` when `bucket_count > size * 4 && bucket_count > 16`. -/
def maybe_rehash (m : HM) : Option HM :=
  if m.rehashing_ then some m
  else
    let map_size := m.current_.size_
    let bucket_size := m.current_.table_.length
    if bucket_size * 3 ≤ map_size * 4 then hmRehash m (bucket_size * 2)
    else if map_size * 4 < bucket_size ∧ 16 < bucket_size then
      hmRehash m (map_size * 3)
    else some m

/-- `hashmap::insert(kv)`: `move_progressively()` first; then, when not
rehashing, a plain `current_.insert`; when rehashing, probe `old_` first
and return `(iterator_into_old, false)` without modifying anything if the
key is there, else `current_.insert`.  The `maybe_rehash_guard`
destructor runs `maybe_rehash()` on every return path.
`hashmap::emplace` has the same observable behaviour. -/
def hmInsert (m : HM) (kv : KV) : Option (HM × Bool) := do
  let m ← move_progressively m
  if ¬m.rehashing_ then
    let (cur', inserted) ← fhInsert m.current_ kv
    let m3 ← maybe_rehash { m with current_ := cur' }
    some (m3, inserted)
  else do
    let found ← fhFind m.old_ kv.1
    match found with
    | some _ =>
        let m3 ← maybe_rehash m
        some (m3, false)
    | none =>
        let (cur', inserted) ← fhInsert m.current_ kv
        let m3 ← maybe_rehash { m with current_ := cur' }
        some (m3, inserted)

/-- Mutable `hashmap::at(key)` (also `operator[]`, which just calls `at`):
`move_progressively()`, then the fast path `current_.at` when not
rehashing; when rehashing, return the value from `old_` if present there,
else `current_.at` (which default-inserts on a miss).  The
`maybe_rehash_guard` runs on every return path. -/
def hmAt (m : HM) (k : Nat) : Option (HM × Nat) := do
  let m ← move_progressively m
  if ¬m.rehashing_ then
    let (cur', v) ← fhAt m.current_ k
    let m3 ← maybe_rehash { m with current_ := cur' }
    some (m3, v)
  else do
    let found ← fhFind m.old_ k
    match found with
    | some p =>
        let m3 ← maybe_rehash m
        some (m3, p.2)
    | none =>
        let (cur', v) ← fhAt m.current_ k
        let m3 ← maybe_rehash { m with current_ := cur' }
        some (m3, v)

/-- `hashmap::erase(key)`: `move_progressively()`, then `current_.erase`
only when not rehashing; when rehashing, erase from BOTH tables, call
`maybe_rehash()` explicitly, and return the max of the two counts.  The
`maybe_rehash_guard` destructor runs `maybe_rehash()` once more at scope
exit. -/
def hmErase (m : HM) (k : Nat) : Option (HM × Nat) := do
  let m ← move_progressively m
  if ¬m.rehashing_ then
    let (cur', n) ← fhErase m.current_ k
    let m3 ← maybe_rehash { m with current_ := cur' }
    some (m3, n)
  else do
    let (cur', n1) ← fhErase m.current_ k
    let (old', n2) ← fhErase m.old_ k
    let m2 ← maybe_rehash { m with current_ := cur', old_ := old' }
    let m3 ← maybe_rehash m2
    some (m3, max n1 n2)

/-- `hashmap::clear()`: clear both tables, `rehashing_ = false`. -/
def hmClear (m : HM) : HM :=
  ⟨fhClear m.current_, fhClear m.old_, false⟩

/-- `hashmap::size()`. -/
def hmSize (m : HM) : Nat := m.current_.size_ + m.old_.size_

/-- `hashmap::contains(key) = current_.contains(key) || old_.contains(key)`,
with C++ short-circuit evaluation; threaded through the state to record
that it performs no mutation (the body contains no writes and no
`move_progressively` call). -/
def hmContainsSt (m : HM) (k : Nat) : Option (HM × Bool) := do
  let b1 ← fhContains m.current_ k
  if b1 then some (m, true)
  else do
    let b2 ← fhContains m.old_ k
    some (m, b1 || b2)

/-- `hashmap::find(const Key&)` (the non-template overload), threaded
through the state to record that it performs no mutation.  Faithful to
the source bug: the `!rehashing_` fast path computes `current_.find(key)`
and builds an iterator but is missing its `return`, so the result is
discarded and the larger/smaller two-table probe below always runs.  The
result models the returned iterator as `none` for end or
`some (in_current, pair)`. -/
def hmFindSt (m : HM) (k : Nat) : Option (HM × Option (Bool × KV)) := do
  let _ ← (if ¬m.rehashing_ then (fhFind m.current_ k).map (fun _ => ()) else some ())
  let current_is_larger := m.old_.size_ < m.current_.size_
  let larger := if current_is_larger then m.current_ else m.old_
  let smaller := if current_is_larger then m.old_ else m.current_
  let r1 ← fhFind larger k
  match r1 with
  | some p => some (m, some (current_is_larger, p))
  | none => do
      let r2 ← fhFind smaller k
      match r2 with
      | some p => some (m, some (!current_is_larger, p))
      | none => some (m, none)

/-! ## Model of the iterators (hashmap.h / fixed_hashmap.h)

A `fixed_map_iterator_base` holds a pointer `table_` to the bucket array
it walks (here: which of the two map tables), the bucket index `index_`,
the bucket-node iterator `bucket_it_` (here: the position of that node in
its bucket), and the `end_` flag.  A `hashmap_iterator_base` wraps one of
those plus `which_` and its own `end_` flag. -/

/-- A `fixed_map_iterator_base` value. -/
structure fixed_map_iterator where
  in_current : Bool
  index_ : Nat
  pos : Nat
  end_ : Bool
deriving DecidableEq, Repr

/-- `fixed_map_iterator_base::operator==`: both end → equal; one end →
unequal; otherwise `bucket_it_ == other.bucket_it_ && index_ == other.index_`
(node-pointer equality: same table, same bucket, same slot). -/
def fixedIterEq (a b : fixed_map_iterator) : Bool :=
  if a.end_ && b.end_ then true
  else if a.end_ || b.end_ then false
  else a.in_current == b.in_current && a.pos == b.pos && a.index_ == b.index_

/-- A `hashmap_iterator_base` value. -/
structure hashmap_iterator where
  which_ : Nat
  it_ : fixed_map_iterator
  end_ : Bool
deriving DecidableEq, Repr

/-- The five-argument `hashmap_iterator_base` constructor.  Its member
initializer list is `..., it_(it), end_(end), which_(0)`: the `which`
PARAMETER is ignored and `which_` is hard-coded to 0. -/
def mk_hashmap_iterator (which : Nat) (it : fixed_map_iterator) (endb : Bool) :
    hashmap_iterator :=
  ⟨0, it, endb⟩

/-- `hashmap_iterator_base::operator==`: both end → `true`; one end →
`false`; different `which_` → `false`; otherwise the source returns
`it_ != other.it_` — the NEGATION of underlying-iterator equality. -/
def hmIterEq (a b : hashmap_iterator) : Bool :=
  if a.end_ && b.end_ then true
  else if a.end_ || b.end_ then false
  else if a.which_ ≠ b.which_ then false
  else !(fixedIterEq a.it_ b.it_)

/-- `hashmap_iterator_base::operator!=` is `!(*this == other)`. -/
def hmIterNe (a b : hashmap_iterator) : Bool := !(hmIterEq a b)

/-- The table a fixed iterator walks (its `table_` pointer: `&current_`
or `&old_`). -/
def tableOf (m : HM) (inCur : Bool) : FixedHM :=
  if inCur then m.current_ else m.old_

/-- Scan helper: the first index `j` (counting from `i`) whose bucket in
the given suffix is non-empty. -/
def firstNonEmptyGo : List (List KV) → Nat → Option Nat
  | [], _ => none
  | b :: rest, j => if b.isEmpty then firstNonEmptyGo rest (j + 1) else some j

/-- Smallest bucket index `≥ i` whose bucket is non-empty (the scan both
`fixed_hashmap::begin` and `fixed_map_iterator_base::increase` perform). -/
def firstNonEmptyFrom (tbl : List (List KV)) (i : Nat) : Option Nat :=
  firstNonEmptyGo (tbl.drop i) i

/-- `fixed_hashmap::begin()`: iterator at the first element of the first
non-empty bucket, or the end iterator. -/
def fixedBegin (m : HM) (inCur : Bool) : fixed_map_iterator :=
  match firstNonEmptyFrom (tableOf m inCur).table_ 0 with
  | some i => ⟨inCur, i, 0, false⟩
  | none => ⟨inCur, 0, 0, true⟩

/-- `fixed_map_iterator_base::increase()`: throws on an end iterator
(fault); otherwise `++bucket_it_` within the current bucket, then scan
the following buckets for a non-empty one, else become end. -/
def fixedInc (m : HM) (it : fixed_map_iterator) : Option fixed_map_iterator :=
  if it.end_ then none
  else
    let tbl := (tableOf m it.in_current).table_
    let bucket := (tbl.get? it.index_).getD []
    if it.pos + 1 < bucket.length then some { it with pos := it.pos + 1 }
    else
      match firstNonEmptyFrom tbl (it.index_ + 1) with
      | some j => some { it with index_ := j, pos := 0 }
      | none => some { it with end_ := true }

/-- `hashmap::begin()`: start at `current_.begin()`; if `current_` is
empty fall back to `old_.begin()` (passing `which = 1` to the constructor
— which the constructor ignores); if both are empty, the end iterator. -/
def hmBegin (m : HM) : hashmap_iterator :=
  let it := fixedBegin m true
  if it.end_ then
    let it2 := fixedBegin m false
    if it2.end_ then mk_hashmap_iterator 0 it2 true
    else mk_hashmap_iterator 1 it2 false
  else mk_hashmap_iterator 0 it false

/-- `hashmap_iterator_base::increase()`: throws on end (fault).  In state
`which_ == 0` it advances `it_` (in whatever table `it_` actually walks),
returns if `it_` is not at end, otherwise switches to
`table_old().begin()` with `which_ = 1`, or becomes end if `old_` is
empty.  In state `which_ == 1` it advances `it_` and becomes end when
`it_` reaches end.  (The comparisons `it_ != table_current().end()` /
`it_ != table_old().end()` reduce to whether `it_` is an end iterator,
since any end iterator compares equal to any other.) -/
def hmIterInc (m : HM) (a : hashmap_iterator) : Option hashmap_iterator :=
  if a.end_ then none
  else if a.which_ = 0 then do
    let it' ← fixedInc m a.it_
    if ¬it'.end_ then some { a with it_ := it' }
    else
      let it2 := fixedBegin m false
      if it2.end_ then some { a with which_ := 0, it_ := it2, end_ := true }
      else some { a with which_ := 1, it_ := it2 }
  else do
    let it' ← fixedInc m a.it_
    if ¬it'.end_ then some { a with it_ := it' }
    else some { a with which_ := 0, it_ := it', end_ := true }

/-- Dereference (`operator*`) of a hashmap iterator: the pair its
`bucket_it_` points at; dereferencing end is a fault. -/
def hmIterDeref (m : HM) (a : hashmap_iterator) : Option KV :=
  if a.end_ then none
  else do
    let bucket ← (tableOf m a.it_.in_current).table_.get? a.it_.index_
    bucket.get? a.it_.pos

/-- The `for (it = begin(); it != end(); ++it)` loop: collect the
dereferenced elements until the iterator's `end_` flag is set (an
iterator with `end_` compares equal to `end()`), with fuel to bound the
walk. -/
def hmIterate (m : HM) : Nat → hashmap_iterator → Option (List KV)
  | 0, _ => none
  | fuel + 1, a =>
      if a.end_ then some []
      else do
        let v ← hmIterDeref m a
        let a' ← hmIterInc m a
        let rest ← hmIterate m fuel a'
        some (v :: rest)

/-- Iterate the whole map from `begin()`. -/
def hmToList (m : HM) (fuel : Nat) : Option (List KV) :=
  hmIterate m fuel (hmBegin m)

/-! ## Observers and invariants

The observers below (`allPairs`, `keyCount`, lookups) are abstraction
functions over the model states, used to state the specification's
properties; they are not translations of source functions. -/

/-- All pairs stored in a table, in bucket-scan order. -/
def allPairs (t : FixedHM) : List KV := t.table_.flatten

/-- Number of pairs with the given key in a list of pairs. -/
def keyCount (l : List KV) (k : Nat) : Nat := l.countP (fun p => p.1 == k)

/-- Number of occurrences of one exact pair in a pair list. -/
def pairCount (l : List KV) (p : KV) : Nat := l.countP (fun q => q == p)

/-- Sum of the bucket lengths of a bucket array. -/
def sumSizes (tbl : List (List KV)) : Nat := (tbl.map List.length).sum

/-- The value bound to a key in a table (first binding in scan order). -/
def fhLookup (t : FixedHM) (k : Nat) : Option Nat :=
  ((allPairs t).find? (fun p => p.1 == k)).map Prod.snd

/-- The value bound to a key in a map: `current_` first, then `old_`. -/
def hmLookup (m : HM) (k : Nat) : Option Nat :=
  match fhLookup m.current_ k with
  | some v => some v
  | none => fhLookup m.old_ k

/-- Boolean form of the specification postcondition of `steal`:
"no bucket at index greater than the migration cursor is non-empty". -/
def bucketsAboveCursorEmptyB (t : FixedHM) : Bool :=
  (List.range t.table_.length).all
    (fun j => !(decide (t.stolen_bucket_ < (j : Int))) ||
      ((t.table_.get? j).getD []).isEmpty)

/-- Per-bucket key discipline of a table: every pair sits in the bucket
its key hashes to, and keys within one bucket are distinct. -/
def bucketKeysOk (t : FixedHM) : Prop :=
  ∀ i b, t.table_.get? i = some b →
    (∀ p ∈ b, t.hash_function_ p.1 % t.table_.length = i) ∧ (b.map Prod.fst).Nodup

/-- Well-formedness of one table: the `size_` counter equals the sum of
bucket sizes, and the key discipline holds. -/
structure FixedWf (t : FixedHM) : Prop where
  sum_ok : t.size_ = sumSizes t.table_
  keys_ok : bucketKeysOk t

/-- All buckets strictly above the migration cursor are empty. -/
def aboveEmpty (t : FixedHM) : Prop :=
  ∀ i b, t.table_.get? i = some b → t.stolen_bucket_ < (i : Int) → b = []

/-- The inductive invariant of a `hashmap` state. -/
structure HMWf (m : HM) : Prop where
  cur_wf : FixedWf m.current_
  old_wf : FixedWf m.old_
  cur_cursor : m.current_.table_.length ≠ 0 →
      m.current_.stolen_bucket_ = (m.current_.table_.length : Int) - 1
  old_cursor : m.old_.table_.length ≠ 0 →
      m.old_.stolen_bucket_ < (m.old_.table_.length : Int)
  old_above : aboveEmpty m.old_
  disj : ∀ k, keyCount (allPairs m.current_) k + keyCount (allPairs m.old_) k ≤ 1
  idle_old : m.rehashing_ = false → allPairs m.old_ = []
  rehash_old_len : m.rehashing_ = true → m.old_.table_.length ≠ 0
  rehash_cur_len : m.rehashing_ = true → m.old_.size_ ≠ 0 →
      m.current_.table_.length ≠ 0
  cur0_empty : m.current_.table_.length = 0 →
      allPairs m.current_ = [] ∧ allPairs m.old_ = []

/-- Map states reachable from a constructed `hashmap` by the public
mutating interface (`emplace` behaves as `insert` and `operator[]` as
`at`; `find`/`contains`/`size`/iteration do not change the state). -/
inductive Reachable : HM → Prop
  | init (cap : Nat) (h : Nat → Nat) : Reachable (hmNew cap h)
  | insert_step {m m' : HM} {r : Bool} (kv : KV) :
      Reachable m → hmInsert m kv = some (m', r) → Reachable m'
  | at_step {m m' : HM} {v : Nat} (k : Nat) :
      Reachable m → hmAt m k = some (m', v) → Reachable m'
  | erase_step {m m' : HM} {n : Nat} (k : Nat) :
      Reachable m → hmErase m k = some (m', n) → Reachable m'
  | clear_step {m : HM} : Reachable m → Reachable (hmClear m)

/-! ## Concrete scenario states used by the theorems below -/

/-- A `hashmap<int, V>` built with one bucket. -/
def c3_m0 : HM := hmNew 1 (fun k => k)

/-- The state right after `insert((1, 10))` into `c3_m0`: the insert
crosses the load factor, so a grow to 2 buckets begins; `current_` is the
fresh empty 2-bucket table and `old_` holds `(1, 10)`. -/
def c3_m1 : HM := ((hmInsert c3_m0 (1, 10)).map Prod.fst).getD c3_m0

/-- `c3_m1` after `hashmap::clear()`: both bucket arrays are freed
(length 0). -/
def c8_m2 : HM := hmClear c3_m1

/-- A `hashmap` with 3 buckets. -/
def c9_m0 : HM := hmNew 3 (fun k => k)

/-- `c9_m0` after `insert((1, 5))` (no rehash is triggered). -/
def c9_m1 : HM := ((hmInsert c9_m0 (1, 5)).map Prod.fst).getD c9_m0

/-- `c9_m1` after a second `insert((1, 7))` on the already-bound key 1
(the insert completes and is a no-op). -/
def c9_m2 : HM := ((hmInsert c9_m1 (1, 7)).map Prod.fst).getD c9_m1

/-- The C9 counterexample trace, one state per public operation, each
state written out explicitly (each step is proved equal to the previous
state's `insert` result below).  `c9x1`..`c9x11` insert the keys
`14, 29, ..., 164` into a 15-bucket map with the identity hasher (all
hash to bucket 14); the 11th insert finds the bucket at size 10 and
promotes it to the tree regime.  `c9x12` inserts key 0, crossing the
load factor: a grow to 30 buckets begins and `old_` keeps the
tree-regime bucket 14.  `c9x13`..`c9x23` insert keys 1..11; each call's
migration step steals one element of old bucket 14, leaving it EMPTY but
still tree-regime (nothing ever demotes), while `(0, 0)` remains in old
bucket 0, so rehashing stays in progress. -/
def c9x0 : HM :=
  ⟨⟨[[], [], [], [], [], [], [], [], [], [], [], [], [], [], []], 0, fun k => k, 14, fun _ => false⟩,
   ⟨[[], [], [], [], [], [], [], [], [], [], [], [], [], [], []], 0, fun k => k, 14, fun _ => false⟩,
   false⟩

def c9x1 : HM :=
  ⟨⟨[[], [], [], [], [], [], [], [], [], [], [], [], [], [], [(14, 14)]], 1, fun k => k, 14, fun _ => false⟩,
   ⟨[[], [], [], [], [], [], [], [], [], [], [], [], [], [], []], 0, fun k => k, 14, fun _ => false⟩,
   false⟩

def c9x2 : HM :=
  ⟨⟨[[], [], [], [], [], [], [], [], [], [], [], [], [], [], [(29, 29), (14, 14)]], 2, fun k => k, 14, fun _ => false⟩,
   ⟨[[], [], [], [], [], [], [], [], [], [], [], [], [], [], []], 0, fun k => k, 14, fun _ => false⟩,
   false⟩

def c9x3 : HM :=
  ⟨⟨[[], [], [], [], [], [], [], [], [], [], [], [], [], [], [(44, 44), (29, 29), (14, 14)]], 3, fun k => k, 14, fun _ => false⟩,
   ⟨[[], [], [], [], [], [], [], [], [], [], [], [], [], [], []], 0, fun k => k, 14, fun _ => false⟩,
   false⟩

def c9x4 : HM :=
  ⟨⟨[[], [], [], [], [], [], [], [], [], [], [], [], [], [], [(59, 59), (44, 44), (29, 29), (14, 14)]], 4, fun k => k, 14, fun _ => false⟩,
   ⟨[[], [], [], [], [], [], [], [], [], [], [], [], [], [], []], 0, fun k => k, 14, fun _ => false⟩,
   false⟩

def c9x5 : HM :=
  ⟨⟨[[], [], [], [], [], [], [], [], [], [], [], [], [], [], [(74, 74), (59, 59), (44, 44), (29, 29), (14, 14)]], 5, fun k => k, 14, fun _ => false⟩,
   ⟨[[], [], [], [], [], [], [], [], [], [], [], [], [], [], []], 0, fun k => k, 14, fun _ => false⟩,
   false⟩

def c9x6 : HM :=
  ⟨⟨[[], [], [], [], [], [], [], [], [], [], [], [], [], [], [(89, 89), (74, 74), (59, 59), (44, 44), (29, 29), (14, 14)]], 6, fun k => k, 14, fun _ => false⟩,
   ⟨[[], [], [], [], [], [], [], [], [], [], [], [], [], [], []], 0, fun k => k, 14, fun _ => false⟩,
   false⟩

def c9x7 : HM :=
  ⟨⟨[[], [], [], [], [], [], [], [], [], [], [], [], [], [], [(104, 104), (89, 89), (74, 74), (59, 59), (44, 44), (29, 29), (14, 14)]], 7, fun k => k, 14, fun _ => false⟩,
   ⟨[[], [], [], [], [], [], [], [], [], [], [], [], [], [], []], 0, fun k => k, 14, fun _ => false⟩,
   false⟩

def c9x8 : HM :=
  ⟨⟨[[], [], [], [], [], [], [], [], [], [], [], [], [], [], [(119, 119), (104, 104), (89, 89), (74, 74), (59, 59), (44, 44), (29, 29), (14, 14)]], 8, fun k => k, 14, fun _ => false⟩,
   ⟨[[], [], [], [], [], [], [], [], [], [], [], [], [], [], []], 0, fun k => k, 14, fun _ => false⟩,
   false⟩

def c9x9 : HM :=
  ⟨⟨[[], [], [], [], [], [], [], [], [], [], [], [], [], [], [(134, 134), (119, 119), (104, 104), (89, 89), (74, 74), (59, 59), (44, 44), (29, 29), (14, 14)]], 9, fun k => k, 14, fun _ => false⟩,
   ⟨[[], [], [], [], [], [], [], [], [], [], [], [], [], [], []], 0, fun k => k, 14, fun _ => false⟩,
   false⟩

def c9x10 : HM :=
  ⟨⟨[[], [], [], [], [], [], [], [], [], [], [], [], [], [], [(149, 149), (134, 134), (119, 119), (104, 104), (89, 89), (74, 74), (59, 59), (44, 44), (29, 29), (14, 14)]], 10, fun k => k, 14, fun _ => false⟩,
   ⟨[[], [], [], [], [], [], [], [], [], [], [], [], [], [], []], 0, fun k => k, 14, fun _ => false⟩,
   false⟩

def c9x11 : HM :=
  ⟨⟨[[], [], [], [], [], [], [], [], [], [], [], [], [], [], [(14, 14), (29, 29), (44, 44), (59, 59), (74, 74), (89, 89), (104, 104), (119, 119), (134, 134), (149, 149), (164, 164)]], 11, fun k => k, 14, fun j => if j = 14 then true else false⟩,
   ⟨[[], [], [], [], [], [], [], [], [], [], [], [], [], [], []], 0, fun k => k, 14, fun _ => false⟩,
   false⟩

def c9x12 : HM :=
  ⟨⟨[[], [], [], [], [], [], [], [], [], [], [], [], [], [], [], [], [], [], [], [], [], [], [], [], [], [], [], [], [], []], 0, fun k => k, 29, fun _ => false⟩,
   ⟨[[(0, 0)], [], [], [], [], [], [], [], [], [], [], [], [], [], [(14, 14), (29, 29), (44, 44), (59, 59), (74, 74), (89, 89), (104, 104), (119, 119), (134, 134), (149, 149), (164, 164)]], 12, fun k => k, 14, fun j => if j = 14 then true else false⟩,
   true⟩

def c9x13 : HM :=
  ⟨⟨[[], [(1, 1)], [], [], [], [], [], [], [], [], [], [], [], [], [(14, 14)], [], [], [], [], [], [], [], [], [], [], [], [], [], [], []], 2, fun k => k, 29, fun _ => false⟩,
   ⟨[[(0, 0)], [], [], [], [], [], [], [], [], [], [], [], [], [], [(29, 29), (44, 44), (59, 59), (74, 74), (89, 89), (104, 104), (119, 119), (134, 134), (149, 149), (164, 164)]], 11, fun k => k, 14, fun j => if j = 14 then true else false⟩,
   true⟩

def c9x14 : HM :=
  ⟨⟨[[], [(1, 1)], [(2, 2)], [], [], [], [], [], [], [], [], [], [], [], [(14, 14)], [], [], [], [], [], [], [], [], [], [], [], [], [], [], [(29, 29)]], 4, fun k => k, 29, fun _ => false⟩,
   ⟨[[(0, 0)], [], [], [], [], [], [], [], [], [], [], [], [], [], [(44, 44), (59, 59), (74, 74), (89, 89), (104, 104), (119, 119), (134, 134), (149, 149), (164, 164)]], 10, fun k => k, 14, fun j => if j = 14 then true else false⟩,
   true⟩

def c9x15 : HM :=
  ⟨⟨[[], [(1, 1)], [(2, 2)], [(3, 3)], [], [], [], [], [], [], [], [], [], [], [(44, 44), (14, 14)], [], [], [], [], [], [], [], [], [], [], [], [], [], [], [(29, 29)]], 6, fun k => k, 29, fun _ => false⟩,
   ⟨[[(0, 0)], [], [], [], [], [], [], [], [], [], [], [], [], [], [(59, 59), (74, 74), (89, 89), (104, 104), (119, 119), (134, 134), (149, 149), (164, 164)]], 9, fun k => k, 14, fun j => if j = 14 then true else false⟩,
   true⟩

def c9x16 : HM :=
  ⟨⟨[[], [(1, 1)], [(2, 2)], [(3, 3)], [(4, 4)], [], [], [], [], [], [], [], [], [], [(44, 44), (14, 14)], [], [], [], [], [], [], [], [], [], [], [], [], [], [], [(59, 59), (29, 29)]], 8, fun k => k, 29, fun _ => false⟩,
   ⟨[[(0, 0)], [], [], [], [], [], [], [], [], [], [], [], [], [], [(74, 74), (89, 89), (104, 104), (119, 119), (134, 134), (149, 149), (164, 164)]], 8, fun k => k, 14, fun j => if j = 14 then true else false⟩,
   true⟩

def c9x17 : HM :=
  ⟨⟨[[], [(1, 1)], [(2, 2)], [(3, 3)], [(4, 4)], [(5, 5)], [], [], [], [], [], [], [], [], [(74, 74), (44, 44), (14, 14)], [], [], [], [], [], [], [], [], [], [], [], [], [], [], [(59, 59), (29, 29)]], 10, fun k => k, 29, fun _ => false⟩,
   ⟨[[(0, 0)], [], [], [], [], [], [], [], [], [], [], [], [], [], [(89, 89), (104, 104), (119, 119), (134, 134), (149, 149), (164, 164)]], 7, fun k => k, 14, fun j => if j = 14 then true else false⟩,
   true⟩

def c9x18 : HM :=
  ⟨⟨[[], [(1, 1)], [(2, 2)], [(3, 3)], [(4, 4)], [(5, 5)], [(6, 6)], [], [], [], [], [], [], [], [(74, 74), (44, 44), (14, 14)], [], [], [], [], [], [], [], [], [], [], [], [], [], [], [(89, 89), (59, 59), (29, 29)]], 12, fun k => k, 29, fun _ => false⟩,
   ⟨[[(0, 0)], [], [], [], [], [], [], [], [], [], [], [], [], [], [(104, 104), (119, 119), (134, 134), (149, 149), (164, 164)]], 6, fun k => k, 14, fun j => if j = 14 then true else false⟩,
   true⟩

def c9x19 : HM :=
  ⟨⟨[[], [(1, 1)], [(2, 2)], [(3, 3)], [(4, 4)], [(5, 5)], [(6, 6)], [(7, 7)], [], [], [], [], [], [], [(104, 104), (74, 74), (44, 44), (14, 14)], [], [], [], [], [], [], [], [], [], [], [], [], [], [], [(89, 89), (59, 59), (29, 29)]], 14, fun k => k, 29, fun _ => false⟩,
   ⟨[[(0, 0)], [], [], [], [], [], [], [], [], [], [], [], [], [], [(119, 119), (134, 134), (149, 149), (164, 164)]], 5, fun k => k, 14, fun j => if j = 14 then true else false⟩,
   true⟩

def c9x20 : HM :=
  ⟨⟨[[], [(1, 1)], [(2, 2)], [(3, 3)], [(4, 4)], [(5, 5)], [(6, 6)], [(7, 7)], [(8, 8)], [], [], [], [], [], [(104, 104), (74, 74), (44, 44), (14, 14)], [], [], [], [], [], [], [], [], [], [], [], [], [], [], [(119, 119), (89, 89), (59, 59), (29, 29)]], 16, fun k => k, 29, fun _ => false⟩,
   ⟨[[(0, 0)], [], [], [], [], [], [], [], [], [], [], [], [], [], [(134, 134), (149, 149), (164, 164)]], 4, fun k => k, 14, fun j => if j = 14 then true else false⟩,
   true⟩

def c9x21 : HM :=
  ⟨⟨[[], [(1, 1)], [(2, 2)], [(3, 3)], [(4, 4)], [(5, 5)], [(6, 6)], [(7, 7)], [(8, 8)], [(9, 9)], [], [], [], [], [(134, 134), (104, 104), (74, 74), (44, 44), (14, 14)], [], [], [], [], [], [], [], [], [], [], [], [], [], [], [(119, 119), (89, 89), (59, 59), (29, 29)]], 18, fun k => k, 29, fun _ => false⟩,
   ⟨[[(0, 0)], [], [], [], [], [], [], [], [], [], [], [], [], [], [(149, 149), (164, 164)]], 3, fun k => k, 14, fun j => if j = 14 then true else false⟩,
   true⟩

def c9x22 : HM :=
  ⟨⟨[[], [(1, 1)], [(2, 2)], [(3, 3)], [(4, 4)], [(5, 5)], [(6, 6)], [(7, 7)], [(8, 8)], [(9, 9)], [(10, 10)], [], [], [], [(134, 134), (104, 104), (74, 74), (44, 44), (14, 14)], [], [], [], [], [], [], [], [], [], [], [], [], [], [], [(149, 149), (119, 119), (89, 89), (59, 59), (29, 29)]], 20, fun k => k, 29, fun _ => false⟩,
   ⟨[[(0, 0)], [], [], [], [], [], [], [], [], [], [], [], [], [], [(164, 164)]], 2, fun k => k, 14, fun j => if j = 14 then true else false⟩,
   true⟩

def c9x23 : HM :=
  ⟨⟨[[], [(1, 1)], [(2, 2)], [(3, 3)], [(4, 4)], [(5, 5)], [(6, 6)], [(7, 7)], [(8, 8)], [(9, 9)], [(10, 10)], [(11, 11)], [], [], [(164, 164), (134, 134), (104, 104), (74, 74), (44, 44), (14, 14)], [], [], [], [], [], [], [], [], [], [], [], [], [], [], [(149, 149), (119, 119), (89, 89), (59, 59), (29, 29)]], 22, fun k => k, 29, fun _ => false⟩,
   ⟨[[(0, 0)], [], [], [], [], [], [], [], [], [], [], [], [], [], []], 1, fun k => k, 13, fun j => if j = 14 then true else false⟩,
   true⟩

/-- A `fixed_hashmap<int, V>` with 2 buckets. -/
def c6_t0 : FixedHM := fhNew 2 (fun k => k)

/-- `c6_t0` after `insert((1, 5))` (bucket 1, cursor still 1). -/
def c6_t1 : FixedHM := (fhInsert c6_t0 (1, 5)).elim c6_t0 Prod.fst

/-- `c6_t1` after `steal_elements(1)`: the element is drained, bucket 1
empties and the cursor decrements to 0. -/
def c6_t2 : FixedHM := (fhSteal c6_t1 1).elim c6_t1 Prod.snd

/-- `c6_t2` after a second `insert((1, 5))`: bucket 1 is non-empty again
while the cursor stays at 0. -/
def c6_t3 : FixedHM := (fhInsert c6_t2 (1, 5)).elim c6_t2 Prod.fst

/-- A sample non-end hashmap iterator (current table, bucket 0, slot 0),
as `find` would return for an element stored there. -/
def c4_sample_it : hashmap_iterator := ⟨0, ⟨true, 0, 0, false⟩, false⟩

/-- A non-end hashmap iterator at a different slot (bucket 1, slot 0) of
the same table. -/
def c4_other_it : hashmap_iterator := ⟨0, ⟨true, 1, 0, false⟩, false⟩

/-! ## Theorems -/

/-- C1: "For every AdaptiveBucket (tree_list) in tree regime, after any
sequence of insert/erase operations, the structure rooted at root_ is a
valid red-black tree …".  The claim fails on the code: the insert path
calls `tree_insert_node`, a plain BST insertion that never rotates or
recolors (the CLRS fixup in `insert_node` is dead code), so after the
eleven inserts 0,…,10 into an empty bucket (the eleventh insert promotes
it), the bucket is in tree regime but every node including the root is
red: `isValidRB` is false.  The in-order sortedness and node count = 11
parts do hold. -/
theorem c1_tree_after_inserts_violates_rb_invariants :
    (tl_insert_seq tl_empty [0, 1, 2, 3, 4, 5, 6, 7, 8, 9, 10]).map
        (fun tl => (tl.ds_type_, tl.size_)) = some (.k_red_black_tree, 11) ∧
    ((tl_insert_seq tl_empty [0, 1, 2, 3, 4, 5, 6, 7, 8, 9, 10]).bind tl_root).map
        (fun t => (isValidRB t 11, colorOf t, noRedRed t, isSortedLt (inorder t),
          nodeCount t))
      = some (false, .k_red, false, true, 11) := by
  exact ⟨by decide, by decide⟩

/-- C2: "an insert that would raise its size to >= 10 transitions the
representation from list to tree, and an erase that would lower its size
to <= 3 transitions it from tree back to list, preserving the elements."
The claim fails on the code: (1) after ten inserts the bucket still is a
list of size 10 (`treefy_or_un_treefy` tests `size_ >= 10` BEFORE the
element is added, so promotion happens on the insert that makes the size
11); (2) no `erase` overload calls `treefy_or_un_treefy` at all — the
demotion check runs at the start of the NEXT insert, and `un_treefy`
then leaves `ds_type_` as tree while the union holds list nodes and
doubles `size_` (3 → 6), so that insert faults instead of yielding a
3-element list. -/
theorem c2_transition_thresholds_do_not_match :
    (tl_insert_seq tl_empty [0, 1, 2, 3, 4, 5, 6, 7, 8, 9]).map
        (fun tl => (tl.ds_type_, tl.size_)) = some (.k_linked_list, 10) ∧
    treefy_or_un_treefy
        ⟨.root (.node .k_black (.node .k_red .leaf 0 .leaf) 1
          (.node .k_red .leaf 2 .leaf)), 3, .k_red_black_tree⟩
      = some ⟨.head [1, 2, 0], 6, .k_red_black_tree⟩ ∧
    tl_insert
        ⟨.root (.node .k_black (.node .k_red .leaf 0 .leaf) 1
          (.node .k_red .leaf 2 .leaf)), 3, .k_red_black_tree⟩ 42 = none := by
  exact ⟨by decide, by decide, by decide⟩

/-- C3: "iterating from begin() to end() yields every element of the map
exactly once … in particular also when current is empty and old is
non-empty, as right after a resize begins."  The claim fails on the code:
in the state `c3_m1` reached by `hashmap(1); insert((1,10))` (the insert
starts a grow, so `current_` is empty and `old_ = {(1,10)}`), iteration
yields the single element TWICE — `begin()` passes `which = 1` to the
iterator constructor, whose initializer list hard-codes `which_(0)`, so
after `old_` is exhausted the iterator "switches" to `old_` again. -/
theorem c3_iteration_repeats_old_after_rehash :
    c3_m1.rehashing_ = true ∧ allPairs c3_m1.current_ = [] ∧
    allPairs c3_m1.old_ = [(1, 10)] ∧
    hmToList c3_m1 8 = some [(1, 10), (1, 10)] := by
  exact ⟨rfl, rfl, rfl, rfl⟩

/-- C4: "operator== returns true iff both are end iterators, or both are
non-end and reference the same element slot in the same table".  The
claim fails on the code: for two non-end iterators with equal `which_`
the source returns `it_ != other.it_`, the NEGATION of the contract — an
iterator does not equal itself, and two iterators at different slots of
the same table compare equal. -/
theorem c4_iterator_equality_inverted :
    hmIterEq c4_sample_it c4_sample_it = false ∧
    hmIterEq c4_sample_it c4_other_it = true ∧
    hmIterNe c4_sample_it c4_sample_it = true := by
  decide

/-- C8: "Every public operation except const at is total … after clear()
the map behaves as an empty map, and a subsequent insert, find, contains
or erase (which computes a bucket index as hash modulo the bucket-array
length) completes normally."  The claim fails on the code:
`fixed_hashmap::clear()` calls `mmap_array::clear`, which FREES the
bucket array and sets its length to 0, so the next `hash()` computes
`hash_function_(key) % 0` on a freed array: insert, find, contains and
erase all fault on the cleared map `c8_m2`. -/
theorem c8_operations_after_clear_fault :
    hmSize c8_m2 = 0 ∧ c8_m2.current_.table_.length = 0 ∧
    hmInsert c8_m2 (1, 1) = none ∧ hmFindSt c8_m2 1 = none ∧
    hmContainsSt c8_m2 1 = none ∧ hmErase c8_m2 1 = none := by
  exact ⟨rfl, rfl, rfl, rfl, rfl, rfl⟩

/-- C6 counterexample: "For every fixed_hashmap and every n >= 0,
steal_elements(n) … afterwards every bucket at an index greater than the
migration cursor (stolen_bucket_) is empty."  False as stated: in the
reachable table `c6_t3` (insert, steal(1) — which moves the cursor to 0 —
then insert into bucket 1 again), `steal_elements(0)` returns no elements
and leaves bucket 1, above the cursor 0, non-empty. -/
theorem c6_steal_counterexample :
    fhSteal c6_t3 0 = some ([], c6_t3) ∧
    c6_t3.stolen_bucket_ = 0 ∧
    c6_t3.table_.get? 1 = some [(1, 5)] ∧
    bucketsAboveCursorEmptyB c6_t3 = false := by
  exact ⟨rfl, rfl, rfl, rfl⟩

/-- C10: after a resize begins, the fresh `current_` table is built by
`rehash` as `fixed_hashmap(new_size)` — without passing the map's hasher,
hence with a default-constructed `Hash()` — and the subsequent
`swap` (which exchanges `hash_function_` along with the other fields)
leaves the map's original hasher on `old_`. -/
theorem c10_rehash_swaps_in_default_hasher (m : HM) (n : Nat)
    (hold : m.old_.size_ = 0) :
    ∃ m', hmRehash m n = some m' ∧
      m'.current_ = fhNew n defaultHashFn ∧
      m'.current_.hash_function_ = defaultHashFn ∧
      m'.old_.hash_function_ = m.current_.hash_function_ ∧
      m'.old_ = m.current_ ∧ m'.rehashing_ = true := by
  refine ⟨⟨fhNew n defaultHashFn, m.current_, true⟩, ?_, rfl, rfl, rfl, rfl, rfl⟩
  unfold hmRehash
  simp [hold]

/-- Witness for C10 at a concrete map with a non-default hasher. -/
theorem c10_rehash_swaps_in_default_hasher_witness :
    (hmNew 2 (fun k => 7 * k)).old_.size_ = 0 ∧
    ∃ m', hmRehash (hmNew 2 (fun k => 7 * k)) 4 = some m' ∧
      m'.current_ = fhNew 4 defaultHashFn ∧
      m'.current_.hash_function_ = defaultHashFn ∧
      m'.old_.hash_function_ = (hmNew 2 (fun k => 7 * k)).current_.hash_function_ ∧
      m'.old_ = (hmNew 2 (fun k => 7 * k)).current_ ∧ m'.rehashing_ = true :=
  ⟨rfl, c10_rehash_swaps_in_default_hasher (hmNew 2 (fun k => 7 * k)) 4 rfl⟩

/-! ## Supporting lemmas -/

theorem sumSizes_nil : sumSizes [] = 0 := rfl

theorem sumSizes_cons (b : List KV) (tbl : List (List KV)) :
    sumSizes (b :: tbl) = b.length + sumSizes tbl := by
  simp [sumSizes]

theorem sumSizes_eq_length_flatten (tbl : List (List KV)) :
    sumSizes tbl = tbl.flatten.length := by
  simp [sumSizes, List.length_flatten]

theorem sumSizes_set (tbl : List (List KV)) (i : Nat) (b b' : List KV)
    (h : tbl.get? i = some b) :
    sumSizes (tbl.set i b') + b.length = sumSizes tbl + b'.length := by
  induction tbl generalizing i with
  | nil => cases h
  | cons hd tl ih =>
      cases i with
      | zero =>
          cases h
          simp [sumSizes_cons, List.set]
          omega
      | succ j =>
          simp only [List.get?] at h
          have := ih j h
          simp [sumSizes_cons, List.set]
          omega

theorem sumSizes_ge_bucket (tbl : List (List KV)) (i : Nat) (b : List KV)
    (h : tbl.get? i = some b) : b.length ≤ sumSizes tbl := by
  induction tbl generalizing i with
  | nil => cases h
  | cons hd tl ih =>
      cases i with
      | zero => cases h; simp [sumSizes_cons]
      | succ j =>
          simp only [List.get?] at h
          have := ih j h
          simp [sumSizes_cons]
          omega

theorem sumSizes_zero_of_all_empty (tbl : List (List KV))
    (h : ∀ i b, tbl.get? i = some b → b = []) : sumSizes tbl = 0 := by
  induction tbl with
  | nil => rfl
  | cons hd tl ih =>
      have h0 : hd = [] := h 0 hd rfl
      have : ∀ i b, tl.get? i = some b → b = [] := by
        intro i b hb
        exact h (i + 1) b hb
      simp [sumSizes_cons, h0, ih this]

theorem countP_flatten_set (f : KV → Bool) (tbl : List (List KV)) (i : Nat)
    (b b' : List KV) (h : tbl.get? i = some b) :
    (tbl.set i b').flatten.countP f + b.countP f
      = tbl.flatten.countP f + b'.countP f := by
  induction tbl generalizing i with
  | nil => cases h
  | cons hd tl ih =>
      cases i with
      | zero =>
          cases h
          simp only [List.set_cons_zero, List.flatten_cons, List.countP_append]
          omega
      | succ j =>
          simp only [List.get?_cons_succ] at h
          have := ih j h
          simp only [List.set_cons_succ, List.flatten_cons, List.countP_append]
          omega

theorem eraseFirst_spec (k : Nat) :
    ∀ (b : List KV) (p : KV), bucketScan b k = some p →
      p ∈ b ∧ p.1 = k ∧ b.length = (eraseFirst b k).length + 1 ∧
      (eraseFirst b k).Sublist b ∧
      (∀ f : KV → Bool,
        b.countP f = (eraseFirst b k).countP f + (if f p then 1 else 0)) := by
  intro b
  induction b with
  | nil => intro p hp; cases hp
  | cons q rest ih =>
      intro p hp
      by_cases hq : q.1 = k
      · have hfind : bucketScan (q :: rest) k = some q := by
          simp [bucketScan, List.find?_cons, hq]
        rw [hfind] at hp
        cases hp
        refine ⟨List.mem_cons_self _ _, hq, ?_, ?_, ?_⟩
        · simp [eraseFirst, hq]
        · simp [eraseFirst, hq]
        · intro f
          simp [eraseFirst, hq, List.countP_cons]
      · have hbq : (q.1 == k) = false := by
          simp [hq]
        have hfind : bucketScan (q :: rest) k = bucketScan rest k := by
          simp [bucketScan, List.find?_cons, hbq]
        rw [hfind] at hp
        obtain ⟨hmem, hkey, hlen, hsub, hcount⟩ := ih p hp
        have herase : eraseFirst (q :: rest) k = q :: eraseFirst rest k := by
          simp [eraseFirst, hbq]
        refine ⟨List.mem_cons_of_mem _ hmem, hkey, ?_, ?_, ?_⟩
        · simp [herase, hlen]
        · rw [herase]
          exact List.Sublist.cons₂ q hsub
        · intro f
          rw [herase]
          simp [List.countP_cons, hcount f]
          omega

theorem bucketScan_none_iff (b : List KV) (k : Nat) :
    bucketScan b k = none ↔ keyCount b k = 0 := by
  constructor
  · intro h
    exact List.countP_eq_zero.mpr (fun p hp => by
      have := List.find?_eq_none.mp h p hp
      simpa using this)
  · intro h
    rcases hcase : bucketScan b k with _ | p
    · rfl
    · obtain ⟨hmem, hkey, _, _, _⟩ := eraseFirst_spec k b p hcase
      have : keyCount b k ≠ 0 := by
        have : 0 < keyCount b k := List.countP_pos_iff.mpr ⟨p, hmem, by simp [hkey]⟩
        omega
      exact absurd h this

theorem keyCount_le_one_of_nodup (b : List KV) (k : Nat)
    (h : (b.map Prod.fst).Nodup) : keyCount b k ≤ 1 := by
  have hc : keyCount b k = (b.map Prod.fst).count k := by
    rw [List.count, List.countP_map]
    rfl
  rw [hc]
  exact List.nodup_iff_count_le_one.mp h k

theorem sum_zero_of_all_zero (l : List Nat)
    (h : ∀ j y, l.get? j = some y → y = 0) : l.sum = 0 := by
  induction l with
  | nil => rfl
  | cons hd tl ih =>
      have h0 : hd = 0 := h 0 hd rfl
      have : ∀ j y, tl.get? j = some y → y = 0 := fun j y hy => h (j + 1) y hy
      simp [h0, ih this]

theorem sum_eq_of_single (l : List Nat) :
    ∀ (i x : Nat), l.get? i = some x →
      (∀ j y, l.get? j = some y → j ≠ i → y = 0) → l.sum = x := by
  induction l with
  | nil => intro i x h; cases h
  | cons hd tl ih =>
      intro i x h hz
      cases i with
      | zero =>
          cases h
          have : ∀ j y, tl.get? j = some y → y = 0 := fun j y hy =>
            hz (j + 1) y hy (by omega)
          simp [sum_zero_of_all_zero tl this]
      | succ j =>
          simp only [List.get?_cons_succ] at h
          have hhd : hd = 0 := hz 0 hd rfl (by omega)
          have htl : ∀ j' y, tl.get? j' = some y → j' ≠ j → y = 0 := by
            intro j' y hy hne
            exact hz (j' + 1) y hy (by omega)
          simp [hhd, ih j x h htl]

theorem keyCount_allPairs_eq_bucket (t : FixedHM) (hko : bucketKeysOk t) (k : Nat)
    (b : List KV) (hb : t.table_.get? (t.hash_function_ k % t.table_.length) = some b) :
    keyCount (allPairs t) k = keyCount b k := by
  have hflat : keyCount (allPairs t) k
      = (t.table_.map (fun bb => keyCount bb k)).sum := by
    simp [keyCount, allPairs, List.countP_join]
  rw [hflat]
  apply sum_eq_of_single _ (t.hash_function_ k % t.table_.length)
  · rw [List.get?_map, hb]
    rfl
  · intro j y hy hne
    rw [List.get?_map] at hy
    cases hcase : t.table_.get? j with
    | none => rw [hcase] at hy; cases hy
    | some bj =>
        rw [hcase] at hy
        injection hy with hy
        subst hy
        apply List.countP_eq_zero.mpr
        intro p hp hpk
        have hj := (hko j bj hcase).1 p hp
        have hpk' : p.1 = k := by simpa using hpk
        rw [hpk'] at hj
        exact hne hj.symm

theorem two_le_countP (l : List KV) (f : KV → Bool) (a b : KV) (ha : a ∈ l)
    (hb : b ∈ l) (hne : a ≠ b) (hfa : f a = true) (hfb : f b = true) :
    2 ≤ l.countP f := by
  have ha' : a ∈ l.filter f := List.mem_filter.mpr ⟨ha, hfa⟩
  have hb' : b ∈ l.filter f := List.mem_filter.mpr ⟨hb, hfb⟩
  rw [List.countP_eq_length_filter]
  rcases hfl : l.filter f with _ | ⟨x, rest⟩
  · rw [hfl] at ha'
    cases ha'
  · rcases hrest : rest with _ | ⟨y, rest'⟩
    · rw [hfl, hrest] at ha' hb'
      simp at ha' hb'
      exact absurd (ha'.trans hb'.symm) hne
    · subst hrest
      simp

theorem find?_key_eq_of_mem (l : List KV) (k v : Nat)
    (hle : keyCount l k ≤ 1) (hmem : (k, v) ∈ l) :
    l.find? (fun p => p.1 == k) = some (k, v) := by
  rcases hcase : l.find? (fun p => p.1 == k) with _ | q
  · have := List.find?_eq_none.mp hcase (k, v) hmem
    simp at this
  · have hqmem := List.mem_of_find?_eq_some hcase
    have hqk : q.1 = k := by
      have := List.find?_some hcase
      simpa using this
    by_cases he : q = (k, v)
    · rw [← he]
      exact hcase
    · exfalso
      have h2 : 2 ≤ keyCount l k :=
        two_le_countP l _ q (k, v) hqmem hmem he (by simp [hqk]) (by simp)
      omega

theorem fhLookup_none_iff (t : FixedHM) (k : Nat) :
    fhLookup t k = none ↔ keyCount (allPairs t) k = 0 := by
  unfold fhLookup
  rw [Option.map_eq_none']
  exact bucketScan_none_iff (allPairs t) k

theorem fhLookup_some_iff (t : FixedHM) (k v : Nat)
    (hle : keyCount (allPairs t) k ≤ 1) :
    fhLookup t k = some v ↔ (k, v) ∈ allPairs t := by
  constructor
  · intro h
    unfold fhLookup at h
    rcases hcase : (allPairs t).find? (fun p => p.1 == k) with _ | q
    · rw [hcase] at h
      cases h
    · rw [hcase] at h
      have hqmem := List.mem_of_find?_eq_some hcase
      have hqk : q.1 = k := by
        have := List.find?_some hcase
        simpa using this
      have hqv : q.2 = v := by
        simpa using h
      have : q = (k, v) := by
        cases q
        simp_all
      rw [← this]
      exact hqmem
  · intro h
    unfold fhLookup
    rw [find?_key_eq_of_mem (allPairs t) k v hle h]
    rfl

theorem fh_hash_eq (t : FixedHM) (k : Nat) (hlen : t.table_.length ≠ 0) :
    t.hash k = some (t.hash_function_ k % t.table_.length) := by
  unfold FixedHM.hash
  simp [hlen]

theorem fh_bucket_exists (t : FixedHM) (k : Nat) (hlen : t.table_.length ≠ 0) :
    ∃ b, t.table_.get? (t.hash_function_ k % t.table_.length) = some b := by
  have hlt : t.hash_function_ k % t.table_.length < t.table_.length :=
    Nat.mod_lt _ (Nat.pos_of_ne_zero hlen)
  cases hcase : t.table_.get? (t.hash_function_ k % t.table_.length) with
  | none =>
      have := List.get?_eq_none.mp hcase
      omega
  | some b => exact ⟨b, rfl⟩

theorem keyCount_pos_of_scan (b : List KV) (k : Nat) (p : KV)
    (h : bucketScan b k = some p) : 1 ≤ keyCount b k := by
  obtain ⟨hmem, hkey, _, _, _⟩ := eraseFirst_spec k b p h
  exact List.countP_pos_iff.mpr ⟨p, hmem, by simp [hkey]⟩

theorem insertSortedByKey_perm (kv : KV) (l : List KV) :
    (insertSortedByKey kv l).Perm (kv :: l) := by
  induction l with
  | nil => exact List.Perm.refl _
  | cons p rest ih =>
      show (if kv.1 < p.1 then kv :: p :: rest
            else p :: insertSortedByKey kv rest).Perm (kv :: p :: rest)
      by_cases hlt : kv.1 < p.1
      · rw [if_pos hlt]
      · rw [if_neg hlt]
        exact (ih.cons p).trans (List.Perm.swap kv p rest)

theorem sortByKey_perm (l : List KV) : (sortByKey l).Perm l := by
  induction l with
  | nil => exact List.Perm.refl _
  | cons p rest ih =>
      show (insertSortedByKey p (sortByKey rest)).Perm (p :: rest)
      exact (insertSortedByKey_perm p (sortByKey rest)).trans (ih.cons p)

theorem bucketInsert_perm (tr : Bool) (b b2 : List KV) (kv : KV) (tr2 : Bool)
    (h : bucketInsert tr b kv = some (b2, tr2)) : b2.Perm (kv :: b) := by
  unfold bucketInsert at h
  by_cases htr : tr = true
  · rw [if_pos htr] at h
    by_cases hl3 : b.length ≤ 3
    · rw [if_pos hl3] at h
      cases h
    · rw [if_neg hl3] at h
      injection h with h
      injection h with h1 h2
      rw [← h1]
      exact insertSortedByKey_perm kv b
  · rw [if_neg htr] at h
    by_cases hl10 : 10 ≤ b.length
    · rw [if_pos hl10] at h
      injection h with h
      injection h with h1 h2
      rw [← h1]
      exact (insertSortedByKey_perm kv (sortByKey b)).trans
        ((sortByKey_perm b).cons kv)
    · rw [if_neg hl10] at h
      injection h with h
      injection h with h1 h2
      rw [← h1]

theorem fh_set_insert_wf (t : FixedHM) (kv : KV) (b b2 : List KV)
    (tr2 : Nat → Bool)
    (hwf : FixedWf t) (hlen : t.table_.length ≠ 0)
    (hb : t.table_.get? (t.hash_function_ kv.1 % t.table_.length) = some b)
    (hkc : keyCount b kv.1 = 0)
    (hperm : b2.Perm (kv :: b)) :
    FixedWf { t with
        table_ := t.table_.set (t.hash_function_ kv.1 % t.table_.length) b2,
        size_ := t.size_ + 1, tree_ := tr2 } ∧
    (∀ f : KV → Bool,
      (t.table_.set (t.hash_function_ kv.1 % t.table_.length) b2).flatten.countP f
        = t.table_.flatten.countP f + (if f kv then 1 else 0)) := by
  have hlt : t.hash_function_ kv.1 % t.table_.length < t.table_.length :=
    Nat.mod_lt _ (Nat.pos_of_ne_zero hlen)
  have hblen : b2.length = b.length + 1 := by
    have := hperm.length_eq
    simpa using this
  constructor
  · constructor
    · have hs := sumSizes_set t.table_
        (t.hash_function_ kv.1 % t.table_.length) b b2 hb
      have hsz := hwf.sum_ok
      show t.size_ + 1 = sumSizes (t.table_.set _ b2)
      omega
    · intro i b0 hb0
      show (∀ p ∈ b0, t.hash_function_ p.1 %
          (t.table_.set (t.hash_function_ kv.1 % t.table_.length) b2).length
            = i) ∧ (b0.map Prod.fst).Nodup
      rw [List.length_set]
      by_cases hieq : i = t.hash_function_ kv.1 % t.table_.length
      · rw [hieq] at hb0 ⊢
        rw [List.get?_set_eq_of_lt _ hlt] at hb0
        injection hb0 with hb0
        subst hb0
        constructor
        · intro p hp
          rcases List.mem_cons.mp (hperm.mem_iff.mp hp) with hp | hp
          · rw [hp]
          · exact (hwf.keys_ok _ b hb).1 p hp
        · have hnodup := (hwf.keys_ok _ b hb).2
          have hcons : ((kv :: b).map Prod.fst).Nodup := by
            simp only [List.map_cons, List.nodup_cons]
            refine ⟨?_, hnodup⟩
            intro hmem
            obtain ⟨p, hp, hpk⟩ := List.mem_map.mp hmem
            have : 1 ≤ keyCount b kv.1 :=
              List.countP_pos_iff.mpr ⟨p, hp, by simp [hpk]⟩
            omega
          exact ((hperm.map Prod.fst).nodup_iff).mpr hcons
      · rw [List.get?_set_ne _ _ (fun h => hieq h.symm)] at hb0
        exact hwf.keys_ok i b0 hb0
  · intro f
    have hc := countP_flatten_set f t.table_
      (t.hash_function_ kv.1 % t.table_.length) b b2 hb
    have hpc : b2.countP f = (kv :: b).countP f := hperm.countP_eq f
    rw [List.countP_cons] at hpc
    by_cases hf : f kv = true
    · simp only [hf, if_true] at hpc ⊢
      omega
    · have hf2 : f kv = false := by
        cases hfc : f kv
        · rfl
        · exact absurd hfc hf
      simp only [hf2, if_true, if_false, Bool.false_eq_true] at hpc ⊢
      omega

theorem fhInsert_spec (t : FixedHM) (kv : KV) (t' : FixedHM) (ins : Bool)
    (hwf : FixedWf t) (h : fhInsert t kv = some (t', ins)) :
    FixedWf t' ∧
      t'.table_.length = t.table_.length ∧
      t'.hash_function_ = t.hash_function_ ∧
      t'.stolen_bucket_ = t.stolen_bucket_ ∧
      t'.size_ = t.size_ + (if ins then 1 else 0) ∧
      (ins = false → t' = t ∧ 1 ≤ keyCount (allPairs t) kv.1) ∧
      (ins = true → keyCount (allPairs t) kv.1 = 0) ∧
      (∀ f : KV → Bool, (allPairs t').countP f
        = (allPairs t).countP f + (if ins then (if f kv then 1 else 0) else 0)) := by
  have hlen : t.table_.length ≠ 0 := by
    intro hz
    unfold fhInsert FixedHM.hash at h
    rw [if_pos hz] at h
    simp only [Option.bind_eq_bind, Option.none_bind] at h
    cases h
  obtain ⟨b, hb⟩ := fh_bucket_exists t kv.1 hlen
  have hhash := fh_hash_eq t kv.1 hlen
  have hlt : t.hash_function_ kv.1 % t.table_.length < t.table_.length :=
    Nat.mod_lt _ (Nat.pos_of_ne_zero hlen)
  unfold fhInsert at h
  rw [hhash] at h
  simp only [Option.bind_eq_bind, Option.some_bind] at h
  rw [hb] at h
  simp only [Option.some_bind] at h
  by_cases hg : t.tree_ (t.hash_function_ kv.1 % t.table_.length) = true
      ∧ b.isEmpty = true
  · rw [if_pos hg] at h
    cases h
  · rw [if_neg hg] at h
    cases hscan : bucketScan b kv.1 with
    | some p =>
        rw [hscan] at h
        simp only [Option.some.injEq, Prod.mk.injEq] at h
        obtain ⟨h1, h2⟩ := h
        subst h1
        subst h2
        refine ⟨hwf, rfl, rfl, rfl, by simp, ?_, by simp, ?_⟩
        · intro _
          refine ⟨rfl, ?_⟩
          rw [keyCount_allPairs_eq_bucket t hwf.keys_ok kv.1 b hb]
          exact keyCount_pos_of_scan b kv.1 p hscan
        · intro f
          simp
    | none =>
        rw [hscan] at h
        simp only [Option.bind_eq_bind] at h
        cases hbi : bucketInsert
            (t.tree_ (t.hash_function_ kv.1 % t.table_.length)) b kv with
        | none =>
            rw [hbi] at h
            simp only [Option.none_bind] at h
            cases h
        | some q =>
            obtain ⟨b2, tr2⟩ := q
            rw [hbi] at h
            simp only [Option.some_bind, Option.some.injEq, Prod.mk.injEq] at h
            obtain ⟨h1, h2⟩ := h
            subst h2
            have hperm := bucketInsert_perm _ b b2 kv tr2 hbi
            have hkc : keyCount b kv.1 = 0 :=
              (bucketScan_none_iff b kv.1).mp hscan
            have hkc2 : keyCount (allPairs t) kv.1 = 0 := by
              rw [keyCount_allPairs_eq_bucket t hwf.keys_ok kv.1 b hb]
              exact hkc
            obtain ⟨hwf2, hcnt2⟩ := fh_set_insert_wf t kv b b2
              (if t.tree_ (t.hash_function_ kv.1 % t.table_.length) = tr2
               then t.tree_
               else fun j => if j = t.hash_function_ kv.1 % t.table_.length
                 then tr2 else t.tree_ j)
              hwf hlen hb hkc hperm
            subst h1
            refine ⟨hwf2, ?_, rfl, rfl, by simp, by simp, fun _ => hkc2, ?_⟩
            · show (t.table_.set _ b2).length = t.table_.length
              rw [List.length_set]
            · intro f
              have hc := hcnt2 f
              show (t.table_.set _ b2).flatten.countP f
                  = t.table_.flatten.countP f + _
              simpa using hc

theorem fhAt_spec (t : FixedHM) (k : Nat) (t' : FixedHM) (v : Nat)
    (hwf : FixedWf t) (h : fhAt t k = some (t', v)) :
    ∃ added,
      FixedWf t' ∧
      t'.table_.length = t.table_.length ∧
      t'.hash_function_ = t.hash_function_ ∧
      t'.stolen_bucket_ = t.stolen_bucket_ ∧
      t'.size_ = t.size_ + (if added then 1 else 0) ∧
      (added = false → t' = t) ∧
      (added = true → keyCount (allPairs t) k = 0) ∧
      (∀ f : KV → Bool, (allPairs t').countP f
        = (allPairs t).countP f
          + (if added then (if f (k, 0) then 1 else 0) else 0)) := by
  have hlen : t.table_.length ≠ 0 := by
    intro hz
    unfold fhAt FixedHM.hash at h
    rw [if_pos hz] at h
    simp only [Option.bind_eq_bind, Option.none_bind] at h
    cases h
  obtain ⟨b, hb⟩ := fh_bucket_exists t k hlen
  have hhash := fh_hash_eq t k hlen
  have hlt : t.hash_function_ k % t.table_.length < t.table_.length :=
    Nat.mod_lt _ (Nat.pos_of_ne_zero hlen)
  unfold fhAt at h
  rw [hhash] at h
  simp only [Option.bind_eq_bind, Option.some_bind] at h
  rw [hb] at h
  simp only [Option.some_bind] at h
  by_cases hg : t.tree_ (t.hash_function_ k % t.table_.length) = true
      ∧ b.isEmpty = true
  · rw [if_pos hg] at h
    cases h
  · rw [if_neg hg] at h
    cases hscan : bucketScan b k with
    | some p =>
        rw [hscan] at h
        simp only [Option.some.injEq, Prod.mk.injEq] at h
        obtain ⟨h1, h2⟩ := h
        subst h1
        refine ⟨false, hwf, rfl, rfl, rfl, by simp, fun _ => rfl, by simp, ?_⟩
        intro f
        simp
    | none =>
        rw [hscan] at h
        simp only [Option.bind_eq_bind] at h
        cases hbi : bucketInsert
            (t.tree_ (t.hash_function_ k % t.table_.length)) b (k, 0) with
        | none =>
            rw [hbi] at h
            simp only [Option.none_bind] at h
            cases h
        | some q =>
            obtain ⟨b2, tr2⟩ := q
            rw [hbi] at h
            simp only [Option.some_bind, Option.some.injEq, Prod.mk.injEq] at h
            obtain ⟨h1, h2⟩ := h
            have hperm := bucketInsert_perm _ b b2 (k, 0) tr2 hbi
            have hkc : keyCount b k = 0 :=
              (bucketScan_none_iff b k).mp hscan
            have hkc2 : keyCount (allPairs t) k = 0 := by
              rw [keyCount_allPairs_eq_bucket t hwf.keys_ok k b hb]
              exact hkc
            obtain ⟨hwf2, hcnt2⟩ := fh_set_insert_wf t (k, 0) b b2
              (if t.tree_ (t.hash_function_ k % t.table_.length) = tr2
               then t.tree_
               else fun j => if j = t.hash_function_ k % t.table_.length
                 then tr2 else t.tree_ j)
              hwf hlen hb hkc hperm
            subst h1
            refine ⟨true, hwf2, ?_, rfl, rfl, by simp, by simp, fun _ => hkc2, ?_⟩
            · show (t.table_.set _ b2).length = t.table_.length
              rw [List.length_set]
            · intro f
              have hc := hcnt2 f
              show (t.table_.set _ b2).flatten.countP f
                  = t.table_.flatten.countP f + _
              simpa using hc

theorem mem_flatten_of_get? (tbl : List (List KV)) (i : Nat) (b : List KV)
    (hb : tbl.get? i = some b) (p : KV) (hp : p ∈ b) : p ∈ tbl.flatten :=
  List.mem_flatten.mpr ⟨b, List.get?_mem hb, hp⟩

theorem fhErase_spec (t : FixedHM) (k : Nat) (t' : FixedHM) (n : Nat)
    (hwf : FixedWf t) (h : fhErase t k = some (t', n)) :
    ∃ (removed : List KV),
      FixedWf t' ∧
      t'.table_.length = t.table_.length ∧
      t'.hash_function_ = t.hash_function_ ∧
      t'.stolen_bucket_ = t.stolen_bucket_ ∧
      n ≤ 1 ∧
      t.size_ = t'.size_ + n ∧
      removed.length = n ∧
      (n = 0 → t' = t ∧ keyCount (allPairs t) k = 0) ∧
      (∀ p ∈ removed, p.1 = k ∧ p ∈ allPairs t) ∧
      (∀ i, t.table_.get? i = some [] → t'.table_.get? i = some []) ∧
      (∀ f : KV → Bool,
        (allPairs t).countP f = (allPairs t').countP f + removed.countP f) := by
  have hlen : t.table_.length ≠ 0 := by
    intro hz
    unfold fhErase FixedHM.hash at h
    rw [if_pos hz] at h
    simp only [Option.bind_eq_bind, Option.none_bind] at h
    cases h
  obtain ⟨b, hb⟩ := fh_bucket_exists t k hlen
  have hhash := fh_hash_eq t k hlen
  have hlt : t.hash_function_ k % t.table_.length < t.table_.length :=
    Nat.mod_lt _ (Nat.pos_of_ne_zero hlen)
  unfold fhErase at h
  rw [hhash] at h
  simp only [Option.bind_eq_bind, Option.some_bind] at h
  rw [hb] at h
  simp only [Option.some_bind] at h
  by_cases hg : t.tree_ (t.hash_function_ k % t.table_.length) = true
      ∧ b.isEmpty = true
  · rw [if_pos hg] at h
    cases h
  · rw [if_neg hg] at h
    cases hscan : bucketScan b k with
    | none =>
        rw [hscan] at h
        simp only [Option.some.injEq, Prod.mk.injEq] at h
        obtain ⟨h1, h2⟩ := h
        subst h1
        subst h2
        have hkc : keyCount b k = 0 := (bucketScan_none_iff b k).mp hscan
        have hkc2 : keyCount (allPairs t) k = 0 := by
          rw [keyCount_allPairs_eq_bucket t hwf.keys_ok k b hb]
          exact hkc
        refine ⟨[], hwf, rfl, rfl, rfl, by omega, by omega, rfl,
                fun _ => ⟨rfl, hkc2⟩, ?_, fun i hi => hi, ?_⟩
        · intro p hp
          exact absurd hp (List.not_mem_nil p)
        · intro f
          simp
    | some p =>
        rw [hscan] at h
        simp only [Option.some.injEq, Prod.mk.injEq] at h
        obtain ⟨h1, h2⟩ := h
        subst h2
        obtain ⟨hpmem, hpk, hblen, hsub, hcount⟩ := eraseFirst_spec k b p hscan
        have hsz1 : 1 ≤ t.size_ := by
          have hgb : b.length ≤ sumSizes t.table_ := sumSizes_ge_bucket _ _ _ hb
          have h2b : 1 ≤ b.length := by
            cases b
            · cases hpmem
            · simp
          have := hwf.sum_ok
          omega
        subst h1
        refine ⟨[p], ?_, ?_, rfl, rfl, by omega, ?_, rfl,
                by omega, ?_, ?_, ?_⟩
        · constructor
          · have hs := sumSizes_set t.table_
              (t.hash_function_ k % t.table_.length) b (eraseFirst b k) hb
            have hsz := hwf.sum_ok
            show t.size_ - 1 = sumSizes (t.table_.set _ (eraseFirst b k))
            omega
          · intro i b0 hb0
            show (∀ q ∈ b0, t.hash_function_ q.1 %
                (t.table_.set (t.hash_function_ k % t.table_.length)
                  (eraseFirst b k)).length = i) ∧ (b0.map Prod.fst).Nodup
            rw [List.length_set]
            by_cases hieq : i = t.hash_function_ k % t.table_.length
            · rw [hieq] at hb0 ⊢
              rw [List.get?_set_eq_of_lt _ hlt] at hb0
              injection hb0 with hb0
              subst hb0
              constructor
              · intro q hq
                exact (hwf.keys_ok _ b hb).1 q (hsub.mem hq)
              · exact List.Nodup.sublist (List.Sublist.map Prod.fst hsub)
                  (hwf.keys_ok _ b hb).2
            · rw [List.get?_set_ne _ _ (fun h => hieq h.symm)] at hb0
              exact hwf.keys_ok i b0 hb0
        · show (t.table_.set _ (eraseFirst b k)).length = t.table_.length
          rw [List.length_set]
        · show t.size_ = t.size_ - 1 + 1
          omega
        · intro q hq
          rcases List.mem_singleton.mp hq with rfl
          exact ⟨hpk, mem_flatten_of_get? t.table_ _ b hb q hpmem⟩
        · intro i hi
          by_cases hieq : i = t.hash_function_ k % t.table_.length
          · subst hieq
            rw [hb] at hi
            injection hi with hi
            rw [hi] at hpmem
            exact absurd hpmem (List.not_mem_nil p)
          · show (t.table_.set _ (eraseFirst b k)).get? i = some []
            rw [List.get?_set_ne _ _ (fun h => hieq h.symm)]
            exact hi
        · intro f
          have hc := countP_flatten_set f t.table_
            (t.hash_function_ k % t.table_.length) b (eraseFirst b k) hb
          have hcb := hcount f
          show t.table_.flatten.countP f
              = (t.table_.set _ (eraseFirst b k)).flatten.countP f + [p].countP f
          have hp1 : ([p].countP f) = if f p then 1 else 0 := by
            simp [List.countP_cons]
          by_cases hf : f p = true
          · simp only [hf, if_true] at hcb hp1
            omega
          · have hf2 : f p = false := by
              cases hfc : f p
              · rfl
              · exact absurd hfc hf
            simp only [hf2, if_false, Bool.false_eq_true] at hcb hp1
            omega

theorem fhFind_spec (t : FixedHM) (k : Nat) (r : Option KV)
    (hwf : FixedWf t) (h : fhFind t k = some r) :
    (r = none → keyCount (allPairs t) k = 0) ∧
      (∀ p, r = some p → p.1 = k ∧ p ∈ allPairs t) := by
  have hlen : t.table_.length ≠ 0 := by
    intro hz
    unfold fhFind FixedHM.hash at h
    rw [if_pos hz] at h
    simp only [Option.bind_eq_bind, Option.none_bind] at h
    cases h
  obtain ⟨b, hb⟩ := fh_bucket_exists t k hlen
  have hhash := fh_hash_eq t k hlen
  unfold fhFind at h
  rw [hhash] at h
  simp only [Option.bind_eq_bind, Option.some_bind] at h
  rw [hb] at h
  simp only [Option.some_bind] at h
  by_cases hg : t.tree_ (t.hash_function_ k % t.table_.length) = true
      ∧ b.isEmpty = true
  · rw [if_pos hg] at h
    cases h
  · rw [if_neg hg] at h
    injection h with h
    subst h
    constructor
    · intro h0
      rw [keyCount_allPairs_eq_bucket t hwf.keys_ok k b hb]
      exact (bucketScan_none_iff b k).mp h0
    · intro p hp
      obtain ⟨hpmem, hpk, _, _, _⟩ := eraseFirst_spec k b p hp
      exact ⟨hpk, mem_flatten_of_get? t.table_ _ b hb p hpmem⟩


theorem stealOuter_noop_zero (tbl : List (List KV)) (sz start n : Nat)
    (acc : List KV) (h : n = 0 ∨ k_max_steal_iterations < start - 0) :
    stealOuter tbl sz start n acc 0 = some (acc, tbl, sz, 0) := by
  rcases h with h | h
  · simp [stealOuter, h]
  · have h' : k_max_steal_iterations < start := by simpa using h
    by_cases hn : n = 0
    · simp [stealOuter, hn]
    · simp [stealOuter, hn, h']

theorem stealOuter_noop_succ (tbl : List (List KV)) (sz start n : Nat)
    (acc : List KV) (c : Nat)
    (h : n = 0 ∨ k_max_steal_iterations < start - (c + 1)) :
    stealOuter tbl sz start n acc (c + 1) = some (acc, tbl, sz, ((c + 1 : Nat) : Int)) := by
  rcases h with h | h
  · simp [stealOuter, h]
  · by_cases hn : n = 0
    · simp [stealOuter, hn]
    · simp [stealOuter, hn, h]

theorem stealOuter_drain_zero (tbl : List (List KV)) (sz start n : Nat)
    (acc : List KV) (bucket : List KV)
    (hn : ¬n = 0) (hfuse : ¬k_max_steal_iterations < start - 0)
    (hb : tbl.get? 0 = some bucket) :
    stealOuter tbl sz start n acc 0
      = (if (bucket.drop n).isEmpty then
           (if sz - (bucket.take n).length = 0 then
              some (acc ++ bucket.take n, tbl.set 0 (bucket.drop n),
                    sz - (bucket.take n).length, 0)
            else none)
         else some (acc ++ bucket.take n, tbl.set 0 (bucket.drop n),
                    sz - (bucket.take n).length, 0)) := by
  simp only [stealOuter]
  rw [if_neg hn, if_neg hfuse, hb]

theorem stealOuter_drain_succ (tbl : List (List KV)) (sz start n : Nat)
    (acc : List KV) (c : Nat) (bucket : List KV)
    (hn : ¬n = 0) (hfuse : ¬k_max_steal_iterations < start - (c + 1))
    (hb : tbl.get? (c + 1) = some bucket) :
    stealOuter tbl sz start n acc (c + 1)
      = (if (bucket.drop n).isEmpty then
           stealOuter (tbl.set (c + 1) (bucket.drop n))
             (sz - (bucket.take n).length) start (n - (bucket.take n).length)
             (acc ++ bucket.take n) c
         else some (acc ++ bucket.take n, tbl.set (c + 1) (bucket.drop n),
                    sz - (bucket.take n).length, ((c + 1 : Nat) : Int))) := by
  simp only [stealOuter]
  rw [if_neg hn, if_neg hfuse, hb]

theorem stealOuter_spec :
    ∀ (cursor : Nat) (tbl : List (List KV)) (sz start n : Nat) (acc : List KV),
      sz = sumSizes tbl →
      cursor < tbl.length →
      (∀ i b, tbl.get? i = some b → cursor < i → b = []) →
      ∃ (fresh : List KV) (tbl' : List (List KV)) (sz' : Nat) (cur' : Int),
        stealOuter tbl sz start n acc cursor = some (acc ++ fresh, tbl', sz', cur') ∧
        fresh.length ≤ n ∧
        sz' = sumSizes tbl' ∧
        sz = sz' + fresh.length ∧
        tbl'.length = tbl.length ∧
        0 ≤ cur' ∧ cur' ≤ (cursor : Int) ∧ cur' < (tbl.length : Int) ∧
        (∀ i b, tbl'.get? i = some b → cur' < (i : Int) → b = []) ∧
        (∀ i, ∃ d, tbl'.get? i = (tbl.get? i).map (fun bb => bb.drop d)) ∧
        (∀ f : KV → Bool,
          tbl.flatten.countP f = tbl'.flatten.countP f + fresh.countP f) := by
  intro cursor
  induction cursor with
  | zero =>
      intro tbl sz start n acc hsum hcur habove
      by_cases hstop : n = 0 ∨ k_max_steal_iterations < start - 0
      · refine ⟨[], tbl, sz, 0, ?_, by simp, hsum, by simp, rfl, le_refl 0,
                by simp, by exact_mod_cast hcur, ?_, ?_, ?_⟩
        · rw [stealOuter_noop_zero tbl sz start n acc hstop]
          simp
        · intro i b hb hi
          exact habove i b hb (by exact_mod_cast hi)
        · intro i
          exact ⟨0, by cases tbl.get? i <;> simp⟩
        · intro f
          simp
      · push_neg at hstop
        obtain ⟨hn, hfuse⟩ := hstop
        obtain ⟨bucket, hb⟩ : ∃ b, tbl.get? 0 = some b := by
          cases hcase : tbl.get? 0 with
          | none =>
              have := List.get?_eq_none.mp hcase
              omega
          | some b => exact ⟨b, rfl⟩
        have heq := stealOuter_drain_zero tbl sz start n acc bucket hn (by omega) hb
        have htake : (bucket.take n).length ≤ n := by
          simp [List.length_take]
        have hble : bucket.length ≤ sumSizes tbl := sumSizes_ge_bucket _ _ _ hb
        have hsset := sumSizes_set tbl 0 bucket (bucket.drop n) hb
        have hcount := fun f => countP_flatten_set f tbl 0 bucket (bucket.drop n) hb
        have hcountb : ∀ f : KV → Bool,
            bucket.countP f = (bucket.take n).countP f + (bucket.drop n).countP f := by
          intro f
          conv_lhs => rw [← List.take_append_drop n bucket]
          rw [List.countP_append]
        have hlenb : bucket.length
            = (bucket.take n).length + (bucket.drop n).length := by
          conv_lhs => rw [← List.take_append_drop n bucket]
          rw [List.length_append]
        have hcommon : ∀ i : Nat, ∃ d,
            (tbl.set 0 (bucket.drop n)).get? i
              = (tbl.get? i).map (fun bb => bb.drop d) := by
          intro i
          by_cases hieq : i = 0
          · subst hieq
            refine ⟨n, ?_⟩
            rw [List.get?_set_eq_of_lt _ (by omega), hb]
            rfl
          · refine ⟨0, ?_⟩
            rw [List.get?_set_ne _ _ (fun h => hieq h.symm)]
            cases tbl.get? i <;> simp
        have habove' : ∀ i b, (tbl.set 0 (bucket.drop n)).get? i = some b →
            (0 : Int) < (i : Int) → b = [] := by
          intro i b hbi hi
          have hine : i ≠ 0 := by
            intro h
            rw [h] at hi
            simp at hi
          rw [List.get?_set_ne _ _ (fun h => hine h.symm)] at hbi
          exact habove i b hbi (by omega)
        by_cases hemp : (bucket.drop n).isEmpty
        · have hempe : bucket.drop n = [] := List.isEmpty_iff.mp hemp
          have hsz0 : sz = bucket.length := by
            rw [hsum, sumSizes]
            apply sum_eq_of_single _ 0
            · rw [List.get?_map, hb]
              rfl
            · intro j y hy hj
              rw [List.get?_map] at hy
              cases hcase : tbl.get? j with
              | none => rw [hcase] at hy; cases hy
              | some bj =>
                  rw [hcase] at hy
                  injection hy with hy
                  have : bj = [] := habove j bj hcase (by omega)
                  subst this
                  simp at hy
                  omega
          have hsz' : sz - (bucket.take n).length = 0 := by
            rw [hempe] at hlenb
            simp only [List.length_nil] at hlenb
            omega
          rw [if_pos hemp, if_pos hsz'] at heq
          refine ⟨bucket.take n, tbl.set 0 (bucket.drop n),
                  sz - (bucket.take n).length, 0, heq, htake, ?_, ?_,
                  by simp [List.length_set], le_refl 0, by simp,
                  by exact_mod_cast hcur, habove', hcommon, ?_⟩
          · omega
          · omega
          · intro f
            have := hcount f
            have := hcountb f
            omega
        · rw [if_neg (by simpa using hemp)] at heq
          refine ⟨bucket.take n, tbl.set 0 (bucket.drop n),
                  sz - (bucket.take n).length, 0, heq, htake, ?_, ?_,
                  by simp [List.length_set], le_refl 0, by simp,
                  by exact_mod_cast hcur, habove', hcommon, ?_⟩
          · omega
          · omega
          · intro f
            have := hcount f
            have := hcountb f
            omega
  | succ c ih =>
      intro tbl sz start n acc hsum hcur habove
      by_cases hstop : n = 0 ∨ k_max_steal_iterations < start - (c + 1)
      · refine ⟨[], tbl, sz, ((c + 1 : Nat) : Int), ?_, by simp, hsum, by simp,
                rfl, by positivity, le_refl _, by exact_mod_cast hcur, ?_, ?_, ?_⟩
        · rw [stealOuter_noop_succ tbl sz start n acc c hstop]
          simp
        · intro i b hb hi
          exact habove i b hb (by exact_mod_cast hi)
        · intro i
          exact ⟨0, by cases tbl.get? i <;> simp⟩
        · intro f
          simp
      · push_neg at hstop
        obtain ⟨hn, hfuse⟩ := hstop
        obtain ⟨bucket, hb⟩ : ∃ b, tbl.get? (c + 1) = some b := by
          cases hcase : tbl.get? (c + 1) with
          | none =>
              have := List.get?_eq_none.mp hcase
              omega
          | some b => exact ⟨b, rfl⟩
        have heq := stealOuter_drain_succ tbl sz start n acc c bucket hn
          (by omega) hb
        have htake : (bucket.take n).length ≤ n := by
          simp [List.length_take]
        have hble : bucket.length ≤ sumSizes tbl := sumSizes_ge_bucket _ _ _ hb
        have hsset := sumSizes_set tbl (c + 1) bucket (bucket.drop n) hb
        have hcount := fun f =>
          countP_flatten_set f tbl (c + 1) bucket (bucket.drop n) hb
        have hcountb : ∀ f : KV → Bool,
            bucket.countP f = (bucket.take n).countP f + (bucket.drop n).countP f := by
          intro f
          conv_lhs => rw [← List.take_append_drop n bucket]
          rw [List.countP_append]
        have hlenb : bucket.length
            = (bucket.take n).length + (bucket.drop n).length := by
          conv_lhs => rw [← List.take_append_drop n bucket]
          rw [List.length_append]
        have hdrop1 : ∀ i : Nat, ∃ d,
            (tbl.set (c + 1) (bucket.drop n)).get? i
              = (tbl.get? i).map (fun bb => bb.drop d) := by
          intro i
          by_cases hieq : i = c + 1
          · subst hieq
            refine ⟨n, ?_⟩
            rw [List.get?_set_eq_of_lt _ (by omega), hb]
            rfl
          · refine ⟨0, ?_⟩
            rw [List.get?_set_ne _ _ (fun h => hieq h.symm)]
            cases tbl.get? i <;> simp
        by_cases hemp : (bucket.drop n).isEmpty
        · -- the bucket emptied: decrement the cursor and continue
          have hempe : bucket.drop n = [] := List.isEmpty_iff.mp hemp
          rw [if_pos hemp] at heq
          have hsum' : sz - (bucket.take n).length
              = sumSizes (tbl.set (c + 1) (bucket.drop n)) := by
            omega
          have hcur' : c < (tbl.set (c + 1) (bucket.drop n)).length := by
            rw [List.length_set]
            omega
          have habove' : ∀ i b, (tbl.set (c + 1) (bucket.drop n)).get? i = some b →
              c < i → b = [] := by
            intro i b hbi hi
            by_cases hieq : i = c + 1
            · subst hieq
              rw [List.get?_set_eq_of_lt _ (by omega)] at hbi
              injection hbi with hbi
              rw [← hbi, hempe]
            · rw [List.get?_set_ne _ _ (fun h => hieq h.symm)] at hbi
              exact habove i b hbi (by omega)
          obtain ⟨fresh2, tbl'', sz'', cur'', hrec, hlen2, hsum2, hszeq2,
                  hlen2', hc0, hcle, hclt, habove2, hdrop2, hcount2⟩ :=
            ih (tbl.set (c + 1) (bucket.drop n)) (sz - (bucket.take n).length)
              start (n - (bucket.take n).length) (acc ++ bucket.take n)
              hsum' hcur' habove'
          rw [hrec] at heq
          refine ⟨bucket.take n ++ fresh2, tbl'', sz'', cur'', ?_, ?_, hsum2,
                  ?_, by rw [hlen2', List.length_set], hc0, ?_,
                  by rw [List.length_set] at hclt; exact_mod_cast hclt,
                  habove2, ?_, ?_⟩
          · rw [heq, List.append_assoc]
          · rw [List.length_append]
            omega
          · rw [List.length_append]
            omega
          · have h1 : (c : Int) ≤ ((c + 1 : Nat) : Int) := by
              push_cast
              omega
            omega
          · intro i
            obtain ⟨d2, hd2⟩ := hdrop2 i
            obtain ⟨d1, hd1⟩ := hdrop1 i
            refine ⟨d1 + d2, ?_⟩
            rw [hd2, hd1]
            cases tbl.get? i with
            | none => rfl
            | some bb =>
                simp [List.drop_drop]
          · intro f
            have h1 := hcount f
            have h2 := hcountb f
            have h3 := hcount2 f
            rw [List.countP_append]
            omega
        · rw [if_neg (by simpa using hemp)] at heq
          refine ⟨bucket.take n, tbl.set (c + 1) (bucket.drop n),
                  sz - (bucket.take n).length, ((c + 1 : Nat) : Int), heq, htake,
                  ?_, ?_, by simp [List.length_set], by positivity, le_refl _,
                  by exact_mod_cast hcur, ?_, hdrop1, ?_⟩
          · omega
          · omega
          · intro i b hbi hi
            have hine : i ≠ c + 1 := by
              intro h
              rw [h] at hi
              simp at hi
            rw [List.get?_set_ne _ _ (fun h => hine h.symm)] at hbi
            exact habove i b hbi (by exact_mod_cast hi)
          · intro f
            have := hcount f
            have := hcountb f
            omega

theorem stealOuter_fault_zero (tbl : List (List KV)) (sz start n : Nat)
    (acc : List KV) (hn : ¬n = 0) (hfuse : ¬k_max_steal_iterations < start - 0)
    (hb : tbl.get? 0 = none) :
    stealOuter tbl sz start n acc 0 = none := by
  simp only [stealOuter]
  rw [if_neg hn, if_neg hfuse, hb]

theorem stealOuter_fault_succ (tbl : List (List KV)) (sz start n : Nat)
    (acc : List KV) (c : Nat) (hn : ¬n = 0)
    (hfuse : ¬k_max_steal_iterations < start - (c + 1))
    (hb : tbl.get? (c + 1) = none) :
    stealOuter tbl sz start n acc (c + 1) = none := by
  simp only [stealOuter]
  rw [if_neg hn, if_neg hfuse, hb]

theorem stealOuter_size_ge :
    ∀ (cursor : Nat) (tbl : List (List KV)) (sz start n : Nat) (acc : List KV)
      (st : List KV) (tbl' : List (List KV)) (sz' : Nat) (cur' : Int),
      stealOuter tbl sz start n acc cursor = some (st, tbl', sz', cur') →
      sz ≤ sz' + n := by
  intro cursor
  induction cursor with
  | zero =>
      intro tbl sz start n acc st tbl' sz' cur' h
      by_cases hstop : n = 0 ∨ k_max_steal_iterations < start - 0
      · rw [stealOuter_noop_zero tbl sz start n acc hstop] at h
        simp only [Option.some.injEq, Prod.mk.injEq] at h
        omega
      · push_neg at hstop
        obtain ⟨hn, hfuse⟩ := hstop
        cases hb : tbl.get? 0 with
        | none =>
            rw [stealOuter_fault_zero tbl sz start n acc hn (by omega) hb] at h
            cases h
        | some bucket =>
            rw [stealOuter_drain_zero tbl sz start n acc bucket hn (by omega) hb] at h
            have htake : (bucket.take n).length ≤ n := by
              simp [List.length_take]
            by_cases hemp : (bucket.drop n).isEmpty
            · rw [if_pos hemp] at h
              by_cases hz : sz - (bucket.take n).length = 0
              · rw [if_pos hz] at h
                simp only [Option.some.injEq, Prod.mk.injEq] at h
                omega
              · rw [if_neg hz] at h
                cases h
            · rw [if_neg (by simpa using hemp)] at h
              simp only [Option.some.injEq, Prod.mk.injEq] at h
              omega
  | succ c ih =>
      intro tbl sz start n acc st tbl' sz' cur' h
      by_cases hstop : n = 0 ∨ k_max_steal_iterations < start - (c + 1)
      · rw [stealOuter_noop_succ tbl sz start n acc c hstop] at h
        simp only [Option.some.injEq, Prod.mk.injEq] at h
        omega
      · push_neg at hstop
        obtain ⟨hn, hfuse⟩ := hstop
        cases hb : tbl.get? (c + 1) with
        | none =>
            rw [stealOuter_fault_succ tbl sz start n acc c hn (by omega) hb] at h
            cases h
        | some bucket =>
            rw [stealOuter_drain_succ tbl sz start n acc c bucket hn (by omega) hb] at h
            have htake : (bucket.take n).length ≤ n := by
              simp [List.length_take]
            by_cases hemp : (bucket.drop n).isEmpty
            · rw [if_pos hemp] at h
              have := ih (tbl.set (c + 1) (bucket.drop n))
                (sz - (bucket.take n).length) start (n - (bucket.take n).length)
                (acc ++ bucket.take n) st tbl' sz' cur' h
              omega
            · rw [if_neg (by simpa using hemp)] at h
              simp only [Option.some.injEq, Prod.mk.injEq] at h
              omega

theorem fhSteal_size_ge (t : FixedHM) (n : Nat) (st : List KV) (t' : FixedHM)
    (h : fhSteal t n = some (st, t')) : t.size_ ≤ t'.size_ + n := by
  unfold fhSteal at h
  by_cases hc : t.stolen_bucket_ < 0 ∨ n = 0
  · rw [if_pos hc] at h
    simp only [Option.some.injEq, Prod.mk.injEq] at h
    obtain ⟨-, h2⟩ := h
    rw [← h2]
    omega
  · rw [if_neg hc] at h
    cases hso : stealOuter t.table_ t.size_ t.stolen_bucket_.toNat n [] t.stolen_bucket_.toNat with
    | none =>
        rw [hso] at h
        cases h
    | some q =>
        obtain ⟨st0, tbl0, sz0, cur0⟩ := q
        rw [hso] at h
        simp only [Option.some.injEq, Prod.mk.injEq] at h
        have := stealOuter_size_ge t.stolen_bucket_.toNat t.table_ t.size_
          t.stolen_bucket_.toNat n [] st0 tbl0 sz0 cur0 hso
        obtain ⟨-, h2⟩ := h
        have h3 : t'.size_ = sz0 := by
          rw [← h2]
        omega

theorem fhSteal_spec (t : FixedHM) (n : Nat)
    (hsum : t.size_ = sumSizes t.table_)
    (hcur : t.stolen_bucket_ < (t.table_.length : Int))
    (habove : aboveEmpty t) :
    ∃ (stolen : List KV) (t' : FixedHM), fhSteal t n = some (stolen, t') ∧
      stolen.length ≤ n ∧
      t'.size_ = sumSizes t'.table_ ∧
      t.size_ = t'.size_ + stolen.length ∧
      t'.table_.length = t.table_.length ∧
      t'.hash_function_ = t.hash_function_ ∧
      t'.stolen_bucket_ < (t'.table_.length : Int) ∧
      aboveEmpty t' ∧
      (∀ i, ∃ d, t'.table_.get? i = (t.table_.get? i).map (fun bb => bb.drop d)) ∧
      (∀ f : KV → Bool, (allPairs t).countP f
        = (allPairs t').countP f + stolen.countP f) := by
  by_cases hc : t.stolen_bucket_ < 0 ∨ n = 0
  · refine ⟨[], t, ?_, by simp, hsum, by simp, rfl, rfl, hcur, habove, ?_, ?_⟩
    · unfold fhSteal
      rw [if_pos hc]
    · intro i
      exact ⟨0, by cases t.table_.get? i <;> simp⟩
    · intro f
      simp
  · push_neg at hc
    obtain ⟨hge, hn⟩ := hc
    have hcurn : t.stolen_bucket_.toNat < t.table_.length := by
      omega
    have haboven : ∀ i b, t.table_.get? i = some b →
        t.stolen_bucket_.toNat < i → b = [] := by
      intro i b hb hi
      exact habove i b hb (by omega)
    obtain ⟨fresh, tbl', sz', cur', hso, hlen, hsum', hszeq, hlen', hc0, hcle,
            hclt, habove', hdrop', hcount'⟩ :=
      stealOuter_spec t.stolen_bucket_.toNat t.table_ t.size_
        t.stolen_bucket_.toNat n [] hsum hcurn haboven
    refine ⟨fresh, { t with table_ := tbl', size_ := sz', stolen_bucket_ := cur' },
            ?_, hlen, hsum', hszeq, hlen', rfl, ?_, ?_, hdrop', hcount'⟩
    · unfold fhSteal
      rw [if_neg (by push_neg; exact ⟨hge, hn⟩)]
      rw [hso]
      simp
    · show cur' < (tbl'.length : Int)
      rw [hlen']
      exact hclt
    · intro i b hb hi
      exact habove' i b hb hi


/-- C6 (amended): under the steal invariant — cursor within range, `size_`
equal to the sum of bucket sizes, and all buckets above the cursor empty —
`steal_elements(n)` succeeds, returns `m ≤ n` elements, decreases `size_`
by exactly `m`, and afterwards every bucket above the cursor is empty
again. -/
theorem c6_steal_spec_with_invariant (t : FixedHM) (n : Nat)
    (hsum : t.size_ = sumSizes t.table_)
    (hcur : t.stolen_bucket_ < (t.table_.length : Int))
    (habove : aboveEmpty t) :
    ∃ stolen t', fhSteal t n = some (stolen, t') ∧
      stolen.length ≤ n ∧
      t.size_ = t'.size_ + stolen.length ∧
      aboveEmpty t' := by
  obtain ⟨stolen, t', h1, h2, _, h4, _, _, _, h8, _, _⟩ :=
    fhSteal_spec t n hsum hcur habove
  exact ⟨stolen, t', h1, h2, h4, h8⟩

/-- Witness for the amended C6 at the concrete two-bucket table `c6_t1`
holding one element in bucket 1 with the cursor at 1. -/
theorem c6_steal_spec_with_invariant_witness :
    c6_t1.size_ = sumSizes c6_t1.table_ ∧
    c6_t1.stolen_bucket_ < (c6_t1.table_.length : Int) ∧
    (∃ stolen t', fhSteal c6_t1 1 = some (stolen, t') ∧
      stolen.length ≤ 1 ∧
      c6_t1.size_ = t'.size_ + stolen.length ∧
      aboveEmpty t') := by
  have habove : aboveEmpty c6_t1 := by
    intro i b hb hi
    have h2 : i < c6_t1.table_.length := (List.get?_eq_some.mp hb).1
    have h3 : c6_t1.table_.length = 2 := rfl
    have h4 : c6_t1.stolen_bucket_ = 1 := rfl
    rw [h4] at hi
    omega
  exact ⟨rfl, by decide,
    c6_steal_spec_with_invariant c6_t1 1 rfl (by decide) habove⟩

theorem fhErase_size_le (t : FixedHM) (k : Nat) (t' : FixedHM) (n : Nat)
    (h : fhErase t k = some (t', n)) : t.size_ ≤ t'.size_ + 1 := by
  unfold fhErase at h
  cases hh : t.hash k with
  | none =>
      rw [hh] at h
      cases h
  | some idx =>
      rw [hh] at h
      simp only [Option.bind_eq_bind, Option.some_bind] at h
      cases hg : t.table_.get? idx with
      | none =>
          rw [hg] at h
          cases h
      | some bucket =>
          rw [hg] at h
          simp only [Option.bind_eq_bind, Option.some_bind] at h
          by_cases hgd : t.tree_ idx = true ∧ bucket.isEmpty = true
          · rw [if_pos hgd] at h
            cases h
          · rw [if_neg hgd] at h
            cases hs : bucketScan bucket k with
            | none =>
                rw [hs] at h
                simp only [Option.some.injEq, Prod.mk.injEq] at h
                obtain ⟨h1, -⟩ := h
                rw [← h1]
                omega
            | some p =>
                rw [hs] at h
                simp only [Option.some.injEq, Prod.mk.injEq] at h
                obtain ⟨h1, -⟩ := h
                have : t'.size_ = t.size_ - 1 := by
                  rw [← h1]
                omega

theorem mp_old_size (m m' : HM) (h : move_progressively m = some m') :
    m.old_.size_ ≤ m'.old_.size_ + k_num_items_to_steal := by
  unfold move_progressively at h
  by_cases hr : ¬m.rehashing_
  · rw [if_pos hr] at h
    injection h with h
    rw [← h]
    simp [k_num_items_to_steal]
  · rw [if_neg hr] at h
    cases hsteal : fhSteal m.old_ k_num_items_to_steal with
    | none =>
        rw [hsteal] at h
        cases h
    | some q =>
        obtain ⟨elements, old'⟩ := q
        rw [hsteal] at h
        simp only [Option.bind_eq_bind, Option.some_bind] at h
        have hge := fhSteal_size_ge m.old_ k_num_items_to_steal elements old' hsteal
        by_cases hfin : elements.isEmpty = true ∧ old'.size_ = 0
        · rw [if_pos hfin] at h
          injection h with h
          have : m'.old_.size_ = 0 := by
            rw [← h]
            rfl
          omega
        · rw [if_neg hfin] at h
          cases hins : insertAll m.current_ elements with
          | none =>
              rw [hins] at h
              cases h
          | some cur' =>
              rw [hins] at h
              simp only [Option.bind_eq_bind, Option.some_bind,
                Option.some.injEq] at h
              have : m'.old_.size_ = old'.size_ := by
                rw [← h]
              omega

theorem maybe_rehash_old_size (m m' : HM) (h : maybe_rehash m = some m') :
    m.old_.size_ ≤ m'.old_.size_ ∨ m.old_.size_ = 0 := by
  unfold maybe_rehash at h
  by_cases hr : m.rehashing_
  · rw [if_pos hr] at h
    injection h with h
    rw [← h]
    left
    omega
  · rw [if_neg hr] at h
    by_cases h1 : m.current_.table_.length * 3 ≤ m.current_.size_ * 4
    · rw [if_pos h1] at h
      unfold hmRehash at h
      by_cases h2 : m.old_.size_ ≠ 0
      · rw [if_pos h2] at h
        cases h
      · right
        omega
    · rw [if_neg h1] at h
      by_cases h2 : m.current_.size_ * 4 < m.current_.table_.length ∧
          16 < m.current_.table_.length
      · rw [if_pos h2] at h
        unfold hmRehash at h
        by_cases h3 : m.old_.size_ ≠ 0
        · rw [if_pos h3] at h
          cases h
        · right
          omega
      · rw [if_neg h2] at h
        injection h with h
        rw [← h]
        left
        omega

theorem hmContainsSt_frame (m : HM) (k : Nat) (p : HM × Bool)
    (h : hmContainsSt m k = some p) : p.1 = m := by
  unfold hmContainsSt at h
  cases h1 : fhContains m.current_ k with
  | none => rw [h1] at h; cases h
  | some b1 =>
      rw [h1] at h
      simp only [Option.bind_eq_bind, Option.some_bind] at h
      by_cases hb : b1 = true
      · rw [if_pos hb] at h
        simp only [Option.some.injEq] at h
        rw [← h]
      · rw [if_neg hb] at h
        cases h2 : fhContains m.old_ k with
        | none => rw [h2] at h; cases h
        | some b2 =>
            rw [h2] at h
            simp only [Option.bind_eq_bind, Option.some_bind,
              Option.some.injEq] at h
            rw [← h]

theorem hmFindSt_frame (m : HM) (k : Nat) (p : HM × Option (Bool × KV))
    (h : hmFindSt m k = some p) : p.1 = m := by
  unfold hmFindSt at h
  have hpre : ∀ (r : Option (Bool × KV)), some (m, r) = some p → p.1 = m := by
    intro r hh
    simp only [Option.some.injEq] at hh
    rw [← hh]
  by_cases hr : ¬m.rehashing_
  · rw [if_pos hr] at h
    cases h0 : fhFind m.current_ k with
    | none =>
        rw [h0] at h
        cases h
    | some r0 =>
        rw [h0] at h
        simp only [Option.map_some', Option.bind_eq_bind, Option.some_bind] at h
        cases h1 : fhFind (if m.old_.size_ < m.current_.size_ then m.current_ else m.old_) k with
        | none => rw [h1] at h; cases h
        | some r1 =>
            rw [h1] at h
            simp only [Option.bind_eq_bind, Option.some_bind] at h
            cases r1 with
            | some q => exact hpre _ h
            | none =>
                cases h2 : fhFind (if m.old_.size_ < m.current_.size_ then m.old_ else m.current_) k with
                | none => rw [h2] at h; cases h
                | some r2 =>
                    rw [h2] at h
                    simp only [Option.bind_eq_bind, Option.some_bind] at h
                    cases r2 with
                    | some q => exact hpre _ h
                    | none => exact hpre _ h
  · rw [if_neg hr] at h
    simp only [Option.bind_eq_bind, Option.some_bind] at h
    cases h1 : fhFind (if m.old_.size_ < m.current_.size_ then m.current_ else m.old_) k with
    | none => rw [h1] at h; cases h
    | some r1 =>
        rw [h1] at h
        simp only [Option.bind_eq_bind, Option.some_bind] at h
        cases r1 with
        | some q => exact hpre _ h
        | none =>
            cases h2 : fhFind (if m.old_.size_ < m.current_.size_ then m.old_ else m.current_) k with
            | none => rw [h2] at h; cases h
            | some r2 =>
                rw [h2] at h
                simp only [Option.bind_eq_bind, Option.some_bind] at h
                cases r2 with
                | some q => exact hpre _ h
                | none => exact hpre _ h

theorem hmInsert_old_size (m : HM) (kv : KV) (p : HM × Bool)
    (h : hmInsert m kv = some p) :
    m.old_.size_ ≤ p.1.old_.size_ + k_num_items_to_steal := by
  unfold hmInsert at h
  cases hmp : move_progressively m with
  | none => rw [hmp] at h; cases h
  | some m1 =>
      rw [hmp] at h
      simp only [Option.bind_eq_bind, Option.some_bind] at h
      have hb1 := mp_old_size m m1 hmp
      by_cases hr : ¬m1.rehashing_
      · rw [if_pos hr] at h
        cases hins : fhInsert m1.current_ kv with
        | none => rw [hins] at h; cases h
        | some q =>
            obtain ⟨cur', ins⟩ := q
            rw [hins] at h
            simp only [Option.bind_eq_bind, Option.some_bind] at h
            cases hmr : maybe_rehash { m1 with current_ := cur' } with
            | none => rw [hmr] at h; cases h
            | some m3 =>
                rw [hmr] at h
                simp only [Option.bind_eq_bind, Option.some_bind,
                  Option.some.injEq] at h
                have hp : p.1 = m3 := by
                  rw [← h]
                have hmo := maybe_rehash_old_size _ _ hmr
                have hold : ({ m1 with current_ := cur' } : HM).old_.size_
                    = m1.old_.size_ := rfl
                rw [hold] at hmo
                rw [hp]
                simp only [k_num_items_to_steal] at hb1 ⊢
                omega
      · rw [if_neg hr] at h
        cases hf : fhFind m1.old_ kv.1 with
        | none => rw [hf] at h; cases h
        | some found =>
            rw [hf] at h
            simp only [Option.bind_eq_bind, Option.some_bind] at h
            cases found with
            | some q0 =>
                cases hmr : maybe_rehash m1 with
                | none => rw [hmr] at h; cases h
                | some m3 =>
                    rw [hmr] at h
                    simp only [Option.bind_eq_bind, Option.some_bind,
                      Option.some.injEq] at h
                    have hp : p.1 = m3 := by
                      rw [← h]
                    have hmo := maybe_rehash_old_size _ _ hmr
                    rw [hp]
                    simp only [k_num_items_to_steal] at hb1 ⊢
                    omega
            | none =>
                cases hins : fhInsert m1.current_ kv with
                | none => rw [hins] at h; cases h
                | some q =>
                    obtain ⟨cur', ins⟩ := q
                    rw [hins] at h
                    simp only [Option.bind_eq_bind, Option.some_bind] at h
                    cases hmr : maybe_rehash { m1 with current_ := cur' } with
                    | none => rw [hmr] at h; cases h
                    | some m3 =>
                        rw [hmr] at h
                        simp only [Option.bind_eq_bind, Option.some_bind,
                          Option.some.injEq] at h
                        have hp : p.1 = m3 := by
                          rw [← h]
                        have hmo := maybe_rehash_old_size _ _ hmr
                        have hold : ({ m1 with current_ := cur' } : HM).old_.size_
                            = m1.old_.size_ := rfl
                        rw [hold] at hmo
                        rw [hp]
                        simp only [k_num_items_to_steal] at hb1 ⊢
                        omega

theorem hmAt_old_size (m : HM) (k : Nat) (p : HM × Nat)
    (h : hmAt m k = some p) :
    m.old_.size_ ≤ p.1.old_.size_ + k_num_items_to_steal := by
  unfold hmAt at h
  cases hmp : move_progressively m with
  | none => rw [hmp] at h; cases h
  | some m1 =>
      rw [hmp] at h
      simp only [Option.bind_eq_bind, Option.some_bind] at h
      have hb1 := mp_old_size m m1 hmp
      by_cases hr : ¬m1.rehashing_
      · rw [if_pos hr] at h
        cases hins : fhAt m1.current_ k with
        | none => rw [hins] at h; cases h
        | some q =>
            obtain ⟨cur', v⟩ := q
            rw [hins] at h
            simp only [Option.bind_eq_bind, Option.some_bind] at h
            cases hmr : maybe_rehash { m1 with current_ := cur' } with
            | none => rw [hmr] at h; cases h
            | some m3 =>
                rw [hmr] at h
                simp only [Option.bind_eq_bind, Option.some_bind,
                  Option.some.injEq] at h
                have hp : p.1 = m3 := by
                  rw [← h]
                have hmo := maybe_rehash_old_size _ _ hmr
                have hold : ({ m1 with current_ := cur' } : HM).old_.size_
                    = m1.old_.size_ := rfl
                rw [hold] at hmo
                rw [hp]
                simp only [k_num_items_to_steal] at hb1 ⊢
                omega
      · rw [if_neg hr] at h
        cases hf : fhFind m1.old_ k with
        | none => rw [hf] at h; cases h
        | some found =>
            rw [hf] at h
            simp only [Option.bind_eq_bind, Option.some_bind] at h
            cases found with
            | some q0 =>
                cases hmr : maybe_rehash m1 with
                | none => rw [hmr] at h; cases h
                | some m3 =>
                    rw [hmr] at h
                    simp only [Option.bind_eq_bind, Option.some_bind,
                      Option.some.injEq] at h
                    have hp : p.1 = m3 := by
                      rw [← h]
                    have hmo := maybe_rehash_old_size _ _ hmr
                    rw [hp]
                    simp only [k_num_items_to_steal] at hb1 ⊢
                    omega
            | none =>
                cases hins : fhAt m1.current_ k with
                | none => rw [hins] at h; cases h
                | some q =>
                    obtain ⟨cur', v⟩ := q
                    rw [hins] at h
                    simp only [Option.bind_eq_bind, Option.some_bind] at h
                    cases hmr : maybe_rehash { m1 with current_ := cur' } with
                    | none => rw [hmr] at h; cases h
                    | some m3 =>
                        rw [hmr] at h
                        simp only [Option.bind_eq_bind, Option.some_bind,
                          Option.some.injEq] at h
                        have hp : p.1 = m3 := by
                          rw [← h]
                        have hmo := maybe_rehash_old_size _ _ hmr
                        have hold : ({ m1 with current_ := cur' } : HM).old_.size_
                            = m1.old_.size_ := rfl
                        rw [hold] at hmo
                        rw [hp]
                        simp only [k_num_items_to_steal] at hb1 ⊢
                        omega

theorem hmErase_old_size (m : HM) (k : Nat) (p : HM × Nat)
    (h : hmErase m k = some p) :
    m.old_.size_ ≤ p.1.old_.size_ + k_num_items_to_steal + 1 := by
  unfold hmErase at h
  cases hmp : move_progressively m with
  | none => rw [hmp] at h; cases h
  | some m1 =>
      rw [hmp] at h
      simp only [Option.bind_eq_bind, Option.some_bind] at h
      have hb1 := mp_old_size m m1 hmp
      by_cases hr : ¬m1.rehashing_
      · rw [if_pos hr] at h
        cases hers : fhErase m1.current_ k with
        | none => rw [hers] at h; cases h
        | some q =>
            obtain ⟨cur', n1⟩ := q
            rw [hers] at h
            simp only [Option.bind_eq_bind, Option.some_bind] at h
            cases hmr : maybe_rehash { m1 with current_ := cur' } with
            | none => rw [hmr] at h; cases h
            | some m3 =>
                rw [hmr] at h
                simp only [Option.bind_eq_bind, Option.some_bind,
                  Option.some.injEq] at h
                have hp : p.1 = m3 := by
                  rw [← h]
                have hmo := maybe_rehash_old_size _ _ hmr
                have hold : ({ m1 with current_ := cur' } : HM).old_.size_
                    = m1.old_.size_ := rfl
                rw [hold] at hmo
                rw [hp]
                simp only [k_num_items_to_steal] at hb1 ⊢
                omega
      · rw [if_neg hr] at h
        cases hers : fhErase m1.current_ k with
        | none => rw [hers] at h; cases h
        | some q =>
            obtain ⟨cur', n1⟩ := q
            rw [hers] at h
            simp only [Option.bind_eq_bind, Option.some_bind] at h
            cases hero : fhErase m1.old_ k with
            | none => rw [hero] at h; cases h
            | some q2 =>
                obtain ⟨old', n2⟩ := q2
                rw [hero] at h
                simp only [Option.bind_eq_bind, Option.some_bind] at h
                have hod := fhErase_size_le m1.old_ k old' n2 hero
                cases hmr : maybe_rehash { m1 with current_ := cur', old_ := old' } with
                | none => rw [hmr] at h; cases h
                | some m2 =>
                    rw [hmr] at h
                    simp only [Option.bind_eq_bind, Option.some_bind] at h
                    cases hmr2 : maybe_rehash m2 with
                    | none => rw [hmr2] at h; cases h
                    | some m3 =>
                        rw [hmr2] at h
                        simp only [Option.bind_eq_bind, Option.some_bind,
                          Option.some.injEq] at h
                        have hp : p.1 = m3 := by
                          rw [← h]
                        have hmo := maybe_rehash_old_size _ _ hmr
                        have hmo2 := maybe_rehash_old_size _ _ hmr2
                        have hold : ({ m1 with current_ := cur', old_ := old' } : HM).old_.size_
                            = old'.size_ := rfl
                        rw [hold] at hmo
                        rw [hp]
                        simp only [k_num_items_to_steal] at hb1 ⊢
                        omega

/-- C7: the read-only operations `find` and `contains` never mutate the
map (their translations thread the state through unchanged on every
success path — neither calls `move_progressively` and neither writes a
field), while each mutating public call (`insert`/`emplace`, `at` /
`operator[]`, `erase`) runs exactly one `move_progressively` first and
decreases `old_.size_` by at most `STEAL_BATCH = k_num_items_to_steal = 1`
— plus at most one more binding that `erase` removes from `old_` during
rehashing.  (When the call instead begins a new rehash, `old_` is
replaced by the former `current_`; its size then only grows, which the
bound also allows.) -/
theorem c7_read_only_frame_and_migration_bound (m : HM) (k : Nat) (kv : KV) :
    (∀ p, hmFindSt m k = some p → p.1 = m) ∧
    (∀ p, hmContainsSt m k = some p → p.1 = m) ∧
    (∀ p, hmInsert m kv = some p →
      m.old_.size_ ≤ p.1.old_.size_ + k_num_items_to_steal) ∧
    (∀ p, hmAt m k = some p →
      m.old_.size_ ≤ p.1.old_.size_ + k_num_items_to_steal) ∧
    (∀ p, hmErase m k = some p →
      m.old_.size_ ≤ p.1.old_.size_ + k_num_items_to_steal + 1) :=
  ⟨fun p => hmFindSt_frame m k p, fun p => hmContainsSt_frame m k p,
   fun p => hmInsert_old_size m kv p, fun p => hmAt_old_size m k p,
   fun p => hmErase_old_size m k p⟩

/-- Witness for C7 at the concrete one-element map `c9_m1`. -/
theorem c7_read_only_frame_and_migration_bound_witness :
    (∃ p, hmFindSt c9_m1 1 = some p ∧ p.1 = c9_m1) ∧
    (∃ p, hmContainsSt c9_m1 1 = some p ∧ p.1 = c9_m1) ∧
    (∃ p, hmInsert c9_m1 (2, 7) = some p ∧
      c9_m1.old_.size_ ≤ p.1.old_.size_ + k_num_items_to_steal) ∧
    (∃ p, hmAt c9_m1 1 = some p ∧
      c9_m1.old_.size_ ≤ p.1.old_.size_ + k_num_items_to_steal) ∧
    (∃ p, hmErase c9_m1 1 = some p ∧
      c9_m1.old_.size_ ≤ p.1.old_.size_ + k_num_items_to_steal + 1) := by
  obtain ⟨h1, h2, h3, h4, h5⟩ :=
    c7_read_only_frame_and_migration_bound c9_m1 1 (2, 7)
  exact ⟨⟨_, rfl, h1 _ rfl⟩, ⟨_, rfl, h2 _ rfl⟩, ⟨_, rfl, h3 _ rfl⟩,
         ⟨_, rfl, h4 _ rfl⟩, ⟨_, rfl, h5 _ rfl⟩⟩

theorem allPairs_replicate_nil (cap : Nat) (h : Nat → Nat) :
    allPairs (fhNew cap h) = [] := by
  show (List.replicate cap ([] : List KV)).flatten = []
  induction cap with
  | zero => rfl
  | succ c ih => simpa [List.replicate_succ] using ih

theorem fhNew_wf (cap : Nat) (h : Nat → Nat) : FixedWf (fhNew cap h) := by
  constructor
  · show 0 = sumSizes (List.replicate cap [])
    rw [sumSizes_eq_length_flatten]
    have h0 : (List.replicate cap ([] : List KV)).flatten = [] :=
      allPairs_replicate_nil cap h
    rw [h0]
    rfl
  · intro i b hb
    have : b = [] := by
      have := List.get?_mem hb
      exact List.eq_of_mem_replicate this
    subst this
    exact ⟨fun p hp => absurd hp (List.not_mem_nil p), List.nodup_nil⟩

theorem allPairs_eq_nil_of_size (t : FixedHM) (hsum : t.size_ = sumSizes t.table_)
    (hz : t.size_ = 0) : allPairs t = [] := by
  have : (allPairs t).length = 0 := by
    show t.table_.flatten.length = 0
    rw [← sumSizes_eq_length_flatten]
    omega
  exact List.eq_nil_of_length_eq_zero this

theorem countP_pos_iff_mem (l : List KV) (p : KV) :
    p ∈ l ↔ 0 < l.countP (fun q => q == p) := by
  constructor
  · intro h
    exact List.countP_pos_iff.mpr ⟨p, h, by simp⟩
  · intro h
    obtain ⟨q, hq, hfq⟩ := List.countP_pos_iff.mp h
    have : q = p := by simpa using hfq
    rw [← this]
    exact hq

theorem fhInsert_len_ne_zero (t : FixedHM) (kv : KV) (q : FixedHM × Bool)
    (h : fhInsert t kv = some q) : t.table_.length ≠ 0 := by
  intro hz
  unfold fhInsert at h
  unfold FixedHM.hash at h
  rw [if_pos hz] at h
  cases h

theorem fhAt_len_ne_zero (t : FixedHM) (k : Nat) (q : FixedHM × Nat)
    (h : fhAt t k = some q) : t.table_.length ≠ 0 := by
  intro hz
  unfold fhAt at h
  unfold FixedHM.hash at h
  rw [if_pos hz] at h
  cases h

theorem fhErase_len_ne_zero (t : FixedHM) (k : Nat) (q : FixedHM × Nat)
    (h : fhErase t k = some q) : t.table_.length ≠ 0 := by
  intro hz
  unfold fhErase at h
  unfold FixedHM.hash at h
  rw [if_pos hz] at h
  cases h

theorem fhFind_len_ne_zero (t : FixedHM) (k : Nat) (q : Option KV)
    (h : fhFind t k = some q) : t.table_.length ≠ 0 := by
  intro hz
  unfold fhFind at h
  unfold FixedHM.hash at h
  rw [if_pos hz] at h
  cases h

theorem insertAll_spec :
    ∀ (elements : List KV) (cur cur' : FixedHM),
      insertAll cur elements = some cur' → FixedWf cur →
      (∀ p ∈ elements, keyCount (allPairs cur) p.1 = 0) →
      (elements.map Prod.fst).Nodup →
      FixedWf cur' ∧
        cur'.table_.length = cur.table_.length ∧
        cur'.hash_function_ = cur.hash_function_ ∧
        cur'.stolen_bucket_ = cur.stolen_bucket_ ∧
        cur'.size_ = cur.size_ + elements.length ∧
        (∀ f : KV → Bool,
          (allPairs cur').countP f = (allPairs cur).countP f + elements.countP f) := by
  intro elements
  induction elements with
  | nil =>
      intro cur cur' heq hwf hdisj hnd
      injection heq with heq
      subst heq
      refine ⟨hwf, rfl, rfl, rfl, by simp, ?_⟩
      intro f
      simp
  | cons e rest ih =>
      intro cur cur' heq hwf hdisj hnd
      unfold insertAll at heq
      simp only [Option.bind_eq_bind] at heq
      cases hins0 : fhInsert cur e with
      | none =>
          rw [hins0] at heq
          simp only [Option.none_bind] at heq
          cases heq
      | some q =>
          obtain ⟨t', ins⟩ := q
          rw [hins0] at heq
          simp only [Option.some_bind] at heq
          obtain ⟨hwf', hlen', hhash', hcur', hsize', hfalse, htrue,
                  hcount'⟩ := fhInsert_spec cur e t' ins hwf hins0
          have hins : ins = true := by
            cases hcase : ins
            · obtain ⟨-, hge⟩ := hfalse hcase
              have := hdisj e (List.mem_cons_self e rest)
              omega
            · rfl
          subst hins
          have hdisj' : ∀ p ∈ rest, keyCount (allPairs t') p.1 = 0 := by
            intro p hp
            have hc := hcount' (fun q => q.1 == p.1)
            have hz := hdisj p (List.mem_cons_of_mem e hp)
            have hne : (e.1 == p.1) = false := by
              simp only [List.map_cons, List.nodup_cons] at hnd
              have : e.1 ≠ p.1 := by
                intro hh
                exact hnd.1 (hh ▸ List.mem_map_of_mem Prod.fst hp)
              simp [this]
            rw [hne] at hc
            show (allPairs t').countP (fun q => q.1 == p.1) = 0
            simp only [if_true, Bool.false_eq_true, if_false] at hc
            have : keyCount (allPairs cur) p.1
                = (allPairs cur).countP (fun q => q.1 == p.1) := rfl
            omega
          have hnd' : (rest.map Prod.fst).Nodup := by
            simp only [List.map_cons, List.nodup_cons] at hnd
            exact hnd.2
          obtain ⟨hwf2, hlen2, hhash2, hcur2, hsize2, hcount2⟩ :=
            ih t' cur' heq hwf' hdisj' hnd'
          refine ⟨hwf2, by omega, by rw [hhash2, hhash'],
                  by rw [hcur2, hcur'], by rw [hsize2, hsize']; simp; omega, ?_⟩
          intro f
          have h1 := hcount' f
          have h2 := hcount2 f
          rw [List.countP_cons]
          simp only [if_true] at h1
          by_cases hf : f e = true
          · rw [hf] at h1 ⊢
            simp only [if_true] at h1 ⊢
            omega
          · have hf2 : f e = false := by
              cases hc : f e
              · rfl
              · exact absurd hc hf
            rw [hf2] at h1 ⊢
            simp only [Bool.false_eq_true, if_false] at h1 ⊢
            omega

theorem bucketKeysOk_of_drops (t t' : FixedHM)
    (hko : bucketKeysOk t)
    (hlen : t'.table_.length = t.table_.length)
    (hhash : t'.hash_function_ = t.hash_function_)
    (hdrop : ∀ i, ∃ d, t'.table_.get? i
      = (t.table_.get? i).map (fun bb => bb.drop d)) :
    bucketKeysOk t' := by
  intro i b' hb'
  obtain ⟨d, hd⟩ := hdrop i
  rw [hb'] at hd
  cases hcase : t.table_.get? i with
  | none =>
      rw [hcase] at hd
      cases hd
  | some b =>
      rw [hcase] at hd
      simp only [Option.map_some', Option.some.injEq] at hd
      have hsub : b'.Sublist b := by
        rw [hd]
        exact List.drop_sublist d b
      constructor
      · intro p hp
        rw [hhash, hlen]
        exact (hko i b hcase).1 p (hsub.mem hp)
      · exact List.Nodup.sublist (List.Sublist.map Prod.fst hsub) (hko i b hcase).2

theorem mp_spec (m m' : HM) (wf : HMWf m)
    (hmp : move_progressively m = some m') :
    HMWf m' ∧
      m'.current_.table_.length = m.current_.table_.length ∧
      hmSize m' = hmSize m ∧
      (∀ f : KV → Bool,
        (allPairs m'.current_).countP f + (allPairs m'.old_).countP f
          = (allPairs m.current_).countP f + (allPairs m.old_).countP f) := by
  cases hre : m.rehashing_ with
  | false =>
      have hid : move_progressively m = some m := by
        unfold move_progressively
        simp [hre]
      rw [hid] at hmp
      injection hmp with hmp
      subst hmp
      exact ⟨wf, rfl, rfl, fun f => rfl⟩
  | true =>
      have hlenold : m.old_.table_.length ≠ 0 := wf.rehash_old_len hre
      obtain ⟨stolen, old', hsteq, hslen, hsum', hszeq, hlen', hhash', hcurlt,
              habove', hdropped, hcountS⟩ :=
        fhSteal_spec m.old_ k_num_items_to_steal wf.old_wf.sum_ok
          (wf.old_cursor hlenold) wf.old_above
      have hmpeq : move_progressively m
          = (if stolen.isEmpty = true ∧ old'.size_ = 0 then
               some { m with rehashing_ := false, old_ := fhNew 1 defaultHashFn }
             else
               (insertAll m.current_ stolen).bind fun cur' =>
                 some { m with current_ := cur', old_ := old' }) := by
        unfold move_progressively
        rw [if_neg (by simp [hre]), hsteq]
        simp only [Option.bind_eq_bind, Option.some_bind]
      have hold'wf : FixedWf old' := by
        refine ⟨hsum', ?_⟩
        exact bucketKeysOk_of_drops m.old_ old' wf.old_wf.keys_ok hlen' hhash'
          hdropped
      by_cases hfin : stolen.isEmpty = true ∧ old'.size_ = 0
      · obtain ⟨hse, hsz⟩ := hfin
        have hstnil : stolen = [] := List.isEmpty_iff.mp hse
        have hold'nil : allPairs old' = [] := allPairs_eq_nil_of_size old' hsum' hsz
        have holdnil : allPairs m.old_ = [] := by
          have hc := hcountS (fun _ => true)
          rw [hstnil] at hc
          have h0 : (allPairs old').countP (fun _ => true) = 0 := by
            rw [hold'nil]
            rfl
          have hlenz : (allPairs m.old_).countP (fun _ => true) = 0 := by
            simp only [List.countP_nil] at hc
            omega
          have hlc : (allPairs m.old_).countP (fun _ => true)
              = (allPairs m.old_).length :=
            List.countP_eq_length.mpr (fun a _ => rfl)
          exact List.eq_nil_of_length_eq_zero (by omega)
        have holdsz : m.old_.size_ = 0 := by
          rw [hstnil] at hszeq
          simp only [List.length_nil] at hszeq
          omega
        rw [hmpeq, if_pos ⟨hse, hsz⟩] at hmp
        injection hmp with hmp
        subst hmp
        refine ⟨?_, rfl, ?_, ?_⟩
        · constructor
          · exact wf.cur_wf
          · exact fhNew_wf 1 defaultHashFn
          · exact wf.cur_cursor
          · intro _
            show ((1 : Int) - 1) < (1 : Int)
            omega
          · intro i b hb hi
            have := List.get?_mem hb
            have : b = [] := List.eq_of_mem_replicate this
            exact this
          · intro k
            have hd := wf.disj k
            have h0 : keyCount (allPairs (fhNew 1 defaultHashFn)) k = 0 := by
              rw [allPairs_replicate_nil]
              rfl
            show keyCount (allPairs m.current_) k
                + keyCount (allPairs (fhNew 1 defaultHashFn)) k ≤ 1
            omega
          · intro _
            exact allPairs_replicate_nil 1 defaultHashFn
          · intro hcontra
            cases hcontra
          · intro hcontra
            cases hcontra
          · intro hz
            exact ⟨(wf.cur0_empty hz).1, allPairs_replicate_nil 1 defaultHashFn⟩
        · show m.current_.size_ + (fhNew 1 defaultHashFn).size_
              = m.current_.size_ + m.old_.size_
          rw [holdsz]
          rfl
        · intro f
          have h1 : (allPairs (fhNew 1 defaultHashFn)).countP f = 0 := by
            rw [allPairs_replicate_nil]
            rfl
          have h2 : (allPairs m.old_).countP f = 0 := by
            rw [holdnil]
            rfl
          show (allPairs m.current_).countP f + _ = (allPairs m.current_).countP f + _
          rw [h1, h2]
      · rw [hmpeq, if_neg hfin] at hmp
        cases hst : stolen with
        | nil =>
            have hsz' : old'.size_ ≠ 0 := by
              intro hzz
              exact hfin ⟨by rw [hst]; rfl, hzz⟩
            have hmsz : m.old_.size_ = old'.size_ := by
              rw [hst] at hszeq
              simpa using hszeq
            rw [hst] at hmp
            rw [show insertAll m.current_ [] = some m.current_ from rfl] at hmp
            simp only [Option.some_bind] at hmp
            injection hmp with hmp
            subst hmp
            refine ⟨?_, rfl, ?_, ?_⟩
            · constructor
              · exact wf.cur_wf
              · exact hold'wf
              · exact wf.cur_cursor
              · intro hl
                exact hcurlt
              · exact habove'
              · intro k
                have hd := wf.disj k
                have hc := hcountS (fun q => q.1 == k)
                rw [hst] at hc
                simp only [List.countP_nil] at hc
                show keyCount (allPairs m.current_) k + keyCount (allPairs old') k ≤ 1
                unfold keyCount at hd ⊢
                omega
              · intro hfalse
                rw [hre] at hfalse
                cases hfalse
              · intro _
                rw [hlen']
                exact hlenold
              · intro _ hsz2
                exact wf.rehash_cur_len hre (by omega)
              · intro hz
                obtain ⟨hc1, hc2⟩ := wf.cur0_empty hz
                refine ⟨hc1, ?_⟩
                have hc := hcountS (fun _ => true)
                rw [hst] at hc
                simp only [List.countP_nil] at hc
                rw [hc2] at hc
                simp only [List.countP_nil] at hc
                have hlc : (allPairs old').countP (fun _ => true)
                    = (allPairs old').length :=
                  List.countP_eq_length.mpr (fun a _ => rfl)
                show allPairs old' = []
                exact List.eq_nil_of_length_eq_zero (by omega)
            · show m.current_.size_ + old'.size_ = m.current_.size_ + m.old_.size_
              omega
            · intro f
              have hc := hcountS f
              rw [hst] at hc
              simp only [List.countP_nil] at hc
              show (allPairs m.current_).countP f + (allPairs old').countP f
                  = (allPairs m.current_).countP f + (allPairs m.old_).countP f
              omega
        | cons e rest =>
            have hrest : rest = [] := by
              rw [hst] at hslen
              simp only [List.length_cons, k_num_items_to_steal] at hslen
              exact List.eq_nil_of_length_eq_zero (by omega)
            subst hrest
            have hmsz : m.old_.size_ = old'.size_ + 1 := by
              rw [hst] at hszeq
              simpa using hszeq
            have hlencur : m.current_.table_.length ≠ 0 :=
              wf.rehash_cur_len hre (by omega)
            have hkey0 : keyCount (allPairs m.current_) e.1 = 0 := by
              have hc := hcountS (fun q => q.1 == e.1)
              rw [hst] at hc
              have h1 : (List.countP (fun q => q.1 == e.1) [e]) = 1 := by
                simp [List.countP_cons]
              have hd := wf.disj e.1
              unfold keyCount at hd ⊢
              omega
            have hex : ∃ cur', insertAll m.current_ [e] = some cur' := by
              cases hq : insertAll m.current_ [e] with
              | none =>
                  rw [hst, hq] at hmp
                  simp only [Option.none_bind] at hmp
                  cases hmp
              | some cur' => exact ⟨cur', rfl⟩
            obtain ⟨cur', hins⟩ := hex
            rw [hst, hins] at hmp
            simp only [Option.some_bind] at hmp
            injection hmp with hmp
            subst hmp
            obtain ⟨hcwf', hclen', hchash', hccur', hcsize',
                    hccount'⟩ :=
              insertAll_spec [e] m.current_ cur' hins wf.cur_wf
                (by
                  intro p hp
                  rcases List.mem_singleton.mp hp with rfl
                  exact hkey0)
                (by simp)
            refine ⟨?_, ?_, ?_, ?_⟩
            · constructor
              · exact hcwf'
              · exact hold'wf
              · intro hl
                rw [hccur', hclen']
                exact wf.cur_cursor (by omega)
              · intro hl
                exact hcurlt
              · exact habove'
              · intro k
                have hd := wf.disj k
                have hcS := hcountS (fun q => q.1 == k)
                have hcC := hccount' (fun q => q.1 == k)
                rw [hst] at hcS
                show keyCount (allPairs cur') k + keyCount (allPairs old') k ≤ 1
                unfold keyCount at hd ⊢
                omega
              · intro hfalse
                rw [hre] at hfalse
                cases hfalse
              · intro _
                rw [hlen']
                exact hlenold
              · intro _ _
                rw [hclen']
                exact hlencur
              · intro hz
                rw [hclen'] at hz
                exact absurd hz hlencur
            · exact hclen'
            · show cur'.size_ + old'.size_ = m.current_.size_ + m.old_.size_
              rw [hcsize']
              simp only [List.length_cons, List.length_nil]
              omega
            · intro f
              have hcS := hcountS f
              have hcC := hccount' f
              rw [hst] at hcS
              show (allPairs cur').countP f + (allPairs old').countP f
                  = (allPairs m.current_).countP f + (allPairs m.old_).countP f
              omega

theorem hmRehash_spec (m : HM) (wf : HMWf m) (ns : Nat)
    (hre : m.rehashing_ = false)
    (hlen : m.current_.table_.length ≠ 0)
    (hns : m.current_.size_ ≠ 0 → ns ≠ 0) :
    ∃ m', hmRehash m ns = some m' ∧ HMWf m' ∧
      hmSize m' = hmSize m ∧
      (∀ f : KV → Bool,
        (allPairs m'.current_).countP f + (allPairs m'.old_).countP f
          = (allPairs m.current_).countP f + (allPairs m.old_).countP f) := by
  have holdnil : allPairs m.old_ = [] := wf.idle_old hre
  have holdsz : m.old_.size_ = 0 := by
    have h := wf.old_wf.sum_ok
    unfold allPairs at holdnil
    unfold sumSizes at h
    rw [← List.length_flatten, holdnil] at h
    simpa using h
  refine ⟨⟨fhNew ns defaultHashFn, m.current_, true⟩, ?_, ?_, ?_, ?_⟩
  · unfold hmRehash
    rw [if_neg (by omega)]
  · constructor
    · exact fhNew_wf ns defaultHashFn
    · exact wf.cur_wf
    · intro hl
      show ((ns : Int) - 1) = ((List.replicate ns ([] : List KV)).length : Int) - 1
      rw [List.length_replicate]
    · intro hl
      show m.current_.stolen_bucket_ < (m.current_.table_.length : Int)
      rw [wf.cur_cursor hl]
      omega
    · intro i b hb hi
      show b = []
      have hilt : i < m.current_.table_.length := by
        rcases List.get?_eq_some.mp hb with ⟨hlt, _⟩
        exact hlt
      rw [wf.cur_cursor hlen] at hi
      omega
    · intro k
      have hd := wf.disj k
      have h0 : keyCount (allPairs (fhNew ns defaultHashFn)) k = 0 := by
        rw [allPairs_replicate_nil]
        rfl
      show keyCount (allPairs (fhNew ns defaultHashFn)) k
          + keyCount (allPairs m.current_) k ≤ 1
      omega
    · intro hfalse
      cases hfalse
    · intro _
      exact hlen
    · intro _ hsz
      show (List.replicate ns ([] : List KV)).length ≠ 0
      rw [List.length_replicate]
      exact hns hsz
    · intro hz
      have hz' : ns = 0 := by
        have := List.length_replicate ns ([] : List KV)
        show ns = 0
        rw [← this]
        exact hz
      have hsz0 : m.current_.size_ = 0 := by
        by_contra hc
        exact hns hc hz'
      exact ⟨allPairs_replicate_nil ns defaultHashFn,
        allPairs_eq_nil_of_size m.current_ wf.cur_wf.sum_ok hsz0⟩
  · show (fhNew ns defaultHashFn).size_ + m.current_.size_
        = m.current_.size_ + m.old_.size_
    rw [holdsz]
    show 0 + m.current_.size_ = m.current_.size_ + 0
    omega
  · intro f
    have h1 : (allPairs (fhNew ns defaultHashFn)).countP f = 0 := by
      rw [allPairs_replicate_nil]
      rfl
    have h2 : (allPairs m.old_).countP f = 0 := by
      rw [holdnil]
      rfl
    show (allPairs (fhNew ns defaultHashFn)).countP f
          + (allPairs m.current_).countP f
        = (allPairs m.current_).countP f + (allPairs m.old_).countP f
    omega

theorem mr_spec (m : HM) (wf : HMWf m)
    (hpre : m.rehashing_ = true ∨ m.current_.table_.length ≠ 0) :
    ∃ m', maybe_rehash m = some m' ∧ HMWf m' ∧
      hmSize m' = hmSize m ∧
      (∀ f : KV → Bool,
        (allPairs m'.current_).countP f + (allPairs m'.old_).countP f
          = (allPairs m.current_).countP f + (allPairs m.old_).countP f) := by
  cases hre : m.rehashing_ with
  | true =>
      refine ⟨m, ?_, wf, rfl, fun f => rfl⟩
      unfold maybe_rehash
      rw [if_pos hre]
  | false =>
      have hlen : m.current_.table_.length ≠ 0 := by
        rcases hpre with h | h
        · rw [hre] at h
          cases h
        · exact h
      have hmain : maybe_rehash m
          = (if m.current_.table_.length * 3 ≤ m.current_.size_ * 4 then
               hmRehash m (m.current_.table_.length * 2)
             else if m.current_.size_ * 4 < m.current_.table_.length
                 ∧ 16 < m.current_.table_.length then
               hmRehash m (m.current_.size_ * 3)
             else some m) := by
        unfold maybe_rehash
        rw [if_neg (by rw [hre]; exact Bool.false_ne_true)]
      by_cases hgrow : m.current_.table_.length * 3 ≤ m.current_.size_ * 4
      · obtain ⟨m', h1, h2, h3, h4⟩ :=
          hmRehash_spec m wf (m.current_.table_.length * 2) hre hlen
            (fun _ => by omega)
        refine ⟨m', ?_, h2, h3, h4⟩
        rw [hmain, if_pos hgrow]
        exact h1
      · by_cases hshrink : m.current_.size_ * 4 < m.current_.table_.length
            ∧ 16 < m.current_.table_.length
        · obtain ⟨m', h1, h2, h3, h4⟩ :=
            hmRehash_spec m wf (m.current_.size_ * 3) hre hlen
              (fun hsz => by omega)
          refine ⟨m', ?_, h2, h3, h4⟩
          rw [hmain, if_neg hgrow, if_pos hshrink]
          exact h1
        · refine ⟨m, ?_, wf, rfl, fun f => rfl⟩
          rw [hmain, if_neg hgrow, if_neg hshrink]

theorem maybe_rehash_rehashing (m : HM) (hre : m.rehashing_ = true) :
    maybe_rehash m = some m := by
  unfold maybe_rehash
  rw [if_pos hre]

theorem hmNew_wf (cap : Nat) (hf : Nat → Nat) : HMWf (hmNew cap hf) := by
  constructor
  · exact fhNew_wf cap hf
  · exact fhNew_wf cap hf
  · intro hl
    show ((cap : Int) - 1) = ((List.replicate cap ([] : List KV)).length : Int) - 1
    rw [List.length_replicate]
  · intro hl
    show ((cap : Int) - 1) < ((List.replicate cap ([] : List KV)).length : Int)
    rw [List.length_replicate]
    have hcap : cap ≠ 0 := by
      have hl2 : (List.replicate cap ([] : List KV)).length ≠ 0 := hl
      rwa [List.length_replicate] at hl2
    omega
  · intro i b hb hi
    exact List.eq_of_mem_replicate (List.get?_mem hb)
  · intro k
    have h0 : keyCount (allPairs (fhNew cap hf)) k = 0 := by
      rw [allPairs_replicate_nil]
      rfl
    show keyCount (allPairs (fhNew cap hf)) k + keyCount (allPairs (fhNew cap hf)) k ≤ 1
    omega
  · intro _
    exact allPairs_replicate_nil cap hf
  · intro hx
    cases hx
  · intro hx
    cases hx
  · intro _
    exact ⟨allPairs_replicate_nil cap hf, allPairs_replicate_nil cap hf⟩

theorem hmClear_wf (m : HM) : HMWf (hmClear m) := by
  constructor
  · exact ⟨rfl, fun i b hb => by cases hb⟩
  · exact ⟨rfl, fun i b hb => by cases hb⟩
  · intro hl
    exact absurd rfl hl
  · intro hl
    exact absurd rfl hl
  · intro i b hb
    cases hb
  · intro k
    show keyCount (allPairs (fhClear m.current_)) k
        + keyCount (allPairs (fhClear m.old_)) k ≤ 1
    show keyCount [] k + keyCount [] k ≤ 1
    show List.countP (fun (p : KV) => p.1 == k) []
        + List.countP (fun (p : KV) => p.1 == k) [] ≤ 1
    simp
  · intro _
    rfl
  · intro hx
    cases hx
  · intro hx
    cases hx
  · intro _
    exact ⟨rfl, rfl⟩

theorem hm_update_cur_wf (m1 : HM) (wf1 : HMWf m1) (cur' : FixedHM)
    (hwf2 : FixedWf cur')
    (hlen2 : cur'.table_.length = m1.current_.table_.length)
    (hcur2 : cur'.stolen_bucket_ = m1.current_.stolen_bucket_)
    (hlenc : m1.current_.table_.length ≠ 0)
    (hdisj2 : ∀ k, keyCount (allPairs cur') k + keyCount (allPairs m1.old_) k ≤ 1) :
    HMWf { m1 with current_ := cur' } := by
  constructor
  · exact hwf2
  · exact wf1.old_wf
  · intro hl
    show cur'.stolen_bucket_ = (cur'.table_.length : Int) - 1
    rw [hcur2, hlen2]
    exact wf1.cur_cursor (by rwa [hlen2] at hl)
  · exact wf1.old_cursor
  · exact wf1.old_above
  · exact hdisj2
  · exact wf1.idle_old
  · exact wf1.rehash_old_len
  · intro _ _
    show cur'.table_.length ≠ 0
    rw [hlen2]
    exact hlenc
  · intro hz
    rw [show ({ m1 with current_ := cur' } : HM).current_.table_.length
        = cur'.table_.length from rfl, hlen2] at hz
    exact absurd hz hlenc

theorem hm_update_both_wf (m1 : HM) (wf1 : HMWf m1) (cur' old' : FixedHM)
    (hcwf : FixedWf cur') (howf : FixedWf old')
    (hclen : cur'.table_.length = m1.current_.table_.length)
    (hccur : cur'.stolen_bucket_ = m1.current_.stolen_bucket_)
    (holen : old'.table_.length = m1.old_.table_.length)
    (hocur : old'.stolen_bucket_ = m1.old_.stolen_bucket_)
    (hoemp : ∀ i, m1.old_.table_.get? i = some [] → old'.table_.get? i = some [])
    (hlenc : m1.current_.table_.length ≠ 0)
    (hre1 : m1.rehashing_ = true)
    (hdisj2 : ∀ k, keyCount (allPairs cur') k + keyCount (allPairs old') k ≤ 1) :
    HMWf { m1 with current_ := cur', old_ := old' } := by
  constructor
  · exact hcwf
  · exact howf
  · intro hl
    show cur'.stolen_bucket_ = (cur'.table_.length : Int) - 1
    rw [hccur, hclen]
    exact wf1.cur_cursor (by rwa [hclen] at hl)
  · intro hl
    show old'.stolen_bucket_ < (old'.table_.length : Int)
    rw [hocur, holen]
    exact wf1.old_cursor (by rwa [holen] at hl)
  · intro i b hb hi
    show b = []
    have hi' : m1.old_.stolen_bucket_ < (i : Int) := by
      rwa [show ({ m1 with current_ := cur', old_ := old' } : HM).old_.stolen_bucket_
          = old'.stolen_bucket_ from rfl, hocur] at hi
    have hb' : old'.table_.get? i = some b := hb
    have hilt : i < old'.table_.length := (List.get?_eq_some.mp hb').1
    cases hob : m1.old_.table_.get? i with
    | none =>
        have := List.get?_eq_none.mp hob
        rw [holen] at hilt
        omega
    | some b0 =>
        have hb0 : b0 = [] := wf1.old_above i b0 hob hi'
        rw [hb0] at hob
        have hfin := hoemp i hob
        rw [hb'] at hfin
        injection hfin with hfin
  · exact hdisj2
  · intro hx
    have hx' : m1.rehashing_ = false := hx
    rw [hre1] at hx'
    cases hx'
  · intro _
    show old'.table_.length ≠ 0
    rw [holen]
    exact wf1.rehash_old_len hre1
  · intro _ _
    show cur'.table_.length ≠ 0
    rw [hclen]
    exact hlenc
  · intro hz
    rw [show ({ m1 with current_ := cur', old_ := old' } : HM).current_.table_.length
        = cur'.table_.length from rfl, hclen] at hz
    exact absurd hz hlenc

theorem disj_after_insert (m1 : HM) (wf1 : HMWf m1) (cur' : FixedHM)
    (kv : KV) (ins : Bool)
    (hcnt2 : ∀ f : KV → Bool, (allPairs cur').countP f
      = (allPairs m1.current_).countP f
        + (if ins then (if f kv then 1 else 0) else 0))
    (htrue2 : ins = true → keyCount (allPairs m1.current_) kv.1 = 0)
    (hold0 : ins = true → keyCount (allPairs m1.old_) kv.1 = 0) :
    ∀ k, keyCount (allPairs cur') k + keyCount (allPairs m1.old_) k ≤ 1 := by
  intro k
  have hd := wf1.disj k
  have hc := hcnt2 (fun p => p.1 == k)
  cases hins2 : ins with
  | false =>
      rw [hins2] at hc
      rw [if_neg (by simp)] at hc
      unfold keyCount at hd ⊢
      omega
  | true =>
      by_cases hk : kv.1 = k
      · simp only [hins2, if_true, hk, beq_self_eq_true] at hc
        have h0 := htrue2 hins2
        have h1 := hold0 hins2
        rw [hk] at h0 h1
        unfold keyCount at h0 h1 ⊢
        omega
      · have hbk : (kv.1 == k) = false := by
          simp [hk]
        simp only [hins2, if_true, hbk, Bool.false_eq_true, if_false] at hc
        unfold keyCount at hd ⊢
        omega

theorem hmInsert_wf (m : HM) (kv : KV) (m' : HM) (r : Bool) (wf : HMWf m)
    (h : hmInsert m kv = some (m', r)) : HMWf m' := by
  unfold hmInsert at h
  have hex0 : ∃ m1, move_progressively m = some m1 := by
    cases hq : move_progressively m with
    | none =>
        rw [hq] at h
        simp only [Option.bind_eq_bind, Option.none_bind] at h
        cases h
    | some m1 => exact ⟨m1, rfl⟩
  obtain ⟨m1, hmp⟩ := hex0
  obtain ⟨wf1, hlen1, hsz1, hcnt1⟩ := mp_spec m m1 wf hmp
  rw [hmp] at h
  simp only [Option.bind_eq_bind, Option.some_bind] at h
  by_cases hr : ¬m1.rehashing_
  · rw [if_pos hr] at h
    cases hins : fhInsert m1.current_ kv with
    | none => rw [hins] at h; cases h
    | some q =>
        obtain ⟨cur', ins⟩ := q
        have hlenc : m1.current_.table_.length ≠ 0 :=
          fhInsert_len_ne_zero m1.current_ kv (cur', ins) hins
        obtain ⟨hwf2, hlen2, hhash2, hcur2, hsz2, hfalse2,
                htrue2, hcnt2⟩ := fhInsert_spec m1.current_ kv cur' ins
          wf1.cur_wf hins
        rw [hins] at h
        simp only [Option.bind_eq_bind, Option.some_bind] at h
        have hre1 : m1.rehashing_ = false := by
          cases hb : m1.rehashing_ with
          | false => rfl
          | true => exact absurd hb hr
        have wf2 : HMWf { m1 with current_ := cur' } :=
          hm_update_cur_wf m1 wf1 cur' hwf2 hlen2 hcur2 hlenc
            (disj_after_insert m1 wf1 cur' kv ins hcnt2 htrue2
              (fun _ => by
                rw [wf1.idle_old hre1]
                rfl))
        obtain ⟨m3, hmr, wf3, hsz3, hcnt3⟩ :=
          mr_spec { m1 with current_ := cur' } wf2
            (Or.inr (by
              show cur'.table_.length ≠ 0
              rw [hlen2]
              exact hlenc))
        rw [hmr] at h
        simp only [Option.bind_eq_bind, Option.some_bind, Option.some.injEq,
          Prod.mk.injEq] at h
        obtain ⟨h1, h2⟩ := h
        rw [← h1]
        exact wf3
  · rw [if_neg hr] at h
    have hre1 : m1.rehashing_ = true := by
      cases hb : m1.rehashing_ with
      | true => rfl
      | false => exact absurd (by rw [hb]; exact Bool.false_ne_true) hr
    cases hf : fhFind m1.old_ kv.1 with
    | none => rw [hf] at h; cases h
    | some found =>
        rw [hf] at h
        simp only [Option.bind_eq_bind, Option.some_bind] at h
        cases found with
        | some q0 =>
            rw [maybe_rehash_rehashing m1 hre1] at h
            simp only [Option.bind_eq_bind, Option.some_bind,
              Option.some.injEq, Prod.mk.injEq] at h
            obtain ⟨h1, h2⟩ := h
            rw [← h1]
            exact wf1
        | none =>
            have hlenold : m1.old_.table_.length ≠ 0 := wf1.rehash_old_len hre1
            obtain ⟨hnone0, hsome0⟩ :=
              fhFind_spec m1.old_ kv.1 none wf1.old_wf hf
            have hold0 : keyCount (allPairs m1.old_) kv.1 = 0 :=
              hnone0 rfl
            cases hins : fhInsert m1.current_ kv with
            | none => rw [hins] at h; cases h
            | some q =>
                obtain ⟨cur', ins⟩ := q
                have hlenc : m1.current_.table_.length ≠ 0 :=
                  fhInsert_len_ne_zero m1.current_ kv (cur', ins) hins
                obtain ⟨hwf2, hlen2, hhash2, hcur2, hsz2,
                        hfalse2, htrue2, hcnt2⟩ :=
                  fhInsert_spec m1.current_ kv cur' ins wf1.cur_wf hins
                rw [hins] at h
                simp only [Option.bind_eq_bind, Option.some_bind] at h
                have wf2 : HMWf { m1 with current_ := cur' } :=
                  hm_update_cur_wf m1 wf1 cur' hwf2 hlen2 hcur2 hlenc
                    (disj_after_insert m1 wf1 cur' kv ins hcnt2 htrue2
                      (fun _ => hold0))
                obtain ⟨m3, hmr, wf3, hsz3, hcnt3⟩ :=
                  mr_spec { m1 with current_ := cur' } wf2 (Or.inl hre1)
                rw [hmr] at h
                simp only [Option.bind_eq_bind, Option.some_bind,
                  Option.some.injEq, Prod.mk.injEq] at h
                obtain ⟨h1, h2⟩ := h
                rw [← h1]
                exact wf3

theorem hmAt_wf (m : HM) (k : Nat) (m' : HM) (v : Nat) (wf : HMWf m)
    (h : hmAt m k = some (m', v)) : HMWf m' := by
  unfold hmAt at h
  have hex0 : ∃ m1, move_progressively m = some m1 := by
    cases hq : move_progressively m with
    | none =>
        rw [hq] at h
        simp only [Option.bind_eq_bind, Option.none_bind] at h
        cases h
    | some m1 => exact ⟨m1, rfl⟩
  obtain ⟨m1, hmp⟩ := hex0
  obtain ⟨wf1, hlen1, hsz1, hcnt1⟩ := mp_spec m m1 wf hmp
  rw [hmp] at h
  simp only [Option.bind_eq_bind, Option.some_bind] at h
  by_cases hr : ¬m1.rehashing_
  · rw [if_pos hr] at h
    cases hat : fhAt m1.current_ k with
    | none => rw [hat] at h; cases h
    | some q =>
        obtain ⟨cur', v0⟩ := q
        have hlenc : m1.current_.table_.length ≠ 0 :=
          fhAt_len_ne_zero m1.current_ k (cur', v0) hat
        obtain ⟨added, hwf2, hlen2, hhash2, hcur2, hsz2,
                hfalse2, htrue2, hcnt2⟩ := fhAt_spec m1.current_ k cur' v0
          wf1.cur_wf hat
        rw [hat] at h
        simp only [Option.bind_eq_bind, Option.some_bind] at h
        have hre1 : m1.rehashing_ = false := by
          cases hb : m1.rehashing_ with
          | false => rfl
          | true => exact absurd hb hr
        have wf2 : HMWf { m1 with current_ := cur' } :=
          hm_update_cur_wf m1 wf1 cur' hwf2 hlen2 hcur2 hlenc
            (disj_after_insert m1 wf1 cur' (k, 0) added hcnt2 htrue2
              (fun _ => by
                rw [wf1.idle_old hre1]
                rfl))
        obtain ⟨m3, hmr, wf3, hsz3, hcnt3⟩ :=
          mr_spec { m1 with current_ := cur' } wf2
            (Or.inr (by
              show cur'.table_.length ≠ 0
              rw [hlen2]
              exact hlenc))
        rw [hmr] at h
        simp only [Option.bind_eq_bind, Option.some_bind, Option.some.injEq,
          Prod.mk.injEq] at h
        obtain ⟨h1, h2⟩ := h
        rw [← h1]
        exact wf3
  · rw [if_neg hr] at h
    have hre1 : m1.rehashing_ = true := by
      cases hb : m1.rehashing_ with
      | true => rfl
      | false => exact absurd (by rw [hb]; exact Bool.false_ne_true) hr
    cases hf : fhFind m1.old_ k with
    | none => rw [hf] at h; cases h
    | some found =>
        rw [hf] at h
        simp only [Option.bind_eq_bind, Option.some_bind] at h
        cases found with
        | some q0 =>
            rw [maybe_rehash_rehashing m1 hre1] at h
            simp only [Option.bind_eq_bind, Option.some_bind,
              Option.some.injEq, Prod.mk.injEq] at h
            obtain ⟨h1, h2⟩ := h
            rw [← h1]
            exact wf1
        | none =>
            have hlenold : m1.old_.table_.length ≠ 0 := wf1.rehash_old_len hre1
            obtain ⟨hnone0, hsome0⟩ :=
              fhFind_spec m1.old_ k none wf1.old_wf hf
            have hold0 : keyCount (allPairs m1.old_) k = 0 :=
              hnone0 rfl
            cases hat : fhAt m1.current_ k with
            | none => rw [hat] at h; cases h
            | some q =>
                obtain ⟨cur', v0⟩ := q
                have hlenc : m1.current_.table_.length ≠ 0 :=
                  fhAt_len_ne_zero m1.current_ k (cur', v0) hat
                obtain ⟨added, hwf2, hlen2, hhash2, hcur2, hsz2,
                        hfalse2, htrue2, hcnt2⟩ :=
                  fhAt_spec m1.current_ k cur' v0 wf1.cur_wf hat
                rw [hat] at h
                simp only [Option.bind_eq_bind, Option.some_bind] at h
                have wf2 : HMWf { m1 with current_ := cur' } :=
                  hm_update_cur_wf m1 wf1 cur' hwf2 hlen2 hcur2 hlenc
                    (disj_after_insert m1 wf1 cur' (k, 0) added hcnt2 htrue2
                      (fun _ => hold0))
                obtain ⟨m3, hmr, wf3, hsz3, hcnt3⟩ :=
                  mr_spec { m1 with current_ := cur' } wf2 (Or.inl hre1)
                rw [hmr] at h
                simp only [Option.bind_eq_bind, Option.some_bind,
                  Option.some.injEq, Prod.mk.injEq] at h
                obtain ⟨h1, h2⟩ := h
                rw [← h1]
                exact wf3

theorem hmErase_wf (m : HM) (k : Nat) (m' : HM) (n : Nat) (wf : HMWf m)
    (h : hmErase m k = some (m', n)) : HMWf m' := by
  unfold hmErase at h
  have hex0 : ∃ m1, move_progressively m = some m1 := by
    cases hq : move_progressively m with
    | none =>
        rw [hq] at h
        simp only [Option.bind_eq_bind, Option.none_bind] at h
        cases h
    | some m1 => exact ⟨m1, rfl⟩
  obtain ⟨m1, hmp⟩ := hex0
  obtain ⟨wf1, hlen1, hsz1, hcnt1⟩ := mp_spec m m1 wf hmp
  rw [hmp] at h
  simp only [Option.bind_eq_bind, Option.some_bind] at h
  by_cases hr : ¬m1.rehashing_
  · rw [if_pos hr] at h
    cases hera : fhErase m1.current_ k with
    | none => rw [hera] at h; cases h
    | some q =>
        obtain ⟨cur', n1⟩ := q
        have hlenc : m1.current_.table_.length ≠ 0 :=
          fhErase_len_ne_zero m1.current_ k (cur', n1) hera
        obtain ⟨removed, hwf2, hlen2, hhash2, hcur2, hn2le,
                hsz2, hrlen2, hzero2, hmem2, hemp2, hcnt2⟩ :=
          fhErase_spec m1.current_ k cur' n1 wf1.cur_wf hera
        rw [hera] at h
        simp only [Option.bind_eq_bind, Option.some_bind] at h
        have wf2 : HMWf { m1 with current_ := cur' } :=
          hm_update_cur_wf m1 wf1 cur' hwf2 hlen2 hcur2 hlenc
            (by
              intro k'
              have hd := wf1.disj k'
              have hc := hcnt2 (fun p => p.1 == k')
              show keyCount (allPairs cur') k' + keyCount (allPairs m1.old_) k' ≤ 1
              unfold keyCount at hd ⊢
              omega)
        obtain ⟨m3, hmr, wf3, hsz3, hcnt3⟩ :=
          mr_spec { m1 with current_ := cur' } wf2
            (Or.inr (by
              show cur'.table_.length ≠ 0
              rw [hlen2]
              exact hlenc))
        rw [hmr] at h
        simp only [Option.bind_eq_bind, Option.some_bind, Option.some.injEq,
          Prod.mk.injEq] at h
        obtain ⟨h1, h2⟩ := h
        rw [← h1]
        exact wf3
  · rw [if_neg hr] at h
    have hre1 : m1.rehashing_ = true := by
      cases hb : m1.rehashing_ with
      | true => rfl
      | false => exact absurd (by rw [hb]; exact Bool.false_ne_true) hr
    have hlenold : m1.old_.table_.length ≠ 0 := wf1.rehash_old_len hre1
    cases hera : fhErase m1.current_ k with
    | none => rw [hera] at h; cases h
    | some q =>
        obtain ⟨cur', n1⟩ := q
        have hlenc : m1.current_.table_.length ≠ 0 :=
          fhErase_len_ne_zero m1.current_ k (cur', n1) hera
        obtain ⟨removed, hcwf, hclen, hchash, hccur, hn2le,
                hcsz, hrlen2, hzero2, hmem2, hempC, hcntC⟩ :=
          fhErase_spec m1.current_ k cur' n1 wf1.cur_wf hera
        rw [hera] at h
        simp only [Option.bind_eq_bind, Option.some_bind] at h
        cases herb : fhErase m1.old_ k with
        | none => rw [herb] at h; cases h
        | some q2 =>
            obtain ⟨old', n2⟩ := q2
            obtain ⟨removed2, howf, holen, hohash, hocur, hn3le,
                    hosz, hrlen3, hzero3, hmem3, hempO, hcntO⟩ :=
              fhErase_spec m1.old_ k old' n2 wf1.old_wf herb
            rw [herb] at h
            simp only [Option.bind_eq_bind, Option.some_bind] at h
            have wf2 : HMWf { m1 with current_ := cur', old_ := old' } :=
              hm_update_both_wf m1 wf1 cur' old' hcwf howf hclen hccur
                holen hocur hempO hlenc hre1
                (by
                  intro k'
                  have hd := wf1.disj k'
                  have hc1 := hcntC (fun p => p.1 == k')
                  have hc2 := hcntO (fun p => p.1 == k')
                  show keyCount (allPairs cur') k' + keyCount (allPairs old') k' ≤ 1
                  unfold keyCount at hd ⊢
                  omega)
            rw [maybe_rehash_rehashing { m1 with current_ := cur', old_ := old' }
              (show ({ m1 with current_ := cur', old_ := old' } : HM).rehashing_
                = true from hre1)] at h
            simp only [Option.bind_eq_bind, Option.some_bind] at h
            rw [maybe_rehash_rehashing { m1 with current_ := cur', old_ := old' }
              (show ({ m1 with current_ := cur', old_ := old' } : HM).rehashing_
                = true from hre1)] at h
            simp only [Option.bind_eq_bind, Option.some_bind, Option.some.injEq,
              Prod.mk.injEq] at h
            obtain ⟨h1, h2⟩ := h
            rw [← h1]
            exact wf2

theorem reachable_wf (m : HM) (hr : Reachable m) : HMWf m := by
  induction hr with
  | init cap h => exact hmNew_wf cap h
  | insert_step kv _ hstep ih => exact hmInsert_wf _ kv _ _ ih hstep
  | at_step k _ hstep ih => exact hmAt_wf _ k _ _ ih hstep
  | erase_step k _ hstep ih => exact hmErase_wf _ k _ _ ih hstep
  | clear_step _ ih => exact hmClear_wf _

/-- C5: for every reachable `hashmap` state (any sequence of `insert`,
`emplace`, `at`, `operator[]`, `erase`, `clear` after construction) and
every key `k`, at most one binding for `k` exists across the union of the
`current_` and `old_` tables; and an `insert` during rehashing that finds
the key in `old_` returns `false` with the map exactly in the state
`move_progressively` left it — neither table is modified further. -/
theorem c5_at_most_one_binding_per_key (m : HM) (hr : Reachable m) :
    (∀ k, keyCount (allPairs m.current_) k + keyCount (allPairs m.old_) k ≤ 1) ∧
    (∀ (kv : KV) (m1 : HM) (p : KV),
      move_progressively m = some m1 → m1.rehashing_ = true →
      fhFind m1.old_ kv.1 = some (some p) →
      hmInsert m kv = some (m1, false)) := by
  refine ⟨(reachable_wf m hr).disj, ?_⟩
  intro kv m1 p hmp hre hf
  unfold hmInsert
  rw [hmp]
  simp only [Option.bind_eq_bind, Option.some_bind]
  rw [if_neg (fun hx => hx hre)]
  rw [hf]
  simp only [Option.bind_eq_bind, Option.some_bind]
  rw [maybe_rehash_rehashing m1 hre]
  simp only [Option.bind_eq_bind, Option.some_bind]

theorem c5_at_most_one_binding_per_key_witness :
    (∀ k, keyCount (allPairs (hmNew 2 (fun x => x)).current_) k
        + keyCount (allPairs (hmNew 2 (fun x => x)).old_) k ≤ 1) ∧
    (∀ (kv : KV) (m1 : HM) (p : KV),
      move_progressively (hmNew 2 (fun x => x)) = some m1 →
      m1.rehashing_ = true →
      fhFind m1.old_ kv.1 = some (some p) →
      hmInsert (hmNew 2 (fun x => x)) kv = some (m1, false)) :=
  c5_at_most_one_binding_per_key (hmNew 2 (fun x => x))
    (Reachable.init 2 (fun x => x))

theorem countP_two_of_mem_ne (l : List KV) (a b : KV) (f : KV → Bool)
    (ha : a ∈ l) (hb : b ∈ l) (hne : a ≠ b)
    (hfa : f a = true) (hfb : f b = true) : 2 ≤ l.countP f := by
  obtain ⟨s, t, rfl⟩ := List.append_of_mem ha
  rw [List.countP_append]
  rcases List.mem_append.mp hb with hbs | hbt
  · have h1 : 0 < s.countP f := List.countP_pos_iff.mpr ⟨b, hbs, hfb⟩
    have h2 : 0 < (a :: t).countP f :=
      List.countP_pos_iff.mpr ⟨a, List.mem_cons_self a t, hfa⟩
    omega
  · rcases List.mem_cons.mp hbt with hba | hbt2
    · exact absurd hba.symm hne
    · have h1 : 0 < t.countP f := List.countP_pos_iff.mpr ⟨b, hbt2, hfb⟩
      have h2 : (a :: t).countP f = t.countP f + 1 := by
        simp [List.countP_cons, hfa]
      rw [h2]
      omega

theorem fhLookup_unique_mem (t : FixedHM) (k v : Nat)
    (hmem : (k, v) ∈ allPairs t)
    (hone : keyCount (allPairs t) k ≤ 1) :
    fhLookup t k = some v := by
  have hsome : ((allPairs t).find? (fun p => p.1 == k)).isSome := by
    rw [List.find?_isSome]
    exact ⟨(k, v), hmem, by simp⟩
  obtain ⟨q, hq⟩ := Option.isSome_iff_exists.mp hsome
  have hqk : (q.1 == k) = true := by
    simpa using List.find?_some hq
  have hqm : q ∈ allPairs t := List.mem_of_find?_eq_some hq
  have hqv : q = (k, v) := by
    by_contra hne
    have h2 := countP_two_of_mem_ne (allPairs t) q (k, v)
      (fun p => p.1 == k) hqm hmem hne hqk (by simp)
    unfold keyCount at hone
    omega
  unfold fhLookup
  rw [hq, hqv]
  rfl

theorem fhLookup_none_of_zero (t : FixedHM) (k : Nat)
    (h0 : keyCount (allPairs t) k = 0) :
    fhLookup t k = none := by
  unfold fhLookup
  rw [List.find?_eq_none.mpr ?_]
  · rfl
  intro p hp hpk
  have hpos : 0 < (allPairs t).countP (fun p => p.1 == k) :=
    List.countP_pos_iff.mpr ⟨p, hp, hpk⟩
  unfold keyCount at h0
  omega

theorem mem_of_fhLookup (t : FixedHM) (k v : Nat)
    (h : fhLookup t k = some v) : (k, v) ∈ allPairs t := by
  unfold fhLookup at h
  cases hf : (allPairs t).find? (fun p => p.1 == k) with
  | none => rw [hf] at h; cases h
  | some q =>
      rw [hf] at h
      simp only [Option.map_some', Option.some.injEq] at h
      have hqk : (q.1 == k) = true := by
        simpa using List.find?_some hf
      have hqm : q ∈ allPairs t := List.mem_of_find?_eq_some hf
      have hq : q = (k, v) := by
        obtain ⟨q1, q2⟩ := q
        simp only [Prod.mk.injEq]
        constructor
        · simpa using hqk
        · exact h
      rw [← hq]
      exact hqm

theorem hmLookup_unique (m : HM) (k v : Nat)
    (hd : keyCount (allPairs m.current_) k + keyCount (allPairs m.old_) k ≤ 1)
    (hmem : (k, v) ∈ allPairs m.current_ ∨ (k, v) ∈ allPairs m.old_) :
    hmLookup m k = some v := by
  unfold hmLookup
  rcases hmem with hc | ho
  · rw [fhLookup_unique_mem m.current_ k v hc (by omega)]
  · have hpos : 0 < keyCount (allPairs m.old_) k := by
      unfold keyCount
      exact List.countP_pos_iff.mpr ⟨(k, v), ho, by simp⟩
    have hz : keyCount (allPairs m.current_) k = 0 := by omega
    rw [fhLookup_none_of_zero m.current_ k hz,
        fhLookup_unique_mem m.old_ k v ho (by omega)]

theorem hmLookup_mem (m : HM) (k v : Nat) (h : hmLookup m k = some v) :
    (k, v) ∈ allPairs m.current_ ∨ (k, v) ∈ allPairs m.old_ := by
  unfold hmLookup at h
  cases hc : fhLookup m.current_ k with
  | some w =>
      rw [hc] at h
      injection h with h
      subst h
      exact Or.inl (mem_of_fhLookup m.current_ k w hc)
  | none =>
      rw [hc] at h
      exact Or.inr (mem_of_fhLookup m.old_ k v h)

/-- C9 (amended): on any reachable map where key `kv.1` is already bound
to `v`, a second `insert(kv)` THAT COMPLETES (returns at all instead of
hitting the `un_treefy` corruption or the drained-tree-bucket `begin()`
null dereference) returns `false`, leaves the stored value `v` unchanged,
and leaves `size()` unchanged — both when rehashing is in progress and
when it is not. -/
theorem c9_insert_existing_key_noop_if_completes (m : HM) (hr : Reachable m)
    (kv : KV) (v : Nat) (hv : hmLookup m kv.1 = some v)
    (m' : HM) (r : Bool) (h : hmInsert m kv = some (m', r)) :
    r = false ∧ hmLookup m' kv.1 = some v ∧ hmSize m' = hmSize m := by
  have wf := reachable_wf m hr
  unfold hmInsert at h
  have hex0 : ∃ m1, move_progressively m = some m1 := by
    cases hq : move_progressively m with
    | none =>
        rw [hq] at h
        simp only [Option.bind_eq_bind, Option.none_bind] at h
        cases h
    | some m1 => exact ⟨m1, rfl⟩
  obtain ⟨m1, hmp⟩ := hex0
  obtain ⟨wf1, hlen1, hsz1, hcnt1⟩ := mp_spec m m1 wf hmp
  rw [hmp] at h
  simp only [Option.bind_eq_bind, Option.some_bind] at h
  have hmem0 := hmLookup_mem m kv.1 v hv
  have hpos0 : 0 < pairCount (allPairs m.current_) (kv.1, v)
      + pairCount (allPairs m.old_) (kv.1, v) := by
    rcases hmem0 with hc | ho
    · have h1 : 0 < pairCount (allPairs m.current_) (kv.1, v) :=
        (countP_pos_iff_mem (allPairs m.current_) (kv.1, v)).mp hc
      omega
    · have h1 : 0 < pairCount (allPairs m.old_) (kv.1, v) :=
        (countP_pos_iff_mem (allPairs m.old_) (kv.1, v)).mp ho
      omega
  have hc1 : pairCount (allPairs m1.current_) (kv.1, v)
      + pairCount (allPairs m1.old_) (kv.1, v)
      = pairCount (allPairs m.current_) (kv.1, v)
        + pairCount (allPairs m.old_) (kv.1, v) :=
    hcnt1 (fun q => q == (kv.1, v))
  have hmem1 : (kv.1, v) ∈ allPairs m1.current_
      ∨ (kv.1, v) ∈ allPairs m1.old_ := by
    by_cases hcpos : 0 < pairCount (allPairs m1.current_) (kv.1, v)
    · exact Or.inl ((countP_pos_iff_mem _ _).mpr hcpos)
    · refine Or.inr ((countP_pos_iff_mem _ _).mpr ?_)
      show 0 < pairCount (allPairs m1.old_) (kv.1, v)
      omega
  by_cases hrb : ¬m1.rehashing_
  · rw [if_pos hrb] at h
    have hre1 : m1.rehashing_ = false := by
      cases hb : m1.rehashing_ with
      | false => rfl
      | true => exact absurd hb hrb
    have holdnil := wf1.idle_old hre1
    have hmemc : (kv.1, v) ∈ allPairs m1.current_ := by
      rcases hmem1 with hc | ho
      · exact hc
      · rw [holdnil] at ho
        exact absurd ho (List.not_mem_nil _)
    have hkc : 0 < keyCount (allPairs m1.current_) kv.1 := by
      unfold keyCount
      exact List.countP_pos_iff.mpr ⟨(kv.1, v), hmemc, by simp⟩
    cases hins : fhInsert m1.current_ kv with
    | none => rw [hins] at h; cases h
    | some q =>
        obtain ⟨cur2, ins⟩ := q
        rw [hins] at h
        simp only [Option.bind_eq_bind, Option.some_bind] at h
        obtain ⟨hwf2, hlen2, hhash2, hcur2, hsz2, hfalse2, htrue2, hcnt2⟩ :=
          fhInsert_spec m1.current_ kv cur2 ins wf1.cur_wf hins
        have hins2 : ins = false := by
          cases hi : ins
          · rfl
          · have h0 := htrue2 hi
            omega
        subst hins2
        obtain ⟨ht2, -⟩ := hfalse2 rfl
        subst ht2
        have hlenc : m1.current_.table_.length ≠ 0 := by
          intro hz
          rcases wf1.cur0_empty hz with ⟨hcz, -⟩
          rw [hcz] at hmemc
          exact absurd hmemc (List.not_mem_nil _)
        obtain ⟨m3, hmr, wf3, hsz3, hcnt3⟩ :=
          mr_spec { m1 with current_ := m1.current_ }
            (wf1 : HMWf { m1 with current_ := m1.current_ }) (Or.inr hlenc)
        rw [hmr] at h
        simp only [Option.bind_eq_bind, Option.some_bind, Option.some.injEq,
          Prod.mk.injEq] at h
        obtain ⟨h1, h2⟩ := h
        subst h1
        refine ⟨h2.symm, ?_, ?_⟩
        · have hc3 : pairCount (allPairs m3.current_) (kv.1, v)
              + pairCount (allPairs m3.old_) (kv.1, v)
              = pairCount (allPairs m1.current_) (kv.1, v)
                + pairCount (allPairs m1.old_) (kv.1, v) :=
            hcnt3 (fun q => q == (kv.1, v))
          have hm1pos : 0 < pairCount (allPairs m1.current_) (kv.1, v) :=
            (countP_pos_iff_mem (allPairs m1.current_) (kv.1, v)).mp hmemc
          have hmem3 : (kv.1, v) ∈ allPairs m3.current_
              ∨ (kv.1, v) ∈ allPairs m3.old_ := by
            by_cases hp : 0 < pairCount (allPairs m3.current_) (kv.1, v)
            · exact Or.inl ((countP_pos_iff_mem _ _).mpr hp)
            · refine Or.inr ((countP_pos_iff_mem _ _).mpr ?_)
              show 0 < pairCount (allPairs m3.old_) (kv.1, v)
              omega
          exact hmLookup_unique m3 kv.1 v (wf3.disj kv.1) hmem3
        · have hsz3b : hmSize m3 = hmSize m1 := hsz3
          rw [hsz3b, hsz1]
  · rw [if_neg hrb] at h
    have hre1 : m1.rehashing_ = true := by
      cases hb : m1.rehashing_ with
      | true => rfl
      | false => exact absurd (by rw [hb]; exact Bool.false_ne_true) hrb
    cases hf : fhFind m1.old_ kv.1 with
    | none => rw [hf] at h; cases h
    | some found =>
        rw [hf] at h
        simp only [Option.bind_eq_bind, Option.some_bind] at h
        cases found with
        | some q0 =>
            rw [maybe_rehash_rehashing m1 hre1] at h
            simp only [Option.bind_eq_bind, Option.some_bind, Option.some.injEq,
              Prod.mk.injEq] at h
            obtain ⟨h1, h2⟩ := h
            subst h1
            exact ⟨h2.symm, hmLookup_unique m1 kv.1 v (wf1.disj kv.1) hmem1,
                   hsz1⟩
        | none =>
            obtain ⟨hnone0, hsome0⟩ :=
              fhFind_spec m1.old_ kv.1 none wf1.old_wf hf
            have hold0 : keyCount (allPairs m1.old_) kv.1 = 0 := hnone0 rfl
            have hmemc : (kv.1, v) ∈ allPairs m1.current_ := by
              rcases hmem1 with hc | ho
              · exact hc
              · exfalso
                have hpos : 0 < keyCount (allPairs m1.old_) kv.1 := by
                  unfold keyCount
                  exact List.countP_pos_iff.mpr ⟨(kv.1, v), ho, by simp⟩
                omega
            have hkc : 0 < keyCount (allPairs m1.current_) kv.1 := by
              unfold keyCount
              exact List.countP_pos_iff.mpr ⟨(kv.1, v), hmemc, by simp⟩
            cases hins : fhInsert m1.current_ kv with
            | none => rw [hins] at h; cases h
            | some q =>
                obtain ⟨cur2, ins⟩ := q
                rw [hins] at h
                simp only [Option.bind_eq_bind, Option.some_bind] at h
                obtain ⟨hwf2, hlen2, hhash2, hcur2, hsz2, hfalse2, htrue2,
                        hcnt2⟩ :=
                  fhInsert_spec m1.current_ kv cur2 ins wf1.cur_wf hins
                have hins2 : ins = false := by
                  cases hi : ins
                  · rfl
                  · have h0 := htrue2 hi
                    omega
                subst hins2
                obtain ⟨ht2, -⟩ := hfalse2 rfl
                subst ht2
                obtain ⟨m3, hmr, wf3, hsz3, hcnt3⟩ :=
                  mr_spec { m1 with current_ := m1.current_ }
                    (wf1 : HMWf { m1 with current_ := m1.current_ })
                    (Or.inl hre1)
                rw [hmr] at h
                simp only [Option.bind_eq_bind, Option.some_bind,
                  Option.some.injEq, Prod.mk.injEq] at h
                obtain ⟨h1, h2⟩ := h
                subst h1
                refine ⟨h2.symm, ?_, ?_⟩
                · have hc3 : pairCount (allPairs m3.current_) (kv.1, v)
                      + pairCount (allPairs m3.old_) (kv.1, v)
                      = pairCount (allPairs m1.current_) (kv.1, v)
                        + pairCount (allPairs m1.old_) (kv.1, v) :=
                    hcnt3 (fun q => q == (kv.1, v))
                  have hm1pos : 0 < pairCount (allPairs m1.current_) (kv.1, v) :=
                    (countP_pos_iff_mem (allPairs m1.current_) (kv.1, v)).mp hmemc
                  have hmem3 : (kv.1, v) ∈ allPairs m3.current_
                      ∨ (kv.1, v) ∈ allPairs m3.old_ := by
                    by_cases hp : 0 < pairCount (allPairs m3.current_) (kv.1, v)
                    · exact Or.inl ((countP_pos_iff_mem _ _).mpr hp)
                    · refine Or.inr ((countP_pos_iff_mem _ _).mpr ?_)
                      show 0 < pairCount (allPairs m3.old_) (kv.1, v)
                      omega
                  exact hmLookup_unique m3 kv.1 v (wf3.disj kv.1) hmem3
                · have hsz3b : hmSize m3 = hmSize m1 := hsz3
                  rw [hsz3b, hsz1]

theorem c9step1 : hmInsert c9x0 (14, 14) = some (c9x1, true) := by
  rfl

theorem c9step2 : hmInsert c9x1 (29, 29) = some (c9x2, true) := by
  rfl

theorem c9step3 : hmInsert c9x2 (44, 44) = some (c9x3, true) := by
  rfl

theorem c9step4 : hmInsert c9x3 (59, 59) = some (c9x4, true) := by
  rfl

theorem c9step5 : hmInsert c9x4 (74, 74) = some (c9x5, true) := by
  rfl

theorem c9step6 : hmInsert c9x5 (89, 89) = some (c9x6, true) := by
  rfl

theorem c9step7 : hmInsert c9x6 (104, 104) = some (c9x7, true) := by
  rfl

theorem c9step8 : hmInsert c9x7 (119, 119) = some (c9x8, true) := by
  rfl

theorem c9step9 : hmInsert c9x8 (134, 134) = some (c9x9, true) := by
  rfl

theorem c9step10 : hmInsert c9x9 (149, 149) = some (c9x10, true) := by
  rfl

theorem c9step11 : hmInsert c9x10 (164, 164) = some (c9x11, true) := by
  rfl

theorem c9step12 : hmInsert c9x11 (0, 0) = some (c9x12, true) := by
  rfl

theorem c9step13 : hmInsert c9x12 (1, 1) = some (c9x13, true) := by
  rfl

theorem c9step14 : hmInsert c9x13 (2, 2) = some (c9x14, true) := by
  rfl

theorem c9step15 : hmInsert c9x14 (3, 3) = some (c9x15, true) := by
  rfl

theorem c9step16 : hmInsert c9x15 (4, 4) = some (c9x16, true) := by
  rfl

theorem c9step17 : hmInsert c9x16 (5, 5) = some (c9x17, true) := by
  rfl

theorem c9step18 : hmInsert c9x17 (6, 6) = some (c9x18, true) := by
  rfl

theorem c9step19 : hmInsert c9x18 (7, 7) = some (c9x19, true) := by
  rfl

theorem c9step20 : hmInsert c9x19 (8, 8) = some (c9x20, true) := by
  rfl

theorem c9step21 : hmInsert c9x20 (9, 9) = some (c9x21, true) := by
  rfl

theorem c9step22 : hmInsert c9x21 (10, 10) = some (c9x22, true) := by
  rfl

theorem c9step23 : hmInsert c9x22 (11, 11) = some (c9x23, true) := by
  rfl

theorem c9x23_reachable : Reachable c9x23 :=
  Reachable.insert_step (11, 11)
    (Reachable.insert_step (10, 10)
    (Reachable.insert_step (9, 9)
    (Reachable.insert_step (8, 8)
    (Reachable.insert_step (7, 7)
    (Reachable.insert_step (6, 6)
    (Reachable.insert_step (5, 5)
    (Reachable.insert_step (4, 4)
    (Reachable.insert_step (3, 3)
    (Reachable.insert_step (2, 2)
    (Reachable.insert_step (1, 1)
    (Reachable.insert_step (0, 0)
    (Reachable.insert_step (164, 164)
    (Reachable.insert_step (149, 149)
    (Reachable.insert_step (134, 134)
    (Reachable.insert_step (119, 119)
    (Reachable.insert_step (104, 104)
    (Reachable.insert_step (89, 89)
    (Reachable.insert_step (74, 74)
    (Reachable.insert_step (59, 59)
    (Reachable.insert_step (44, 44)
    (Reachable.insert_step (29, 29)
    (Reachable.insert_step (14, 14)
    (Reachable.init 15 (fun k => k)) c9step1) c9step2) c9step3) c9step4) c9step5) c9step6) c9step7) c9step8) c9step9) c9step10) c9step11) c9step12) c9step13) c9step14) c9step15) c9step16) c9step17) c9step18) c9step19) c9step20) c9step21) c9step22) c9step23

/-- C9 counterexample: on the reachable state `c9x23` the key 14 is bound
to 14 (its binding has migrated to `current_`), but `insert((14, 999))`
does not return `(iterator, false)` — after the migration step drains the
last old element, the map is still rehashing, so the insert probes
`old_.find(14)`, and `begin()` on old bucket 14 — empty but still
tree-regime — dereferences the null `root_`: the call faults instead of
returning. -/
theorem c9_insert_existing_key_counterexample :
    Reachable c9x23 ∧
    hmLookup c9x23 14 = some 14 ∧
    hmInsert c9x23 (14, 999) = none :=
  ⟨c9x23_reachable, rfl, rfl⟩

theorem c9_insert_existing_key_noop_if_completes_witness :
    hmLookup c9_m1 (1, 7).1 = some 5 ∧
    (false = false ∧ hmLookup c9_m2 (1, 7).1 = some 5 ∧
      hmSize c9_m2 = hmSize c9_m1) :=
  ⟨rfl,
   c9_insert_existing_key_noop_if_completes c9_m1
     (Reachable.insert_step (1, 5) (Reachable.init 3 (fun k => k)) rfl)
     (1, 7) 5 rfl c9_m2 false rfl⟩
